import Mathlib

/-
Verification of the maze-generation engine (geometry.py, mazegen.py,
tetris_maze.py) against its design specification.

The Python code is shallowly embedded:
* `Direction`, `Symmetry`, `TetrisPiece` are the corresponding enums.
* A Python `Cell` stores a set of walls (subset of the four directions),
  a `visited` flag and two classification flags; we model the wall set
  by four booleans.  Cells are identified by their coordinates, which in
  Python never change after construction, so maze operations take
  coordinates where the source passes cell objects.
* A `Maze` owns a dense `width x height` array of cells; we model the
  array by a function `Int -> Int -> Cell` (the source only ever reads
  or writes cells whose coordinates passed the `get_cell` bounds check,
  so values at out-of-range coordinates are irrelevant junk).
* Python's global `random` state is modelled by an explicit stream of
  natural numbers (`List Nat`); `random.choice(l)` consumes one number
  `n` and picks index `n % len(l)`, `random.random() < p` consumes one
  number and turns it into a boolean.  Every outcome sequence of the
  Python program corresponds to some stream, and the embedding is
  deterministic in the stream.
* Unbounded `while` loops are modelled with explicit fuel that provably
  dominates the length of every terminating run; fuel exhaustion (the
  `none` result) models divergence.
* `Maze.generate` returns `Option Maze`: `none` models a Python crash
  (start cell out of range) or divergence of the dead-end loop.
-/

namespace Lab

/-- Direction enum from geometry.py. -/
inductive Direction where
  | up
  | down
  | left
  | right
deriving DecidableEq, Repr

/-- Direction.value: the unit vector of each direction. -/
def Direction.value : Direction → Int × Int
  | .up => (0, -1)
  | .down => (0, 1)
  | .left => (-1, 0)
  | .right => (1, 0)

/-- Direction.opposite. -/
def Direction.opposite : Direction → Direction
  | .up => .down
  | .down => .up
  | .left => .right
  | .right => .left

/-- Direction.all, in the source's fixed order. -/
def Direction.allDirs : List Direction := [.up, .down, .left, .right]

/-- Direction.from_vector. -/
def Direction.from_vector (dx dy : Int) : Option Direction :=
  if dx = 1 ∧ dy = 0 then some .right
  else if dx = -1 ∧ dy = 0 then some .left
  else if dx = 0 ∧ dy = 1 then some .down
  else if dx = 0 ∧ dy = -1 then some .up
  else none

/-- Symmetry enum from mazegen.py. -/
inductive Symmetry where
  | none
  | horizontal
  | vertical
  | rotational
  | both
deriving DecidableEq, Repr

/-- A maze cell: the wall set (one boolean per direction), the DFS
`visited` flag and the two derived classification flags.  The `type` and
`distance` fields of the Python class are never read by the generation
engine and are omitted. -/
@[ext] structure Cell where
  wallUp : Bool
  wallDown : Bool
  wallLeft : Bool
  wallRight : Bool
  visited : Bool
  is_intersection : Bool
  is_dead_end : Bool
deriving DecidableEq, Repr

/-- A fresh cell as built by `Cell.__init__`: empty wall set, all flags
clear. -/
def Cell.init : Cell :=
  { wallUp := false, wallDown := false, wallLeft := false, wallRight := false,
    visited := false, is_intersection := false, is_dead_end := false }

/-- Cell.has_wall. -/
def Cell.has_wall (c : Cell) : Direction → Bool
  | .up => c.wallUp
  | .down => c.wallDown
  | .left => c.wallLeft
  | .right => c.wallRight

/-- Cell.add_wall. -/
def Cell.add_wall (c : Cell) : Direction → Cell
  | .up => { c with wallUp := true }
  | .down => { c with wallDown := true }
  | .left => { c with wallLeft := true }
  | .right => { c with wallRight := true }

/-- Cell.remove_wall (`set.discard`: removing an absent wall is a no-op). -/
def Cell.remove_wall (c : Cell) : Direction → Cell
  | .up => { c with wallUp := false }
  | .down => { c with wallDown := false }
  | .left => { c with wallLeft := false }
  | .right => { c with wallRight := false }

/-- The cell with all four walls present (`set(Direction.all())`). -/
def Cell.withAllWalls (c : Cell) : Cell :=
  { c with wallUp := true, wallDown := true, wallLeft := true, wallRight := true }

/-- Cell.wall_count. -/
def Cell.wall_count (c : Cell) : Nat :=
  (cond c.wallUp 1 0) + (cond c.wallDown 1 0) +
    (cond c.wallLeft 1 0) + (cond c.wallRight 1 0)

/-- Cell.exit_count. -/
def Cell.exit_count (c : Cell) : Nat := 4 - c.wall_count

/-- Cell.is_corner: exactly two walls that are not mutually opposite.
(The Python code lists the two set elements and compares one against the
opposite of the other; since `opposite` is an involution the outcome does
not depend on the iteration order of the set.) -/
def Cell.is_corner (c : Cell) : Bool :=
  c.wall_count == 2 && !((c.wallUp && c.wallDown) || (c.wallLeft && c.wallRight))

/-- The maze.  `fruit_pos` and `power_pellet_positions` are never read by
the generation engine and are omitted. -/
@[ext] structure Maze where
  width : Nat
  height : Nat
  wrap : Bool
  symmetry : Symmetry
  cells : Int → Int → Cell

/-- The raw constructor body of `Maze.__init__` (all cells fresh). -/
def mkMazeRaw (w h : Nat) (wrap : Bool) (sym : Symmetry) : Maze :=
  { width := w, height := h, wrap := wrap, symmetry := sym,
    cells := fun _ _ => Cell.init }

/-- Whether the symmetry mode requires an even width
(`symmetry in [HORIZONTAL, ROTATIONAL, BOTH]`). -/
def Symmetry.requiresEvenWidth : Symmetry → Bool
  | .horizontal | .rotational | .both => true
  | _ => false

/-- Whether the symmetry mode requires an even height
(`symmetry in [VERTICAL, ROTATIONAL, BOTH]`). -/
def Symmetry.requiresEvenHeight : Symmetry → Bool
  | .vertical | .rotational | .both => true
  | _ => false

/-- `Maze.__init__` including its dimension validation: a raised
`ValueError` is modelled by `Except.error`, in which case no maze value
is produced. -/
def mazeInit (w h : Nat) (wrap : Bool) (sym : Symmetry) : Except String Maze :=
  if sym.requiresEvenWidth && !(w % 2 == 0) then
    .error "Ancho debe ser par para simetria"
  else if sym.requiresEvenHeight && !(h % 2 == 0) then
    .error "Alto debe ser par para simetria"
  else
    .ok (mkMazeRaw w h wrap sym)

/-- Whether `(x, y)` indexes an actual cell of the dense array. -/
def Maze.inBounds (m : Maze) (x y : Int) : Bool :=
  0 ≤ x && x < (m.width : Int) && 0 ≤ y && y < (m.height : Int)

/-- `Maze.get_cell`, returning the coordinates of the addressed cell
(cells are identified by their coordinates).  With wrap the coordinates
are reduced modulo the dimensions (Python's `%` on a positive modulus is
`Int.emod`); without wrap, out-of-range coordinates give `None`. -/
def Maze.get_cell (m : Maze) (x y : Int) : Option (Int × Int) :=
  if m.wrap then some (x % (m.width : Int), y % (m.height : Int))
  else if x < 0 ∨ (m.width : Int) ≤ x ∨ y < 0 ∨ (m.height : Int) ≤ y then none
  else some (x, y)

/-- `Maze.get_neighbor` (by coordinates). -/
def Maze.get_neighbor (m : Maze) (x y : Int) (d : Direction) : Option (Int × Int) :=
  m.get_cell (x + d.value.1) (y + d.value.2)

/-- Point update of one cell of the array. -/
def Maze.modifyCell (m : Maze) (x y : Int) (f : Cell → Cell) : Maze :=
  { m with cells := fun a b => if a = x ∧ b = y then f (m.cells a b) else m.cells a b }

/-- `cell.remove_wall(d)` for the cell at `(x, y)`. -/
def Maze.removeWallAt (m : Maze) (x y : Int) (d : Direction) : Maze :=
  m.modifyCell x y (fun c => c.remove_wall d)

/-- `Maze.remove_wall_between`, by the coordinates of the two cells. -/
def Maze.remove_wall_between (m : Maze) (x1 y1 x2 y2 : Int) : Maze :=
  let dx := x2 - x1
  let dy := y2 - y1
  match Direction.from_vector dx dy with
  | some d => (m.removeWallAt x1 y1 d).removeWallAt x2 y2 d.opposite
  | none =>
    if m.wrap then
      if dx = (m.width : Int) - 1 ∧ dy = 0 then
        (m.removeWallAt x1 y1 .left).removeWallAt x2 y2 .right
      else if dx = -((m.width : Int) - 1) ∧ dy = 0 then
        (m.removeWallAt x1 y1 .right).removeWallAt x2 y2 .left
      else if dx = 0 ∧ dy = (m.height : Int) - 1 then
        (m.removeWallAt x1 y1 .up).removeWallAt x2 y2 .down
      else if dx = 0 ∧ dy = -((m.height : Int) - 1) then
        (m.removeWallAt x1 y1 .down).removeWallAt x2 y2 .up
      else m
    else m

/-- `Maze._get_symmetric_cell`: the orbit positions of `(x, y)`. -/
def Maze.get_symmetric_cell (m : Maze) (x y : Int) : List (Int × Int) :=
  let w : Int := m.width
  let h : Int := m.height
  match m.symmetry with
  | .none => [(x, y)]
  | .horizontal =>
    if w - 1 - x ≠ x then [(x, y), (w - 1 - x, y)] else [(x, y)]
  | .vertical =>
    if h - 1 - y ≠ y then [(x, y), (x, h - 1 - y)] else [(x, y)]
  | .rotational =>
    if w - 1 - x ≠ x ∨ h - 1 - y ≠ y then [(x, y), (w - 1 - x, h - 1 - y)]
    else [(x, y)]
  | .both =>
    let l1 := if w - 1 - x ≠ x then [(w - 1 - x, y)] else []
    let l2 := if h - 1 - y ≠ y then [(x, h - 1 - y)] else []
    let l3 := if w - 1 - x ≠ x ∧ h - 1 - y ≠ y then [(w - 1 - x, h - 1 - y)] else []
    (x, y) :: (l1 ++ l2 ++ l3)

/-- The direction transform applied at orbit position `(px, py)` of the
carve at `(cx, cy)` (the `symmetric_directions` computation). -/
def symStepDir (cx cy px py : Int) (d : Direction) : Direction :=
  if px = cx ∧ py = cy then d
  else if px - cx ≠ 0 then
    match d with
    | .left => .right
    | .right => .left
    | _ => d
  else if py - cy ≠ 0 then
    match d with
    | .up => .down
    | .down => .up
    | _ => d
  else d

/-- One iteration of the orbit loop of `_apply_symmetric_wall_removal`. -/
def Maze.applySymAt (m : Maze) (cx cy : Int) (d : Direction) (p : Int × Int) : Maze :=
  match m.get_cell p.1 p.2 with
  | none => m
  | some (bx, by2) =>
    let sd := symStepDir cx cy p.1 p.2 d
    match m.get_neighbor bx by2 sd with
    | none => m
    | some (nx, ny) => m.remove_wall_between bx by2 nx ny

/-- `Maze._apply_symmetric_wall_removal`. -/
def Maze.apply_symmetric_wall_removal (m : Maze) (cx cy : Int) (d : Direction) : Maze :=
  (m.get_symmetric_cell cx cy).foldl (fun acc p => acc.applySymAt cx cy d p) m

/-! ### Random stream -/

/-- Draw one number from the pseudorandom stream (an exhausted stream
keeps yielding 0; every Python outcome sequence is realised by some
stream). -/
def drawNat : List Nat → Nat × List Nat
  | [] => (0, [])
  | n :: r => (n, r)

/-- `random.choice(l)` for non-empty `l`: one draw selects the index. -/
def drawChoice {α : Type} (rng : List Nat) (l : List α) (dflt : α) : α × List Nat :=
  let (n, r) := drawNat rng
  (l.getD (n % l.length) dflt, r)

/-- `random.random() < p` as an abstract boolean draw. -/
def drawBool (rng : List Nat) : Bool × List Nat :=
  let (n, r) := drawNat rng
  (n % 10 < 3, r)

/-! ### Generation pipeline (mazegen.py) -/

/-- The list `[lo, lo+1, ..., hi-1]` (Python `range` over `Int`). -/
def intRange (lo hi : Int) : List Int :=
  (List.range (hi - lo).toNat).map (fun i : Nat => lo + (i : Int))

/-- The in-range positions in the iteration order of the nested
`for x ... for y ...` loops. -/
def posList (w h : Nat) : List (Int × Int) :=
  (intRange 0 w).flatMap (fun x => (intRange 0 h).map (fun y => (x, y)))

/-- The reset loop at the top of `Maze.generate`: every cell unvisited,
all four walls present. -/
def Maze.resetForGenerate (m : Maze) : Maze :=
  (posList m.width m.height).foldl
    (fun acc p => acc.modifyCell p.1 p.2 (fun c => { c.withAllWalls with visited := false }))
    m

/-- Mark the cell at `(x, y)` visited. -/
def Maze.setVisited (m : Maze) (x y : Int) : Maze :=
  m.modifyCell x y (fun c => { c with visited := true })

/-- The list of unvisited neighbors of the stack-top cell, with the
direction that reaches each, in `Direction.all()` order. -/
def Maze.unvisitedNeighbors (m : Maze) (x y : Int) : List ((Int × Int) × Direction) :=
  Direction.allDirs.filterMap (fun d =>
    match m.get_neighbor x y d with
    | some (nx, ny) => if (m.cells nx ny).visited then none else some ((nx, ny), d)
    | none => none)

/-- The DFS carving loop.  The head of the list is the top of the
Python stack.  Each iteration either pushes a newly visited cell or
pops, so `2*width*height + 2` fuel always suffices; `none` models fuel
exhaustion (proved unreachable from `generate`). -/
def Maze.dfsLoop : Nat → Maze → List (Int × Int) → List Nat → Option (Maze × List Nat)
  | 0, _, _, _ => none
  | _ + 1, m, [], rng => some (m, rng)
  | fuel + 1, m, (x, y) :: rest, rng =>
    let ns := m.unvisitedNeighbors x y
    if ns.isEmpty then Maze.dfsLoop fuel m rest rng
    else
      let (pick, rng1) := drawChoice rng ns (((0, 0) : Int × Int), .up)
      let m1 := m.apply_symmetric_wall_removal x y pick.2
      let m2 := m1.setVisited pick.1.1 pick.1.2
      Maze.dfsLoop fuel m2 (pick.1 :: (x, y) :: rest) rng1

/-- The mirror cell consulted by the reconciliation pass. -/
def Maze.reconcileBase (m : Maze) (x y : Int) : Option (Int × Int) :=
  match m.symmetry with
  | .horizontal =>
    m.get_cell (if x < (m.width : Int) / 2 then x else (m.width : Int) - 1 - x) y
  | .vertical =>
    m.get_cell x (if y < (m.height : Int) / 2 then y else (m.height : Int) - 1 - y)
  | .rotational =>
    m.get_cell (if x < (m.width : Int) / 2 then x else (m.width : Int) - 1 - x)
      (if y < (m.height : Int) / 2 then y else (m.height : Int) - 1 - y)
  | .both =>
    m.get_cell (if x < (m.width : Int) / 2 then x else (m.width : Int) - 1 - x)
      (if y < (m.height : Int) / 2 then y else (m.height : Int) - 1 - y)
  | .none => Option.none

/-- One cell of the symmetry-reconciliation post-pass of `generate`. -/
def Maze.reconcileAt (m : Maze) (p : Int × Int) : Maze :=
  let x := p.1
  let y := p.2
  if (m.cells x y).visited then m
  else
    match m.reconcileBase x y with
    | none => m
    | some (bx, by2) =>
      let base := m.cells bx by2
      if base.visited then
        m.modifyCell x y (fun c =>
          { c with wallUp := base.wallUp, wallDown := base.wallDown,
                   wallLeft := base.wallLeft, wallRight := base.wallRight,
                   visited := true })
      else m

/-- The symmetry-reconciliation post-pass of `generate` (the copy branch
only fires on cells left unvisited by the DFS loop). -/
def Maze.reconcileSymmetry (m : Maze) : Maze :=
  if m.symmetry = .none then m
  else (posList m.width m.height).foldl (fun acc p => acc.reconcileAt p) m

/-- `Maze._analyze_cells`. -/
def Maze.analyze_cells (m : Maze) : Maze :=
  (posList m.width m.height).foldl
    (fun acc p => acc.modifyCell p.1 p.2 (fun c =>
      { c with is_intersection := 2 < c.exit_count, is_dead_end := c.exit_count == 1 }))
    m

/-- The inner condition of the dead-end repair: a walled direction other
than the exit whose neighbor has at least two exits. -/
def Maze.rdeNbrOk (m : Maze) (x y : Int) (exitDir : Direction) (d : Direction) : Bool :=
  d ≠ exitDir && (m.cells x y).has_wall d &&
    match m.get_neighbor x y d with
    | some (nx, ny) => 2 ≤ (m.cells nx ny).exit_count
    | none => false

/-- One cell of a `_remove_dead_ends` sweep: returns the updated maze
and whether this cell set `changed`. -/
def Maze.rdeCellStep (m : Maze) (x y : Int) : Maze × Bool :=
  let c := m.cells x y
  if c.exit_count == 1 then
    match Direction.allDirs.find? (fun d => !(c.has_wall d)) with
    | some exitDir =>
      match Direction.allDirs.find? (m.rdeNbrOk x y exitDir) with
      | some d =>
        match m.get_neighbor x y d with
        | some (nx, ny) => (m.remove_wall_between x y nx ny, true)
        | none => (m, false)
      | none => (m, false)
    | none => (m, false)
  else (m, false)

/-- One full sweep of `_remove_dead_ends` over all cells. -/
def Maze.rdeSweep (m : Maze) : Maze × Bool :=
  (posList m.width m.height).foldl
    (fun acc p =>
      let (m1, ch) := acc.1.rdeCellStep p.1 p.2
      (m1, acc.2 || ch))
    (m, false)

/-- The `while changed` loop of `_remove_dead_ends`; `none` models
divergence (the loop can genuinely diverge under wrap). -/
def Maze.rdeLoop : Nat → Maze → Option Maze
  | 0, _ => none
  | fuel + 1, m =>
    let (m1, ch) := m.rdeSweep
    if ch then Maze.rdeLoop fuel m1 else some m1

/-- `Maze._remove_dead_ends` with fuel that dominates every terminating
run (a sweep that changes the maze removes at least one wall, and there
are at most `4*width*height` walls). -/
def Maze.remove_dead_ends (m : Maze) : Option Maze :=
  Maze.rdeLoop (4 * m.width * m.height + 3) m

/-- `Maze.generate` up to and including the symmetry-reconciliation
post-pass: the state "immediately after DFS carving, before dead-end
elimination". -/
def Maze.generateCarve (m : Maze) (start_x start_y : Int) (rng : List Nat) :
    Option (Maze × List Nat) :=
  let sx := if m.symmetry ≠ .none then min start_x ((m.width : Int) / 2) else start_x
  let sy := if m.symmetry ≠ .none then min start_y ((m.height : Int) / 2) else start_y
  let m1 := m.resetForGenerate
  match m1.get_cell sx sy with
  | none => none
  | some (cx, cy) =>
    let m2 := m1.setVisited cx cy
    match Maze.dfsLoop (2 * m.width * m.height + 2) m2 [(cx, cy)] rng with
    | none => none
    | some (m3, rng1) => some (m3.reconcileSymmetry, rng1)

/-- `Maze.generate`. -/
def Maze.generate (m : Maze) (start_x start_y : Int) (rng : List Nat) : Option Maze :=
  match m.generateCarve start_x start_y rng with
  | none => none
  | some (m1, _) => (m1.analyze_cells).remove_dead_ends

/-! ### Statistics (mazegen.py `get_statistics`) -/

/-- The integer fields of the statistics record (the two floating-point
averages are out of scope of the claims and omitted). -/
structure MazeStats where
  total_cells : Nat
  intersections : Nat
  dead_ends : Nat
  corridors : Nat
  total_walls : Nat
  walls_i : Nat
  walls_l : Nat
  walls_t : Nat
  walls_plus : Nat
deriving DecidableEq, Repr

/-- `Maze.get_statistics`. -/
def Maze.get_statistics (m : Maze) : MazeStats :=
  (posList m.width m.height).foldl
    (fun s p =>
      let c := m.cells p.1 p.2
      let s := { s with total_walls := s.total_walls + c.wall_count }
      let s :=
        if c.is_intersection then { s with intersections := s.intersections + 1 }
        else if c.is_dead_end then { s with dead_ends := s.dead_ends + 1 }
        else { s with corridors := s.corridors + 1 }
      if c.wall_count == 4 then { s with walls_i := s.walls_i + 1 }
      else if c.is_corner then { s with walls_l := s.walls_l + 1 }
      else if c.is_intersection then
        if c.exit_count == 1 then { s with walls_t := s.walls_t + 1 }
        else { s with walls_plus := s.walls_plus + 1 }
      else s)
    { total_cells := m.width * m.height, intersections := 0, dead_ends := 0,
      corridors := 0, total_walls := 0, walls_i := 0, walls_l := 0,
      walls_t := 0, walls_plus := 0 }

/-! ### Tetris pipeline (tetris_maze.py) -/

/-- TetrisPiece enum. -/
inductive TetrisPiece where
  | I
  | L
  | T
  | PLUS
  | SQUARE
deriving DecidableEq, Repr

/-- The four orientations `'TL' | 'TR' | 'BL' | 'BR'` of an L piece. -/
inductive LOrient where
  | tl
  | tr
  | bl
  | br
deriving DecidableEq, Repr

/-- Point update of a dense grid modelled as a function. -/
def setG {α : Type} (g : Int → Int → α) (x y : Int) (v : α) : Int → Int → α :=
  fun a b => if a = x ∧ b = y then v else g a b

/-- State of a `TetrisMaze`: the underlying `Maze` (28x31, no wrap,
horizontal symmetry), the 5x9 piece grid (initially `None` everywhere)
and the 28x31 tile grid (initially 0). -/
structure TetrisState where
  maze : Maze
  tetris_grid : Int → Int → Option TetrisPiece
  tile_grid : Int → Int → Nat

/-- `TetrisMaze.__init__`: width `5*3 + 13 = 28`, height `9*3 + 4 = 31`,
`wrap=False`, `symmetry=HORIZONTAL` (28 is even, so the dimension
validation of `Maze.__init__` passes). -/
def tetrisInit : TetrisState :=
  { maze := mkMazeRaw (5 * 3 + 13) (9 * 3 + 4) false .horizontal,
    tetris_grid := fun _ _ => none,
    tile_grid := fun _ _ => 0 }

/-- One iteration of the random-assignment loop of
`generate_tetris_grid`. -/
def tetrisAssignStep (acc : (Int → Int → Option TetrisPiece) × List Nat) (p : Int × Int) :
    (Int → Int → Option TetrisPiece) × List Nat :=
  let x := p.1
  let y := p.2
  if x = 1 ∧ (y = 6 ∨ y = 7) then acc
  else
    let (b, rng1) := drawBool acc.2
    let (piece, rng2) :=
      if b then drawChoice rng1 [TetrisPiece.I, .L, .T, .PLUS] .I
      else (TetrisPiece.SQUARE, rng1)
    let g1 := setG acc.1 x y (some piece)
    let g2 := if x < 2 then setG g1 (4 - x) y (some piece) else g1
    (g2, rng2)

/-- `TetrisMaze.generate_tetris_grid` (stage 1 of the pipeline): fill
with SQUARE, force the two fixed cells `(1,6)`, `(1,7)` to I, then
randomly assign columns `0..base_width//2` with a mirror write for the
strict left half. -/
def generate_tetris_grid (g0 : Int → Int → Option TetrisPiece) (rng : List Nat) :
    (Int → Int → Option TetrisPiece) × List Nat :=
  let g1 := (posList 5 9).foldl (fun g p => setG g p.1 p.2 (some TetrisPiece.SQUARE)) g0
  let g2 :=
    if (9 : Nat) > 7 ∧ (5 : Nat) > 1 then
      setG (setG g1 1 6 (some TetrisPiece.I)) 1 7 (some TetrisPiece.I)
    else g1
  (posList 3 9).foldl tetrisAssignStep (g2, rng)

/-- The eight diagonal-inclusive neighbor offsets, in the source's
`dx`-outer iteration order. -/
def nbr8 : List (Int × Int) :=
  [(-1, -1), (-1, 0), (-1, 1), (0, -1), (0, 1), (1, -1), (1, 0), (1, 1)]

/-- The four orthogonal neighbor offsets (the source iterates the 3x3
box and skips offsets with `|dx|+|dy| != 1`). -/
def orth4 : List (Int × Int) :=
  [(-1, 0), (0, -1), (0, 1), (1, 0)]

/-- One piece of `tetris_to_tiles`: expand the piece at `(tx, ty)` into
the temporary 15x27 tile grid.  An unset piece (`None`) matches no
branch and is a no-op. -/
def tetrisTileStep (tg : Int → Int → Option TetrisPiece)
    (acc : (Int → Int → Nat) × List Nat) (p : Int × Int) :
    (Int → Int → Nat) × List Nat :=
  let g := acc.1
  let rng := acc.2
  let bx := p.1 * 3
  let by2 := p.2 * 3
  match tg p.1 p.2 with
  | some .SQUARE =>
    ((intRange 0 3).foldl (fun g dx =>
      (intRange 0 3).foldl (fun g dy =>
        if bx + dx < 15 ∧ by2 + dy < 27 then setG g (bx + dx) (by2 + dy) 1 else g) g) g,
     rng)
  | some .I =>
    let (b, rng1) := drawBool rng
    if b then
      ((intRange 0 3).foldl (fun g dy =>
        if bx + 1 < 15 ∧ by2 + dy < 27 then setG g (bx + 1) (by2 + dy) 0 else g) g, rng1)
    else
      ((intRange 0 3).foldl (fun g dx =>
        if bx + dx < 15 ∧ by2 + 1 < 27 then setG g (bx + dx) (by2 + 1) 0 else g) g, rng1)
  | some .L =>
    let g1 := if bx + 1 < 15 ∧ by2 + 1 < 27 then setG g (bx + 1) (by2 + 1) 0 else g
    let (o, rng1) := drawChoice rng [LOrient.tl, .tr, .bl, .br] .tl
    let g2 :=
      if o = .tl ∨ o = .tr then
        (intRange 0 3).foldl (fun g dx =>
          if bx + dx < 15 ∧ by2 < 27 then setG g (bx + dx) by2 0 else g) g1
      else g1
    let g3 :=
      if o = .tl ∨ o = .bl then
        (intRange 0 3).foldl (fun g dy =>
          if bx < 15 ∧ by2 + dy < 27 then setG g bx (by2 + dy) 0 else g) g2
      else g2
    let g4 :=
      if o = .tr ∨ o = .br then
        (intRange 0 3).foldl (fun g dy =>
          if bx + 2 < 15 ∧ by2 + dy < 27 then setG g (bx + 2) (by2 + dy) 0 else g) g3
      else g3
    let g5 :=
      if o = .bl ∨ o = .br then
        (intRange 0 3).foldl (fun g dx =>
          if bx + dx < 15 ∧ by2 + 2 < 27 then setG g (bx + dx) (by2 + 2) 0 else g) g4
      else g4
    (g5, rng1)
  | some .T =>
    let g1 := if bx + 1 < 15 ∧ by2 + 1 < 27 then setG g (bx + 1) (by2 + 1) 0 else g
    let (dirs, rng1) := drawChoice rng
      [[Direction.up, .left, .right], [Direction.up, .left, .down],
       [Direction.up, .right, .down], [Direction.left, .right, .down]]
      [Direction.up, .left, .right]
    let g2 := if Direction.up ∈ dirs ∧ by2 > 0 then setG g1 (bx + 1) by2 0 else g1
    let g3 := if Direction.down ∈ dirs ∧ by2 + 2 < 27 then setG g2 (bx + 1) (by2 + 2) 0 else g2
    let g4 := if Direction.left ∈ dirs ∧ bx > 0 then setG g3 bx (by2 + 1) 0 else g3
    let g5 := if Direction.right ∈ dirs ∧ bx + 2 < 15 then setG g4 (bx + 2) (by2 + 1) 0 else g4
    (g5, rng1)
  | some .PLUS =>
    let g1 := if bx + 1 < 15 ∧ by2 + 1 < 27 then setG g (bx + 1) (by2 + 1) 0 else g
    let dirs : List Direction := [.up, .down, .left, .right]
    let g2 := if Direction.up ∈ dirs ∧ by2 > 0 then setG g1 (bx + 1) by2 0 else g1
    let g3 := if Direction.down ∈ dirs ∧ by2 + 2 < 27 then setG g2 (bx + 1) (by2 + 2) 0 else g2
    let g4 := if Direction.left ∈ dirs ∧ bx > 0 then setG g3 bx (by2 + 1) 0 else g3
    let g5 := if Direction.right ∈ dirs ∧ bx + 2 < 15 then setG g4 (bx + 2) (by2 + 1) 0 else g4
    (g5, rng)
  | none => (g, rng)

/-- `TetrisMaze.tetris_to_tiles` (stage 2): the temporary 15x27 grid. -/
def tetris_to_tiles (tg : Int → Int → Option TetrisPiece) (rng : List Nat) :
    (Int → Int → Nat) × List Nat :=
  (posList 5 9).foldl (tetrisTileStep tg) (fun _ _ => 0, rng)

/-- `TetrisMaze._can_adjust_height`. -/
def canAdjustHeight (g : Int → Int → Nat) (x : Int) : Bool :=
  if x = 0 ∨ x = 27 then false
  else (intRange 1 30).all fun y =>
    !(g (x - 1) y == 1 && g (x + 1) y == 1 && g x y == 0)

/-- `TetrisMaze._can_adjust_width`. -/
def canAdjustWidth (g : Int → Int → Nat) (y : Int) : Bool :=
  if y = 0 ∨ y = 30 then false
  else (intRange 1 27).all fun x =>
    !(g x (y - 1) == 1 && g x (y + 1) == 1 && g x y == 0)

/-- `TetrisMaze._apply_height_adjustments`. -/
def applyHeightAdjustments (g0 : Int → Int → Nat) : Int → Int → Nat :=
  (intRange 1 27).foldl (fun g x =>
    if canAdjustHeight g x then
      (intRange 1 30).foldl (fun g y =>
        if g x y == 0 then
          if y > 0 ∧ y < 30 then setG (setG g x (y - 1) 0) x (y + 1) 0 else g
        else g) g
    else g) g0

/-- `TetrisMaze._apply_width_adjustments`. -/
def applyWidthAdjustments (g0 : Int → Int → Nat) : Int → Int → Nat :=
  (intRange 1 30).foldl (fun g y =>
    if canAdjustWidth g y then
      (intRange 1 27).foldl (fun g x =>
        if g x y == 0 then
          if x > 0 ∧ x < 27 then setG (setG g (x - 1) y 1) (x + 1) y 1 else g
        else g) g
    else g) g0

/-- `TetrisMaze._smooth_edges`. -/
def smoothEdges (g0 : Int → Int → Nat) : Int → Int → Nat :=
  (intRange 1 27).foldl (fun g x =>
    (intRange 1 30).foldl (fun g y =>
      if g x y == 1 then
        let wn := (nbr8.filter fun o =>
          0 ≤ x + o.1 && x + o.1 < 28 && 0 ≤ y + o.2 && y + o.2 < 31 &&
            g (x + o.1) (y + o.2) == 1).length
        if wn < 2 then setG g x y 0
        else if wn > 6 then setG g x y 1
        else g
      else g) g) g0

/-- `TetrisMaze.apply_size_adjustments` (stage 3): nearest-neighbor
resample of the 15x27 grid to 28x31, then the two heuristic passes and
the smoothing pass.  `int(x / (width / temp_width))` is floating-point
in the source; for `0 <= x < 28` its value provably coincides with the
integer division `x * 15 / 28` (the exact quotient is never within
double rounding error of an integer), and similarly for `y`. -/
def applySizeAdjustments (temp : Int → Int → Nat) : Int → Int → Nat :=
  let resampled :=
    (posList 28 31).foldl (fun g p =>
      let sx := min (p.1 * 15 / 28) 14
      let sy := min (p.2 * 27 / 31) 26
      setG g p.1 p.2 (temp sx sy)) (fun _ _ => 0)
  smoothEdges (applyWidthAdjustments (applyHeightAdjustments resampled))

/-- `random.sample(l, k)`: draw `k` distinct elements, modelled by `k`
indexed draws from the shrinking list. -/
def sampleList (rng : List Nat) (l : List (Int × Int)) : Nat → List (Int × Int) × List Nat
  | 0 => ([], rng)
  | k + 1 =>
    if l.isEmpty then ([], rng)
    else
      let (n, rng1) := drawNat rng
      let i := n % l.length
      let chosen := l.getD i (0, 0)
      let (rest, rng2) := sampleList rng1 (l.eraseIdx i) k
      (chosen :: rest, rng2)

/-- `TetrisMaze.create_tunnels` (stage 4). -/
def createTunnels (g0 : Int → Int → Nat) (rng : List Nat) :
    (Int → Int → Nat) × List Nat :=
  let cands := (intRange (31 / 4) (3 * 31 / 4)).flatMap fun y =>
    (if g0 0 y == 1 && g0 1 y == 0 then [((0 : Int), y)] else []) ++
      (if g0 27 y == 1 && g0 26 y == 0 then [((27 : Int), y)] else [])
  let (num, rng1) := drawChoice rng [1, 2] 1
  let (chosen, rng2) := sampleList rng1 cands (min num cands.length)
  (chosen.foldl (fun g p =>
    let g1 := setG g p.1 p.2 0
    if p.1 = 0 then setG g1 27 p.2 0
    else if p.1 = 27 then setG g1 0 p.2 0
    else g1) g0, rng2)

/-- `TetrisMaze.convert_to_paths` (stage 5a). -/
def convertToPaths (g : Int → Int → Nat) : Int → Int → Nat :=
  (intRange 1 27).foldl (fun ng x =>
    (intRange 1 30).foldl (fun ng y =>
      let hasPath := orth4.any fun o =>
        0 ≤ x + o.1 && x + o.1 < 28 && 0 ≤ y + o.2 && y + o.2 < 31 &&
          g (x + o.1) (y + o.2) == 0
      if hasPath then setG ng x y 1 else ng) ng) (fun _ _ => 0)

/-- `TetrisMaze.convert_to_walls` (stage 5b). -/
def convertToWalls (g : Int → Int → Nat) : Int → Int → Nat :=
  let finalG := (posList 28 31).foldl (fun fg p =>
    if g p.1 p.2 == 1 then setG fg p.1 p.2 0 else fg) (fun _ _ => 1)
  (posList 28 31).foldl (fun wg p =>
    if finalG p.1 p.2 == 0 then
      let wg1 := setG wg p.1 p.2 0
      nbr8.foldl (fun wg o =>
        if 0 ≤ p.1 + o.1 ∧ p.1 + o.1 < 28 ∧ 0 ≤ p.2 + o.2 ∧ p.2 + o.2 < 31 then
          setG wg (p.1 + o.1) (p.2 + o.2) 1
        else wg) wg1
    else wg) (fun _ _ => 1)

/-- Stage 6, reset: give every cell all four walls. -/
def convertResetWalls (m0 : Maze) : Maze :=
  (posList m0.width m0.height).foldl
    (fun acc p => acc.modifyCell p.1 p.2 Cell.withAllWalls) m0

/-- Stage 6, one path cell: open the walls towards each in-range
neighboring path cell. -/
def convertOpenStep (tile : Int → Int → Nat) (p : Int × Int) (acc0 : Maze) : Maze :=
  Direction.allDirs.foldl (fun acc d =>
    let nx := p.1 + d.value.1
    let ny := p.2 + d.value.2
    if 0 ≤ nx ∧ nx < (acc.width : Int) ∧ 0 ≤ ny ∧ ny < (acc.height : Int) then
      match acc.get_cell nx ny with
      | some (ax, ay) =>
        if tile nx ny == 0 then acc.remove_wall_between p.1 p.2 ax ay else acc
      | none => acc
    else acc) acc0

/-- Stage 6, wrap stitch for one row: join the two border cells when both
hold paths. -/
def wrapStitchStep (tile : Int → Int → Nat) (W : Int) (y : Int) (acc : Maze) : Maze :=
  if tile 0 y == 0 && tile (W - 1) y == 0 then
    match acc.get_cell 0 y, acc.get_cell ((acc.width : Int) - 1) y with
    | some (lx, ly), some (rx, ry) => acc.remove_wall_between lx ly rx ry
    | _, _ => acc
  else acc

/-- `TetrisMaze._convert_to_maze_structure` (stage 6): bridge the final
binary tile grid into the `Maze` cell/wall model. -/
def convertToMazeStructure (m0 : Maze) (tile : Int → Int → Nat) : Maze :=
  let m1 := convertResetWalls m0
  let m2 := (posList m1.width m1.height).foldl (fun acc p =>
    if tile p.1 p.2 == 0 then convertOpenStep tile p acc else acc) m1
  if m2.wrap then
    (intRange 0 m2.height).foldl
      (fun acc y => wrapStitchStep tile (m2.width : Int) y acc) m2
  else m2

/-- `TetrisMaze.generate`: the full seven-stage pipeline followed by
cell analysis (the `print` calls of the source are I/O only). -/
def TetrisState.generate (st : TetrisState) (rng : List Nat) : TetrisState :=
  let (tg, rng1) := generate_tetris_grid st.tetris_grid rng
  let (temp, rng2) := tetris_to_tiles tg rng1
  let tile1 := applySizeAdjustments temp
  let (tile2, _) := createTunnels tile1 rng2
  let tile3 := convertToPaths tile2
  let tile4 := convertToWalls tile3
  let m1 := convertToMazeStructure st.maze tile4
  { maze := m1.analyze_cells, tetris_grid := tg, tile_grid := tile4 }

/-- A complete run of the piece pipeline from a fresh `TetrisMaze`. -/
def tetrisGenerate (rng : List Nat) : TetrisState :=
  tetrisInit.generate rng

/-! ### Observations used by the claims -/

/-- Read one wall bit. -/
def Maze.wallB (m : Maze) (x y : Int) (d : Direction) : Bool :=
  (m.cells x y).has_wall d

/-- Two mazes have identical wall sets at every in-range cell (the first
maze's dimensions are used for the range). -/
def wallsEqB (m1 m2 : Maze) : Bool :=
  (posList m1.width m1.height).all fun p =>
    Direction.allDirs.all fun d => m1.wallB p.1 p.2 d == m2.wallB p.1 p.2 d

/-- The wall-consistency invariant: for every cell and direction, if the
(non-wrap) neighbor exists then the two facing wall bits agree, and when
wrap is on the same holds for the wrap-wound neighbor. -/
def Maze.wallConsistentB (m : Maze) : Bool :=
  (posList m.width m.height).all fun p =>
    Direction.allDirs.all fun d =>
      let nx := p.1 + d.value.1
      let ny := p.2 + d.value.2
      (!(m.inBounds nx ny) || (m.wallB p.1 p.2 d == m.wallB nx ny d.opposite)) &&
        (!m.wrap ||
          (m.wallB p.1 p.2 d ==
            m.wallB (nx % (m.width : Int)) (ny % (m.height : Int)) d.opposite))

/-- The direction map induced by an x-reflection. -/
def mirrorLR : Direction → Direction
  | .left => .right
  | .right => .left
  | d => d

/-- The direction map induced by a y-reflection. -/
def mirrorUD : Direction → Direction
  | .up => .down
  | .down => .up
  | d => d

/-- Horizontal orbit equality: the wall set at `(x, y)` equals the wall
set at `(width-1-x, y)` with Left/Right swapped. -/
def Maze.symHB (m : Maze) : Bool :=
  (posList m.width m.height).all fun p =>
    Direction.allDirs.all fun d =>
      m.wallB p.1 p.2 d == m.wallB ((m.width : Int) - 1 - p.1) p.2 (mirrorLR d)

/-- Vertical orbit equality: the wall set at `(x, y)` equals the wall
set at `(x, height-1-y)` with Up/Down swapped. -/
def Maze.symVB (m : Maze) : Bool :=
  (posList m.width m.height).all fun p =>
    Direction.allDirs.all fun d =>
      m.wallB p.1 p.2 d == m.wallB p.1 ((m.height : Int) - 1 - p.2) (mirrorUD d)

/-- Rotational orbit equality in the claimed direction mapping: the wall
set at `(x, y)` equals the wall set at `(width-1-x, height-1-y)` with
every direction replaced by its opposite. -/
def Maze.symRB (m : Maze) : Bool :=
  (posList m.width m.height).all fun p =>
    Direction.allDirs.all fun d =>
      m.wallB p.1 p.2 d ==
        m.wallB ((m.width : Int) - 1 - p.1) ((m.height : Int) - 1 - p.2) d.opposite

/-- The canonical open-edge indicator for the non-wrap open-edge graph:
the unordered pair `{p, p + d}` for `d` in `{right, down}`, both
endpoints in range, with no wall between them on either side. -/
def Maze.edgeOpenCanon (m : Maze) (p : Int × Int) (d : Direction) : Bool :=
  let nx := p.1 + d.value.1
  let ny := p.2 + d.value.2
  m.inBounds p.1 p.2 && m.inBounds nx ny &&
    !(m.wallB p.1 p.2 d) && !(m.wallB nx ny d.opposite)

/-- Each open unordered adjacent pair, represented once (by its
left/top endpoint). -/
def Maze.openEdgeList (m : Maze) : List ((Int × Int) × Direction) :=
  ((posList m.width m.height).flatMap fun p =>
    [(p, Direction.right), (p, Direction.down)]).filter
    fun e => m.edgeOpenCanon e.1 e.2

/-- The number of open edges. -/
def Maze.edgeCount (m : Maze) : Nat := m.openEdgeList.length

/-- One step through an open edge (wrap-aware adjacency, no wall on
either side). -/
def Maze.openStep (m : Maze) (p q : Int × Int) : Prop :=
  ∃ d : Direction, m.get_neighbor p.1 p.2 d = some q ∧
    m.wallB p.1 p.2 d = false ∧ m.wallB q.1 q.2 d.opposite = false

/-- Boolean adjacency of the non-wrap open-edge graph. -/
def Maze.adjB (m : Maze) (p q : Int × Int) : Bool :=
  (q.1 == p.1 + 1 && q.2 == p.2 && m.edgeOpenCanon p .right) ||
    (q.1 == p.1 && q.2 == p.2 + 1 && m.edgeOpenCanon p .down) ||
    (p.1 == q.1 + 1 && p.2 == q.2 && m.edgeOpenCanon q .right) ||
    (p.1 == q.1 && p.2 == q.2 + 1 && m.edgeOpenCanon q .down)

/-- Total number of wall bits over all in-range cells. -/
def Maze.totalWalls (m : Maze) : Nat :=
  ((posList m.width m.height).map fun p => (m.cells p.1 p.2).wall_count).sum

/-- Number of visited in-range cells. -/
def Maze.visitedCount (m : Maze) : Nat :=
  ((posList m.width m.height).filter fun p => (m.cells p.1 p.2).visited).length

/-! ### Basic lemmas: cells -/

/-- The construction parameters of a maze. -/
def Maze.params (m : Maze) : Nat × Nat × Bool × Symmetry :=
  (m.width, m.height, m.wrap, m.symmetry)

/-- The pair of directions cleared by `remove_wall_between` (at the
first and second cell respectively), or `none` when the call is a
no-op.  A function of the maze parameters and coordinates only. -/
def rwbDirs (w h : Nat) (wrap : Bool) (x1 y1 x2 y2 : Int) : Option (Direction × Direction) :=
  match Direction.from_vector (x2 - x1) (y2 - y1) with
  | some d => some (d, d.opposite)
  | none =>
    if wrap then
      if x2 - x1 = (w : Int) - 1 ∧ y2 - y1 = 0 then some (.left, .right)
      else if x2 - x1 = -((w : Int) - 1) ∧ y2 - y1 = 0 then some (.right, .left)
      else if x2 - x1 = 0 ∧ y2 - y1 = (h : Int) - 1 then some (.up, .down)
      else if x2 - x1 = 0 ∧ y2 - y1 = -((h : Int) - 1) then some (.down, .up)
      else none
    else none

/-- Wall consistency as a proposition: every in-bounds cell agrees with
its (direct, and under wrap its wrap-wound) neighbor on the shared
wall. -/
def WallConsistent (m : Maze) : Prop :=
  ∀ (x y : Int) (d : Direction), m.inBounds x y = true →
    (m.inBounds (x + d.value.1) (y + d.value.2) = true →
      m.wallB x y d = m.wallB (x + d.value.1) (y + d.value.2) d.opposite) ∧
    (m.wrap = true →
      m.wallB x y d =
        m.wallB ((x + d.value.1) % (m.width : Int)) ((y + d.value.2) % (m.height : Int))
          d.opposite)

/-- Every border cell keeps its outward-facing wall: whenever the direct
neighbor in direction `d` falls outside the grid, the wall towards it is
present. -/
def BorderOK (m : Maze) : Prop :=
  ∀ (x y : Int) (d : Direction), m.inBounds x y = true →
    m.inBounds (x + d.value.1) (y + d.value.2) = false → m.wallB x y d = true

/-- Observational equivalence of two mazes for the generation engine:
same construction parameters and, at every in-range cell, the same
wall bits and visited flag (the classification flags are derived data
and are recomputed before being read). -/
def MEq (m1 m2 : Maze) : Prop :=
  m1.params = m2.params ∧
  ∀ x y : Int, m1.inBounds x y = true →
    (m1.cells x y).wallUp = (m2.cells x y).wallUp ∧
    (m1.cells x y).wallDown = (m2.cells x y).wallDown ∧
    (m1.cells x y).wallLeft = (m2.cells x y).wallLeft ∧
    (m1.cells x y).wallRight = (m2.cells x y).wallRight ∧
    (m1.cells x y).visited = (m2.cells x y).visited

/-- `get_cell` as a pure function of the maze parameters. -/
def getCellP (w h : Nat) (wrap : Bool) (x y : Int) : Option (Int × Int) :=
  if wrap then some (x % (w : Int), y % (h : Int))
  else if x < 0 ∨ (w : Int) ≤ x ∨ y < 0 ∨ (h : Int) ≤ y then none
  else some (x, y)

/-- `_get_symmetric_cell` as a pure function of the maze parameters. -/
def symOrbit (wn hn : Nat) (sym : Symmetry) (x y : Int) : List (Int × Int) :=
  let w : Int := wn
  let h : Int := hn
  match sym with
  | .none => [(x, y)]
  | .horizontal =>
    if w - 1 - x ≠ x then [(x, y), (w - 1 - x, y)] else [(x, y)]
  | .vertical =>
    if h - 1 - y ≠ y then [(x, y), (x, h - 1 - y)] else [(x, y)]
  | .rotational =>
    if w - 1 - x ≠ x ∨ h - 1 - y ≠ y then [(x, y), (w - 1 - x, h - 1 - y)]
    else [(x, y)]
  | .both =>
    let l1 := if w - 1 - x ≠ x then [(w - 1 - x, y)] else []
    let l2 := if h - 1 - y ≠ y then [(x, h - 1 - y)] else []
    let l3 := if w - 1 - x ≠ x ∧ h - 1 - y ≠ y then [(w - 1 - x, h - 1 - y)] else []
    (x, y) :: (l1 ++ l2 ++ l3)

/-- The wall bits cleared by one orbit step of the symmetric removal: a
pure function of the maze parameters (the state never feeds back into
the computed coordinates). -/
def clearsOfAt (w h : Nat) (wrap : Bool) (cx cy : Int) (d : Direction)
    (p : Int × Int) : List ((Int × Int) × Direction) :=
  match getCellP w h wrap p.1 p.2 with
  | none => []
  | some (bx, by2) =>
    let sd := symStepDir cx cy p.1 p.2 d
    match getCellP w h wrap (bx + sd.value.1) (by2 + sd.value.2) with
    | none => []
    | some (nx, ny) =>
      match rwbDirs w h wrap bx by2 nx ny with
      | some (d1, d2) => [((bx, by2), d1), ((nx, ny), d2)]
      | none => []

/-- All wall bits cleared by one `_apply_symmetric_wall_removal` call. -/
def symClears (w h : Nat) (wrap : Bool) (sym : Symmetry) (cx cy : Int)
    (d : Direction) : List ((Int × Int) × Direction) :=
  (symOrbit w h sym cx cy).flatMap (fun p => clearsOfAt w h wrap cx cy d p)

/-- Clear a list of wall bits in sequence. -/
def Maze.applyClears (m : Maze) (L : List ((Int × Int) × Direction)) : Maze :=
  L.foldl (fun acc q => acc.removeWallAt q.1.1 q.1.2 q.2) m

/-- The same list of bit clears, restricted to one cell position. -/
def cellClears (L : List ((Int × Int) × Direction)) (a b : Int) (c : Cell) : Cell :=
  L.foldl (fun c q => if a = q.1.1 ∧ b = q.1.2 then c.remove_wall q.2 else c) c

/-- Pointwise horizontal mirror invariance of the wall bits: at every
in-range cell, each wall bit equals the Left/Right-swapped bit of the
x-mirrored cell (the propositional form of `symHB`). -/
def SymHW (m : Maze) : Prop :=
  ∀ (a b : Int) (e : Direction), m.inBounds a b = true →
    m.wallB a b e = m.wallB ((m.width : Int) - 1 - a) b (mirrorLR e)

/-- Pointwise vertical mirror invariance of the wall bits: at every
in-range cell, each wall bit equals the Up/Down-swapped bit of the
y-mirrored cell (the propositional form of `symVB`). -/
def SymVW (m : Maze) : Prop :=
  ∀ (a b : Int) (e : Direction), m.inBounds a b = true →
    m.wallB a b e = m.wallB a ((m.height : Int) - 1 - b) (mirrorUD e)

/-- The action of the x-reflection on a single wall bit. -/
def mirrorBitH (w : Int) (q : (Int × Int) × Direction) : (Int × Int) × Direction :=
  ((w - 1 - q.1.1, q.1.2), mirrorLR q.2)

/-- The action of the y-reflection on a single wall bit. -/
def mirrorBitV (h : Int) (q : (Int × Int) × Direction) : (Int × Int) × Direction :=
  ((q.1.1, h - 1 - q.1.2), mirrorUD q.2)

/-- The canonical (left/top-anchored) representative of the open edge
created by carving from `(x, y)` in direction `d`. -/
def canonEdge (x y : Int) : Direction → (Int × Int) × Direction
  | .right => ((x, y), .right)
  | .down => ((x, y), .down)
  | .left => ((x - 1, y), .right)
  | .up => ((x, y - 1), .down)

/-- The list of candidate canonical edge slots, two per cell. -/
def edgeSlots (w h : Nat) : List ((Int × Int) × Direction) :=
  (posList w h).flatMap fun p => [(p, Direction.right), (p, Direction.down)]

/-- The open-edge graph of a maze as a simple graph on integer cell
coordinates (cells outside the grid are isolated vertices). -/
def mazeGraph (m : Maze) : SimpleGraph (Int × Int) where
  Adj p q := m.adjB p q = true
  symm := by
    intro p q h
    unfold Maze.adjB at h ⊢
    simp only [Bool.or_eq_true, Bool.and_eq_true, beq_iff_eq] at h ⊢
    tauto
  loopless := by
    intro p h
    unfold Maze.adjB at h
    simp only [Bool.or_eq_true, Bool.and_eq_true, beq_iff_eq] at h
    rcases h with ((h | h) | h) | h <;> omega

/-- The loop invariant of the DFS carving pass (symmetry=None,
wrap=false): unvisited cells are fully walled, the open-edge count is
one less than the visited-cell count, every visited cell is reachable
from the start in the open-edge graph, and that graph is acyclic. -/
def CarveInv (m : Maze) (v0 : Int × Int) : Prop :=
  (∀ x y, m.inBounds x y = true → (m.cells x y).visited = false →
    ∀ d, m.wallB x y d = true) ∧
  m.edgeCount + 1 = m.visitedCount ∧
  (∀ p : Int × Int, m.inBounds p.1 p.2 = true → (m.cells p.1 p.2).visited = true →
    (mazeGraph m).Reachable v0 p) ∧
  (mazeGraph m).IsAcyclic

/-- A wall-consistent 2×1 wrap maze on which the dead-end eliminator
spins forever: the dead end's repair carves a wall pair that is already
open, yet still sets the changed flag. -/
def c4maze : Maze :=
  { width := 2, height := 1, wrap := true, symmetry := Symmetry.none,
    cells := fun x _ =>
      if x = 0 then
        { wallUp := true, wallDown := true, wallLeft := true, wallRight := false,
          visited := true, is_intersection := false, is_dead_end := true }
      else
        { wallUp := false, wallDown := false, wallLeft := false, wallRight := true,
          visited := true, is_intersection := true, is_dead_end := false } }

/-- A hand-carved consistent 3×3 maze whose center cell has exactly one
wall left (three exits), then classified. -/
def c8maze : Maze :=
  (((({ width := 3, height := 3, wrap := false, symmetry := Symmetry.none,
        cells := fun _ _ => Cell.init.withAllWalls } : Maze).remove_wall_between
      1 1 0 1).remove_wall_between 1 1 2 1).remove_wall_between 1 1 1 0).analyze_cells

theorem Cell.has_wall_remove_wall (c : Cell) (d e : Direction) :
    (c.remove_wall d).has_wall e = (c.has_wall e && !(decide (e = d))) := by
  cases d <;> cases e <;> simp [Cell.remove_wall, Cell.has_wall]

theorem Cell.remove_wall_visited (c : Cell) (d : Direction) :
    (c.remove_wall d).visited = c.visited := by
  cases d <;> rfl

theorem Cell.remove_wall_inter (c : Cell) (d : Direction) :
    (c.remove_wall d).is_intersection = c.is_intersection := by
  cases d <;> rfl

theorem Cell.remove_wall_dead (c : Cell) (d : Direction) :
    (c.remove_wall d).is_dead_end = c.is_dead_end := by
  cases d <;> rfl

theorem Cell.has_wall_withAllWalls (c : Cell) (d : Direction) :
    c.withAllWalls.has_wall d = true := by
  cases d <;> rfl

/-- A cell's wall count is at most 4. -/
theorem Cell.wall_count_le (c : Cell) : c.wall_count ≤ 4 := by
  unfold Cell.wall_count
  cases c.wallUp <;> cases c.wallDown <;> cases c.wallLeft <;> cases c.wallRight <;> simp

/-! ### Basic lemmas: ranges and position lists -/

theorem intRange_mem {lo hi a : Int} : a ∈ intRange lo hi ↔ lo ≤ a ∧ a < hi := by
  unfold intRange
  simp only [List.mem_map, List.mem_range]
  constructor
  · rintro ⟨i, hi2, rfl⟩
    omega
  · intro h
    exact ⟨(a - lo).toNat, by omega, by omega⟩

theorem intRange_nodup (lo hi : Int) : (intRange lo hi).Nodup := by
  unfold intRange
  exact List.Nodup.map (fun a b hab => by omega) (List.nodup_range _)

theorem intRange_length (lo hi : Int) : (intRange lo hi).length = (hi - lo).toNat := by
  simp [intRange]

theorem posList_mem {w h : Nat} {p : Int × Int} :
    p ∈ posList w h ↔ 0 ≤ p.1 ∧ p.1 < (w : Int) ∧ 0 ≤ p.2 ∧ p.2 < (h : Int) := by
  unfold posList
  simp only [List.mem_flatMap, List.mem_map]
  constructor
  · rintro ⟨a, ha, b, hb, rfl⟩
    have h1 := intRange_mem.1 ha
    have h2 := intRange_mem.1 hb
    exact ⟨h1.1, h1.2, h2.1, h2.2⟩
  · intro hh
    exact ⟨p.1, intRange_mem.2 ⟨hh.1, hh.2.1⟩, p.2, intRange_mem.2 ⟨hh.2.2.1, hh.2.2.2⟩, rfl⟩

theorem posList_nodup (w h : Nat) : (posList w h).Nodup := by
  unfold posList
  rw [List.nodup_flatMap]
  refine ⟨fun x _ => List.Nodup.map (fun a b hab => by simpa using hab) (intRange_nodup 0 h), ?_⟩
  refine List.Pairwise.imp ?_ (intRange_nodup 0 w)
  intro a b hne p hpa hpb
  simp only [List.mem_map] at hpa hpb
  obtain ⟨ya, _, rfl⟩ := hpa
  obtain ⟨yb, _, hb⟩ := hpb
  exact hne (by simpa using congrArg Prod.fst hb.symm)

theorem posList_length (w h : Nat) : (posList w h).length = w * h := by
  unfold posList
  rw [List.length_flatMap]
  have hc : List.map (List.length ∘ fun x => (intRange 0 (h : Int)).map fun y => (x, y))
      (intRange 0 (w : Int)) = List.map (fun _ => h) (intRange 0 (w : Int)) :=
    List.map_congr_left (by intro a _; simp [intRange])
  rw [hc]
  simp [List.map_const', intRange_length, mul_comm]

/-! ### Basic lemmas: maze reads and updates -/

theorem Maze.cells_modifyCell (m : Maze) (x y : Int) (f : Cell → Cell) (a b : Int) :
    (m.modifyCell x y f).cells a b =
      if a = x ∧ b = y then f (m.cells a b) else m.cells a b := rfl

@[simp] theorem Maze.width_modifyCell (m : Maze) (x y : Int) (f : Cell → Cell) :
    (m.modifyCell x y f).width = m.width := rfl

@[simp] theorem Maze.height_modifyCell (m : Maze) (x y : Int) (f : Cell → Cell) :
    (m.modifyCell x y f).height = m.height := rfl

@[simp] theorem Maze.wrap_modifyCell (m : Maze) (x y : Int) (f : Cell → Cell) :
    (m.modifyCell x y f).wrap = m.wrap := rfl

@[simp] theorem Maze.symmetry_modifyCell (m : Maze) (x y : Int) (f : Cell → Cell) :
    (m.modifyCell x y f).symmetry = m.symmetry := rfl

theorem Maze.wallB_removeWallAt (m : Maze) (x y : Int) (d : Direction) (a b : Int)
    (e : Direction) :
    (m.removeWallAt x y d).wallB a b e =
      (m.wallB a b e && !(decide (a = x) && decide (b = y) && decide (e = d))) := by
  simp only [Maze.removeWallAt, Maze.wallB, Maze.cells_modifyCell]
  by_cases hab : a = x ∧ b = y
  · simp [hab, Cell.has_wall_remove_wall]
  · rw [if_neg hab]
    rcases Decidable.not_and_iff_or_not.1 hab with h | h <;> simp [h]

theorem Maze.visited_removeWallAt (m : Maze) (x y : Int) (d : Direction) (a b : Int) :
    ((m.removeWallAt x y d).cells a b).visited = (m.cells a b).visited := by
  simp only [Maze.removeWallAt, Maze.cells_modifyCell]
  split
  · exact Cell.remove_wall_visited _ _
  · rfl

/-! ### Structural characterization of `remove_wall_between` -/

theorem Maze.remove_wall_between_eq (m : Maze) (x1 y1 x2 y2 : Int) :
    m.remove_wall_between x1 y1 x2 y2 =
      match rwbDirs m.width m.height m.wrap x1 y1 x2 y2 with
      | some (d1, d2) => (m.removeWallAt x1 y1 d1).removeWallAt x2 y2 d2
      | none => m := by
  unfold Maze.remove_wall_between rwbDirs
  cases hfv : Direction.from_vector (x2 - x1) (y2 - y1) with
  | some d => simp only [hfv]
  | none =>
    simp only [hfv]
    by_cases hw : m.wrap
    · simp only [hw, if_true]
      split_ifs <;> rfl
    · simp only [Bool.not_eq_true] at hw
      simp [hw]

/-- `rwbDirs` always pairs a direction with its opposite. -/
theorem rwbDirs_opposite {w h : Nat} {wrap : Bool} {x1 y1 x2 y2 : Int} {d1 d2 : Direction}
    (hd : rwbDirs w h wrap x1 y1 x2 y2 = some (d1, d2)) : d2 = d1.opposite := by
  unfold rwbDirs at hd
  cases hfv : Direction.from_vector (x2 - x1) (y2 - y1) with
  | some d =>
    rw [hfv] at hd
    cases hd
    rfl
  | none =>
    rw [hfv] at hd
    by_cases hw : wrap
    · subst hw
      simp only [if_true] at hd
      split_ifs at hd <;> (cases hd; rfl)
    · simp only [Bool.not_eq_true] at hw
      subst hw
      simp at hd

theorem Direction.from_vector_value (d : Direction) :
    Direction.from_vector d.value.1 d.value.2 = some d := by
  cases d <;> rfl

theorem Direction.opposite_value (d : Direction) :
    d.opposite.value.1 = -d.value.1 ∧ d.opposite.value.2 = -d.value.2 := by
  cases d <;> exact ⟨rfl, rfl⟩

theorem Direction.opposite_opposite (d : Direction) : d.opposite.opposite = d := by
  cases d <;> rfl

/-- `from_vector` inversion: a hit determines the vector. -/
theorem Direction.from_vector_inv {dx dy : Int} {d : Direction}
    (h : Direction.from_vector dx dy = some d) : dx = d.value.1 ∧ dy = d.value.2 := by
  unfold Direction.from_vector at h
  split_ifs at h <;> (cases h; constructor <;> simp only [Direction.value] <;> omega)

/-! ### Parameter preservation -/

@[simp] theorem Maze.params_modifyCell (m : Maze) (x y : Int) (f : Cell → Cell) :
    (m.modifyCell x y f).params = m.params := rfl

@[simp] theorem Maze.params_removeWallAt (m : Maze) (x y : Int) (d : Direction) :
    (m.removeWallAt x y d).params = m.params := rfl

@[simp] theorem Maze.params_remove_wall_between (m : Maze) (x1 y1 x2 y2 : Int) :
    (m.remove_wall_between x1 y1 x2 y2).params = m.params := by
  rw [Maze.remove_wall_between_eq]
  cases rwbDirs m.width m.height m.wrap x1 y1 x2 y2 with
  | none => rfl
  | some p => cases p; rfl

@[simp] theorem Maze.params_applySymAt (m : Maze) (cx cy : Int) (d : Direction)
    (p : Int × Int) : (m.applySymAt cx cy d p).params = m.params := by
  unfold Maze.applySymAt
  cases m.get_cell p.1 p.2 with
  | none => rfl
  | some q =>
    cases q with
    | mk bx by2 =>
      simp only
      cases m.get_neighbor bx by2 (symStepDir cx cy p.1 p.2 d) with
      | none => rfl
      | some r => cases r; simp

/-- Generic fold preservation of a maze predicate. -/
theorem foldl_preserve {α : Type} (P : Maze → Prop) (f : Maze → α → Maze)
    (hf : ∀ m a, P m → P (f m a)) :
    ∀ (l : List α) (m : Maze), P m → P (l.foldl f m) := by
  intro l
  induction l with
  | nil => intro m hm; exact hm
  | cons a t ih => intro m hm; exact ih _ (hf _ _ hm)

@[simp] theorem Maze.params_apply_symmetric_wall_removal (m : Maze) (cx cy : Int)
    (d : Direction) : (m.apply_symmetric_wall_removal cx cy d).params = m.params := by
  unfold Maze.apply_symmetric_wall_removal
  exact foldl_preserve (fun mm => mm.params = m.params) _
    (fun m' a h => (Maze.params_applySymAt m' cx cy d a).trans h) _ m rfl

@[simp] theorem Maze.params_setVisited (m : Maze) (x y : Int) :
    (m.setVisited x y).params = m.params := rfl

@[simp] theorem Maze.params_resetForGenerate (m : Maze) :
    m.resetForGenerate.params = m.params := by
  unfold Maze.resetForGenerate
  exact foldl_preserve (fun mm => mm.params = m.params) _
    (fun m' (a : Int × Int) h => (Maze.params_modifyCell m' a.1 a.2 _).trans h) _ m rfl

@[simp] theorem Maze.params_reconcileAt (m : Maze) (p : Int × Int) :
    (m.reconcileAt p).params = m.params := by
  unfold Maze.reconcileAt
  dsimp only
  split
  · rfl
  · split
    · rfl
    · split
      · rfl
      · rfl

@[simp] theorem Maze.params_reconcileSymmetry (m : Maze) :
    m.reconcileSymmetry.params = m.params := by
  unfold Maze.reconcileSymmetry
  split
  · rfl
  · exact foldl_preserve (fun mm => mm.params = m.params) _
      (fun m' a h => (Maze.params_reconcileAt m' a).trans h) _ m rfl

@[simp] theorem Maze.params_analyze_cells (m : Maze) :
    m.analyze_cells.params = m.params := by
  unfold Maze.analyze_cells
  exact foldl_preserve (fun mm => mm.params = m.params) _
    (fun m' (a : Int × Int) h => (Maze.params_modifyCell m' a.1 a.2 _).trans h) _ m rfl

@[simp] theorem Maze.params_rdeCellStep (m : Maze) (x y : Int) :
    (m.rdeCellStep x y).1.params = m.params := by
  unfold Maze.rdeCellStep
  dsimp only
  split
  · split
    · split
      · split
        · simp
        · rfl
      · rfl
    · rfl
  · rfl

@[simp] theorem Maze.params_rdeSweep (m : Maze) : m.rdeSweep.1.params = m.params := by
  unfold Maze.rdeSweep
  have : ∀ (l : List (Int × Int)) (acc : Maze × Bool), acc.1.params = m.params →
      (l.foldl (fun acc p =>
        let r := acc.1.rdeCellStep p.1 p.2
        (r.1, acc.2 || r.2)) acc).1.params = m.params := by
    intro l
    induction l with
    | nil => intro acc h; exact h
    | cons a t ih =>
      intro acc h
      exact ih _ (by rw [Maze.params_rdeCellStep, h])
  exact this _ (m, false) rfl

theorem Maze.params_rdeLoop {fuel : Nat} {m m' : Maze}
    (h : Maze.rdeLoop fuel m = some m') : m'.params = m.params := by
  induction fuel generalizing m with
  | zero => simp [Maze.rdeLoop] at h
  | succ n ih =>
    unfold Maze.rdeLoop at h
    rcases hsw : m.rdeSweep with ⟨m1, ch⟩
    rw [hsw] at h
    have hm1 : m1.params = m.params := by
      have := Maze.params_rdeSweep m
      rw [hsw] at this
      exact this
    cases ch with
    | true =>
      simp only [if_true] at h
      rw [ih h, hm1]
    | false =>
      simp only [Bool.false_eq_true, if_false, Option.some.injEq] at h
      rw [← h, hm1]

theorem Maze.params_remove_dead_ends {m m' : Maze}
    (h : m.remove_dead_ends = some m') : m'.params = m.params :=
  Maze.params_rdeLoop h

theorem Maze.params_dfsLoop {fuel : Nat} {m m' : Maze} {stack : List (Int × Int)}
    {rng rng' : List Nat} (h : Maze.dfsLoop fuel m stack rng = some (m', rng')) :
    m'.params = m.params := by
  induction fuel generalizing m stack rng with
  | zero => simp [Maze.dfsLoop] at h
  | succ n ih =>
    cases stack with
    | nil =>
      simp only [Maze.dfsLoop] at h
      cases h
      rfl
    | cons p rest =>
      cases p with
      | mk x y =>
        unfold Maze.dfsLoop at h
        by_cases hns : (m.unvisitedNeighbors x y).isEmpty
        · rw [if_pos hns] at h
          exact ih h
        · rw [if_neg hns] at h
          simp only at h
          have := ih h
          rw [this, Maze.params_setVisited, Maze.params_apply_symmetric_wall_removal]

theorem Maze.params_generateCarve {m m1 : Maze} {sx sy : Int} {rng rng1 : List Nat}
    (h : m.generateCarve sx sy rng = some (m1, rng1)) : m1.params = m.params := by
  unfold Maze.generateCarve at h
  simp only at h
  rcases hgc : m.resetForGenerate.get_cell
      (if m.symmetry ≠ Symmetry.none then min sx ((m.width : Int) / 2) else sx)
      (if m.symmetry ≠ Symmetry.none then min sy ((m.height : Int) / 2) else sy) with _ | ⟨cx, cy⟩
  · rw [hgc] at h
    simp at h
  · rw [hgc] at h
    simp only at h
    rcases hdfs : Maze.dfsLoop (2 * m.width * m.height + 2)
        (m.resetForGenerate.setVisited cx cy) [(cx, cy)] rng with _ | ⟨m3, rng3⟩
    · rw [hdfs] at h
      simp at h
    · rw [hdfs] at h
      simp only [Option.some.injEq, Prod.mk.injEq] at h
      rw [← h.1, Maze.params_reconcileSymmetry, Maze.params_dfsLoop hdfs,
        Maze.params_setVisited, Maze.params_resetForGenerate]

theorem Maze.params_generate {m m' : Maze} {sx sy : Int} {rng : List Nat}
    (h : m.generate sx sy rng = some m') : m'.params = m.params := by
  unfold Maze.generate at h
  rcases hgc : m.generateCarve sx sy rng with _ | ⟨m1, rng1⟩
  · rw [hgc] at h
    simp at h
  · rw [hgc] at h
    simp only at h
    rw [Maze.params_remove_dead_ends h, Maze.params_analyze_cells,
      Maze.params_generateCarve hgc]

theorem Maze.width_of_params {m m' : Maze} (h : m.params = m'.params) :
    m.width = m'.width := congrArg Prod.fst h

theorem Maze.height_of_params {m m' : Maze} (h : m.params = m'.params) :
    m.height = m'.height := congrArg (fun q => q.2.1) h

theorem Maze.wrap_of_params {m m' : Maze} (h : m.params = m'.params) :
    m.wrap = m'.wrap := congrArg (fun q => q.2.2.1) h

theorem Maze.symmetry_of_params {m m' : Maze} (h : m.params = m'.params) :
    m.symmetry = m'.symmetry := congrArg (fun q => q.2.2.2) h

/-! ### Bounds and neighbors -/

theorem Maze.inBounds_iff {m : Maze} {x y : Int} :
    m.inBounds x y = true ↔ 0 ≤ x ∧ x < (m.width : Int) ∧ 0 ≤ y ∧ y < (m.height : Int) := by
  simp [Maze.inBounds, and_assoc]

theorem emod_partner {w t x1 x2 : Int} (h1 : 0 ≤ x1) (h1' : x1 < w)
    (h : (x1 + t) % w = x2) : (x2 - t) % w = x1 := by
  calc (x2 - t) % w = ((x1 + t) % w - t) % w := by rw [h]
    _ = ((x1 + t) - t) % w := by
        rw [Int.sub_emod, Int.emod_emod_of_dvd _ dvd_rfl, ← Int.sub_emod]
    _ = x1 := by rw [add_sub_cancel_right]; exact Int.emod_eq_of_lt h1 h1'

theorem emod_chain {w u t a b c : Int} (ha : 0 ≤ a) (ha' : a < w)
    (h1 : (a + u) % w = b) (h2 : (b + t) % w = c) (hut : u + t = 0) : a = c := by
  have hc : a % w = c := by
    calc a % w = (a + u + t) % w := by rw [show a + u + t = a by omega]
      _ = ((a + u) % w + t) % w := (Int.emod_add_emod _ _ _).symm
      _ = c := by rw [h1, h2]
  rw [Int.emod_eq_of_lt ha ha'] at hc
  exact hc

/-- Without wrap, a neighbor is the exact unit offset, in bounds. -/
theorem Maze.get_neighbor_nowrap {m : Maze} {x y nx ny : Int} {d : Direction}
    (hw : m.wrap = false) (hn : m.get_neighbor x y d = some (nx, ny)) :
    nx = x + d.value.1 ∧ ny = y + d.value.2 ∧ m.inBounds nx ny = true := by
  unfold Maze.get_neighbor Maze.get_cell at hn
  rw [hw] at hn
  simp only [Bool.false_eq_true, if_false] at hn
  by_cases hb : x + d.value.1 < 0 ∨ (m.width : Int) ≤ x + d.value.1 ∨
      y + d.value.2 < 0 ∨ (m.height : Int) ≤ y + d.value.2
  · rw [if_pos hb] at hn
    exact absurd hn (by simp)
  · rw [if_neg hb] at hn
    push_neg at hb
    simp only [Option.some.injEq, Prod.mk.injEq] at hn
    obtain ⟨h1, h2⟩ := hn
    subst h1
    subst h2
    refine ⟨rfl, rfl, Maze.inBounds_iff.2 ?_⟩
    omega

/-- With wrap, the neighbor is the offset reduced modulo the dimensions. -/
theorem Maze.get_neighbor_wrap {m : Maze} {x y : Int} {d : Direction}
    (hw : m.wrap = true) :
    m.get_neighbor x y d =
      some ((x + d.value.1) % (m.width : Int), (y + d.value.2) % (m.height : Int)) := by
  unfold Maze.get_neighbor Maze.get_cell
  rw [hw]
  simp

/-- A neighbor of an in-bounds cell is in bounds. -/
theorem Maze.get_neighbor_inBounds {m : Maze} {x y nx ny : Int} {d : Direction}
    (hx : m.inBounds x y = true) (hn : m.get_neighbor x y d = some (nx, ny)) :
    m.inBounds nx ny = true := by
  have hb := Maze.inBounds_iff.1 hx
  cases hwr : m.wrap with
  | false => exact (Maze.get_neighbor_nowrap hwr hn).2.2
  | true =>
    rw [Maze.get_neighbor_wrap hwr] at hn
    cases hn
    have hw0 : (0 : Int) < (m.width : Int) := by omega
    have hh0 : (0 : Int) < (m.height : Int) := by omega
    refine Maze.inBounds_iff.2
      ⟨Int.emod_nonneg _ (by omega), Int.emod_lt_of_pos _ hw0,
       Int.emod_nonneg _ (by omega), Int.emod_lt_of_pos _ hh0⟩

/-! ### The wall-consistency invariant (Prop form) -/

theorem Maze.wallConsistentB_iff {m : Maze} :
    m.wallConsistentB = true ↔ WallConsistent m := by
  unfold Maze.wallConsistentB WallConsistent
  rw [List.all_eq_true]
  constructor
  · intro hall x y d hx
    have hmem : (x, y) ∈ posList m.width m.height := by
      have := Maze.inBounds_iff.1 hx
      exact posList_mem.2 ⟨this.1, this.2.1, this.2.2.1, this.2.2.2⟩
    have := hall (x, y) hmem
    rw [List.all_eq_true] at this
    have hd := this d (by cases d <;> simp [Direction.allDirs])
    simp only [Bool.and_eq_true, Bool.or_eq_true, Bool.not_eq_true', beq_iff_eq] at hd
    constructor
    · intro hnb
      rcases hd.1 with h | h
      · rw [hnb] at h; cases h
      · exact h
    · intro hwr
      rcases hd.2 with h | h
      · rw [hwr] at h; cases h
      · exact h
  · intro hc p hp
    rw [List.all_eq_true]
    intro d _
    have hx : m.inBounds p.1 p.2 = true := by
      have := posList_mem.1 hp
      exact Maze.inBounds_iff.2 this
    have := hc p.1 p.2 d hx
    simp only [Bool.and_eq_true, Bool.or_eq_true, Bool.not_eq_true', beq_iff_eq]
    constructor
    · by_cases hnb : m.inBounds (p.1 + d.value.1) (p.2 + d.value.2) = true
      · exact Or.inr (this.1 hnb)
      · exact Or.inl (by simpa using hnb)
    · by_cases hwr : m.wrap = true
      · exact Or.inr (this.2 hwr)
      · exact Or.inl (by simpa using hwr)

theorem bool_clear2 (X p q : Bool) : (X && !p && !q) = (X && !(p || q)) := by
  cases X <;> cases p <;> cases q <;> rfl

theorem decide3_eq (a b x y : Int) (e d : Direction) :
    (decide (a = x) && decide (b = y) && decide (e = d)) =
      decide (a = x ∧ b = y ∧ e = d) := by
  by_cases h1 : a = x <;> by_cases h2 : b = y <;> by_cases h3 : e = d <;> simp [h1, h2, h3]

theorem Direction.eq_opposite_of {e d : Direction} (h : e.opposite = d) :
    e = d.opposite :=
  (Direction.opposite_opposite e).symm.trans (congrArg Direction.opposite h)

@[simp] theorem Maze.width_removeWallAt (m : Maze) (x y : Int) (d : Direction) :
    (m.removeWallAt x y d).width = m.width := rfl

@[simp] theorem Maze.height_removeWallAt (m : Maze) (x y : Int) (d : Direction) :
    (m.removeWallAt x y d).height = m.height := rfl

@[simp] theorem Maze.wrap_removeWallAt (m : Maze) (x y : Int) (d : Direction) :
    (m.removeWallAt x y d).wrap = m.wrap := rfl

@[simp] theorem Maze.inBounds_removeWallAt (m : Maze) (x y : Int) (d : Direction)
    (a b : Int) : (m.removeWallAt x y d).inBounds a b = m.inBounds a b := rfl

theorem Maze.wallB_clear_pair (m : Maze) (x1 y1 x2 y2 : Int) (dA : Direction)
    (a b : Int) (e : Direction) :
    ((m.removeWallAt x1 y1 dA).removeWallAt x2 y2 dA.opposite).wallB a b e =
      (m.wallB a b e && !(decide (a = x1 ∧ b = y1 ∧ e = dA)) &&
        !(decide (a = x2 ∧ b = y2 ∧ e = dA.opposite))) := by
  rw [Maze.wallB_removeWallAt, Maze.wallB_removeWallAt, decide3_eq, decide3_eq]

/-- Clearing the two facing wall bits of one (direct or wrap-wound)
adjacency preserves wall consistency. -/
theorem consistent_clear_pair {m : Maze} {x1 y1 x2 y2 : Int} {dA : Direction}
    (hm : WallConsistent m)
    (hb1 : m.inBounds x1 y1 = true) (hb2 : m.inBounds x2 y2 = true)
    (hD : (x2 = x1 + dA.value.1 ∧ y2 = y1 + dA.value.2) ∨
      (m.inBounds (x1 + dA.value.1) (y1 + dA.value.2) = false ∧
        m.inBounds (x2 + dA.opposite.value.1) (y2 + dA.opposite.value.2) = false))
    (hW : m.wrap = true →
      (x1 + dA.value.1) % (m.width : Int) = x2 ∧
        (y1 + dA.value.2) % (m.height : Int) = y2) :
    WallConsistent ((m.removeWallAt x1 y1 dA).removeWallAt x2 y2 dA.opposite) := by
  have hov := Direction.opposite_value dA
  have hq1 := Maze.inBounds_iff.1 hb1
  have hq2 := Maze.inBounds_iff.1 hb2
  intro a b e hab
  have hab' : m.inBounds a b = true := hab
  have hqa := Maze.inBounds_iff.1 hab'
  have hoe := Direction.opposite_value e
  constructor
  · intro hnb
    have hnb' : m.inBounds (a + e.value.1) (b + e.value.2) = true := hnb
    rw [Maze.wallB_clear_pair, Maze.wallB_clear_pair, bool_clear2, bool_clear2,
      ← Bool.decide_or, ← Bool.decide_or, (hm a b e hab').1 hnb']
    refine congrArg (fun z => m.wallB (a + e.value.1) (b + e.value.2) e.opposite && !z)
      (decide_eq_decide.2 ?_)
    rcases hD with ⟨hdx, hdy⟩ | ⟨hno1, hno2⟩
    · constructor
      · rintro (⟨rfl, rfl, rfl⟩ | ⟨rfl, rfl, rfl⟩)
        · exact Or.inr ⟨by omega, by omega, rfl⟩
        · exact Or.inl ⟨by omega, by omega, Direction.opposite_opposite dA⟩
      · rintro (⟨h1, h2, h3⟩ | ⟨h1, h2, h3⟩)
        · have he : e = dA.opposite := Direction.eq_opposite_of h3
          subst he
          exact Or.inr ⟨by omega, by omega, rfl⟩
        · have he : e = dA := by
            have := Direction.eq_opposite_of h3
            rwa [Direction.opposite_opposite] at this
          subst he
          exact Or.inl ⟨by omega, by omega, rfl⟩
    · constructor
      · rintro (⟨rfl, rfl, rfl⟩ | ⟨rfl, rfl, rfl⟩)
        · rw [hnb'] at hno1; cases hno1
        · rw [hnb'] at hno2; cases hno2
      · rintro (⟨h1, h2, h3⟩ | ⟨h1, h2, h3⟩)
        · have he : e = dA.opposite := Direction.eq_opposite_of h3
          subst he
          have : a = x1 + dA.value.1 ∧ b = y1 + dA.value.2 := by constructor <;> omega
          rw [this.1, this.2] at hab'
          rw [hab'] at hno1; cases hno1
        · have he : e = dA := by
            have := Direction.eq_opposite_of h3
            rwa [Direction.opposite_opposite] at this
          subst he
          have : a = x2 + e.opposite.value.1 ∧ b = y2 + e.opposite.value.2 := by
            constructor <;> omega
          rw [this.1, this.2] at hab'
          rw [hab'] at hno2; cases hno2
  · intro hwr
    have hwr' : m.wrap = true := hwr
    obtain ⟨hWx, hWy⟩ := hW hwr'
    simp only [Maze.width_removeWallAt, Maze.height_removeWallAt]
    rw [Maze.wallB_clear_pair, Maze.wallB_clear_pair, bool_clear2, bool_clear2,
      ← Bool.decide_or, ← Bool.decide_or, (hm a b e hab').2 hwr']
    refine congrArg (fun z =>
      m.wallB ((a + e.value.1) % (m.width : Int)) ((b + e.value.2) % (m.height : Int))
        e.opposite && !z) (decide_eq_decide.2 ?_)
    constructor
    · rintro (⟨rfl, rfl, rfl⟩ | ⟨rfl, rfl, rfl⟩)
      · exact Or.inr ⟨hWx, hWy, rfl⟩
      · refine Or.inl ⟨?_, ?_, Direction.opposite_opposite dA⟩
        · have := emod_partner hq1.1 hq1.2.1 hWx
          rw [show a + dA.opposite.value.1 = a - dA.value.1 by omega]
          exact this
        · have := emod_partner hq1.2.2.1 hq1.2.2.2 hWy
          rw [show b + dA.opposite.value.2 = b - dA.value.2 by omega]
          exact this
    · rintro (⟨h1, h2, h3⟩ | ⟨h1, h2, h3⟩)
      · have he : e = dA.opposite := Direction.eq_opposite_of h3
        subst he
        refine Or.inr ⟨?_, ?_, rfl⟩
        · exact emod_chain hqa.1 hqa.2.1 h1 hWx (by omega)
        · exact emod_chain hqa.2.2.1 hqa.2.2.2 h2 hWy (by omega)
      · have he : e = dA := by
          have := Direction.eq_opposite_of h3
          rwa [Direction.opposite_opposite] at this
        subst he
        refine Or.inl ⟨?_, ?_, rfl⟩
        · have ha2 := emod_partner hqa.1 hqa.2.1 h1
          have hx2 := emod_partner hq1.1 hq1.2.1 hWx
          omega
        · have hb2 := emod_partner hqa.2.2.1 hqa.2.2.2 h2
          have hy2 := emod_partner hq1.2.2.1 hq1.2.2.2 hWy
          omega

theorem neg_one_emod {w : Int} (hw : 0 < w) : (-1 : Int) % w = w - 1 := by
  have h1 : (-1 : Int) % w = (w - 1) % w := by
    rw [show w - 1 = -1 + 1 * w by ring]
    exact Int.add_mul_emod_self.symm
  rw [h1, Int.emod_eq_of_lt (by omega) (by omega)]

theorem inBounds_eq_false_of {m : Maze} {x y : Int}
    (h : ¬(0 ≤ x ∧ x < (m.width : Int) ∧ 0 ≤ y ∧ y < (m.height : Int))) :
    m.inBounds x y = false := by
  rw [Bool.eq_false_iff]
  intro hc
  exact h (Maze.inBounds_iff.1 hc)

/-- `remove_wall_between`, called on a cell and one of its neighbors,
preserves wall consistency. -/
theorem WallConsistent.rwb_nbr {m : Maze} {x y nx ny : Int} {d : Direction}
    (hm : WallConsistent m) (hx : m.inBounds x y = true)
    (hn : m.get_neighbor x y d = some (nx, ny)) :
    WallConsistent (m.remove_wall_between x y nx ny) := by
  have hnb := Maze.get_neighbor_inBounds hx hn
  have hqx := Maze.inBounds_iff.1 hx
  have hqn := Maze.inBounds_iff.1 hnb
  rw [Maze.remove_wall_between_eq]
  rcases hr : rwbDirs m.width m.height m.wrap x y nx ny with _ | ⟨d1, d2⟩
  · exact hm
  · have hd2 : d2 = d1.opposite := rwbDirs_opposite hr
    subst hd2
    unfold rwbDirs at hr
    rcases hfv : Direction.from_vector (nx - x) (ny - y) with _ | du
    · rw [hfv] at hr
      simp only at hr
      by_cases hwr : m.wrap
      · rw [if_pos hwr] at hr
        have hov1 := Direction.opposite_value d1
        split_ifs at hr with hc1 hc2 hc3 hc4
        · -- wrap pair to the left: x = 0, nx = width - 1
          simp only [Option.some.injEq, Prod.mk.injEq] at hr
          obtain ⟨hd1, -⟩ := hr
          subst hd1
          have hx0 : x = 0 := by omega
          refine consistent_clear_pair hm hx hnb (Or.inr ⟨?_, ?_⟩) (fun _ => ⟨?_, ?_⟩)
          · exact inBounds_eq_false_of (by simp only [Direction.value]; omega)
          · exact inBounds_eq_false_of (by simp only [Direction.opposite, Direction.value]; omega)
          · simp only [Direction.value]
            rw [show x + -1 = (-1 : Int) by omega, neg_one_emod (by omega)]
            omega
          · simp only [Direction.value]
            rw [show y + 0 = y by omega, Int.emod_eq_of_lt hqx.2.2.1 hqx.2.2.2]
            omega
        · -- wrap pair to the right: x = width - 1, nx = 0
          simp only [Option.some.injEq, Prod.mk.injEq] at hr
          obtain ⟨hd1, -⟩ := hr
          subst hd1
          have hx0 : nx = 0 ∧ x = (m.width : Int) - 1 := by omega
          refine consistent_clear_pair hm hx hnb (Or.inr ⟨?_, ?_⟩) (fun _ => ⟨?_, ?_⟩)
          · exact inBounds_eq_false_of (by simp only [Direction.value]; omega)
          · exact inBounds_eq_false_of (by simp only [Direction.opposite, Direction.value]; omega)
          · simp only [Direction.value]
            rw [show x + 1 = (m.width : Int) by omega, Int.emod_self]
            omega
          · simp only [Direction.value]
            rw [show y + 0 = y by omega, Int.emod_eq_of_lt hqx.2.2.1 hqx.2.2.2]
            omega
        · -- wrap pair upwards: y = 0, ny = height - 1
          simp only [Option.some.injEq, Prod.mk.injEq] at hr
          obtain ⟨hd1, -⟩ := hr
          subst hd1
          have hy0 : y = 0 := by omega
          refine consistent_clear_pair hm hx hnb (Or.inr ⟨?_, ?_⟩) (fun _ => ⟨?_, ?_⟩)
          · exact inBounds_eq_false_of (by simp only [Direction.value]; omega)
          · exact inBounds_eq_false_of (by simp only [Direction.opposite, Direction.value]; omega)
          · simp only [Direction.value]
            rw [show x + 0 = x by omega, Int.emod_eq_of_lt hqx.1 hqx.2.1]
            omega
          · simp only [Direction.value]
            rw [show y + -1 = (-1 : Int) by omega, neg_one_emod (by omega)]
            omega
        · -- wrap pair downwards: y = height - 1, ny = 0
          simp only [Option.some.injEq, Prod.mk.injEq] at hr
          obtain ⟨hd1, -⟩ := hr
          subst hd1
          have hy0 : ny = 0 ∧ y = (m.height : Int) - 1 := by omega
          refine consistent_clear_pair hm hx hnb (Or.inr ⟨?_, ?_⟩) (fun _ => ⟨?_, ?_⟩)
          · exact inBounds_eq_false_of (by simp only [Direction.value]; omega)
          · exact inBounds_eq_false_of (by simp only [Direction.opposite, Direction.value]; omega)
          · simp only [Direction.value]
            rw [show x + 0 = x by omega, Int.emod_eq_of_lt hqx.1 hqx.2.1]
            omega
          · simp only [Direction.value]
            rw [show y + 1 = (m.height : Int) by omega, Int.emod_self]
            omega
      · rw [if_neg hwr] at hr
        exact absurd hr (by simp)
    · rw [hfv] at hr
      simp only [Option.some.injEq, Prod.mk.injEq] at hr
      obtain ⟨hd1, -⟩ := hr
      subst hd1
      obtain ⟨hvx, hvy⟩ := Direction.from_vector_inv hfv
      refine consistent_clear_pair hm hx hnb (Or.inl ⟨by omega, by omega⟩)
        (fun _ => ⟨?_, ?_⟩)
      · rw [show x + du.value.1 = nx by omega, Int.emod_eq_of_lt hqn.1 hqn.2.1]
      · rw [show y + du.value.2 = ny by omega, Int.emod_eq_of_lt hqn.2.2.1 hqn.2.2.2]

/-! ### Consistency through the generation operations -/

theorem Maze.inBounds_congr {m m' : Maze} (h : m'.params = m.params) (x y : Int) :
    m'.inBounds x y = m.inBounds x y := by
  unfold Maze.inBounds
  rw [Maze.width_of_params h, Maze.height_of_params h]

theorem Maze.get_cell_congr {m m' : Maze} (h : m'.params = m.params) (x y : Int) :
    m'.get_cell x y = m.get_cell x y := by
  unfold Maze.get_cell
  rw [Maze.width_of_params h, Maze.height_of_params h, Maze.wrap_of_params h]

theorem Maze.get_neighbor_congr {m m' : Maze} (h : m'.params = m.params) (x y : Int)
    (d : Direction) : m'.get_neighbor x y d = m.get_neighbor x y d := by
  unfold Maze.get_neighbor
  exact Maze.get_cell_congr h _ _

theorem WallConsistent.of_degenerate {m : Maze} (h : m.width = 0 ∨ m.height = 0) :
    WallConsistent m := by
  intro x y d hxy
  have := Maze.inBounds_iff.1 hxy
  omega

theorem Maze.get_cell_inBounds {m : Maze} {x y a b : Int}
    (hw0 : 0 < m.width) (hh0 : 0 < m.height)
    (h : m.get_cell x y = some (a, b)) : m.inBounds a b = true := by
  unfold Maze.get_cell at h
  split_ifs at h with h1 h2
  · simp only [Option.some.injEq, Prod.mk.injEq] at h
    obtain ⟨rfl, rfl⟩ := h
    refine Maze.inBounds_iff.2
      ⟨Int.emod_nonneg _ (by omega), Int.emod_lt_of_pos _ (by omega),
       Int.emod_nonneg _ (by omega), Int.emod_lt_of_pos _ (by omega)⟩
  · simp only [Option.some.injEq, Prod.mk.injEq] at h
    obtain ⟨rfl, rfl⟩ := h
    push_neg at h2
    exact Maze.inBounds_iff.2 (by omega)

theorem WallConsistent.applySymAt {m : Maze} (hm : WallConsistent m)
    (cx cy : Int) (d : Direction) (p : Int × Int) :
    WallConsistent (m.applySymAt cx cy d p) := by
  by_cases hwh : 0 < m.width ∧ 0 < m.height
  · unfold Maze.applySymAt
    rcases hgc : m.get_cell p.1 p.2 with _ | ⟨bx, by2⟩
    · exact hm
    · simp only
      have hbb := Maze.get_cell_inBounds hwh.1 hwh.2 hgc
      rcases hgn : m.get_neighbor bx by2 (symStepDir cx cy p.1 p.2 d) with _ | ⟨nx, ny⟩
      · exact hm
      · exact hm.rwb_nbr hbb hgn
  · refine WallConsistent.of_degenerate ?_
    have hp := Maze.params_applySymAt m cx cy d p
    rw [Maze.width_of_params hp, Maze.height_of_params hp]
    omega

theorem WallConsistent.apply_symmetric_wall_removal {m : Maze} (hm : WallConsistent m)
    (cx cy : Int) (d : Direction) :
    WallConsistent (m.apply_symmetric_wall_removal cx cy d) := by
  unfold Maze.apply_symmetric_wall_removal
  exact foldl_preserve WallConsistent _
    (fun m' a h => h.applySymAt cx cy d a) _ m hm

/-- Reads after a fold of independent point updates over a nodup list. -/
theorem Maze.cells_foldl_modify (f : Cell → Cell) :
    ∀ (l : List (Int × Int)), l.Nodup → ∀ (m : Maze) (a b : Int),
      ((l.foldl (fun acc p => acc.modifyCell p.1 p.2 f) m).cells a b) =
        if (a, b) ∈ l then f (m.cells a b) else m.cells a b := by
  intro l
  induction l with
  | nil => intro _ m a b; simp
  | cons p t ih =>
    intro hl m a b
    have hnd := List.nodup_cons.1 hl
    rw [List.foldl_cons, ih hnd.2]
    by_cases hmem : (a, b) ∈ t
    · rw [if_pos hmem, if_pos (List.mem_cons_of_mem _ hmem)]
      have hne : ¬(a = p.1 ∧ b = p.2) := by
        intro ⟨h1, h2⟩
        apply hnd.1
        have : p = (a, b) := by rw [h1, h2]
        rw [this]
        exact hmem
      rw [Maze.cells_modifyCell, if_neg hne]
    · rw [if_neg hmem]
      by_cases hpe : (a, b) = p
      · rw [if_pos (by rw [hpe]; exact List.mem_cons_self _ _)]
        rw [Maze.cells_modifyCell, if_pos (by rw [← hpe]; exact ⟨rfl, rfl⟩)]
      · rw [if_neg (show ¬(a, b) ∈ p :: t by
          intro hc
          cases List.mem_cons.1 hc with
          | inl h => exact hpe h
          | inr h => exact hmem h)]
        rw [Maze.cells_modifyCell, if_neg (by intro ⟨h1, h2⟩; exact hpe (by rw [h1, h2]))]

theorem Maze.cells_resetForGenerate (m : Maze) (a b : Int) :
    (m.resetForGenerate.cells a b) =
      if (a, b) ∈ posList m.width m.height then
        { (m.cells a b).withAllWalls with visited := false }
      else m.cells a b := by
  unfold Maze.resetForGenerate
  exact Maze.cells_foldl_modify _ _ (posList_nodup _ _) m a b

/-- After the reset loop every in-bounds cell has all four walls, so the
maze is wall-consistent. -/
theorem WallConsistent.resetForGenerate (m : Maze) :
    WallConsistent m.resetForGenerate := by
  have hps := Maze.params_resetForGenerate m
  have hwall : ∀ a b d, m.resetForGenerate.inBounds a b = true →
      m.resetForGenerate.wallB a b d = true := by
    intro a b d hab
    rw [Maze.inBounds_congr hps] at hab
    have hq := Maze.inBounds_iff.1 hab
    unfold Maze.wallB
    rw [Maze.cells_resetForGenerate, if_pos (posList_mem.2 ⟨hq.1, hq.2.1, hq.2.2.1, hq.2.2.2⟩)]
    cases d <;> rfl
  intro x y d hxy
  have hq : m.inBounds x y = true := by rwa [Maze.inBounds_congr hps] at hxy
  have hqq := Maze.inBounds_iff.1 hq
  constructor
  · intro hnb
    rw [hwall _ _ _ hxy, hwall _ _ _ hnb]
  · intro hwr
    rw [hwall _ _ _ hxy]
    have hw0 : 0 < (m.resetForGenerate.width : Int) := by
      rw [Maze.width_of_params hps]; omega
    have hh0 : 0 < (m.resetForGenerate.height : Int) := by
      rw [Maze.height_of_params hps]; omega
    have hnb2 : m.resetForGenerate.inBounds
        ((x + d.value.1) % (m.resetForGenerate.width : Int))
        ((y + d.value.2) % (m.resetForGenerate.height : Int)) = true := by
      refine Maze.inBounds_iff.2
        ⟨Int.emod_nonneg _ (by omega), Int.emod_lt_of_pos _ hw0,
         Int.emod_nonneg _ (by omega), Int.emod_lt_of_pos _ hh0⟩
    rw [hwall _ _ _ hnb2]

theorem WallConsistent.rdeCellStep {m : Maze} (hm : WallConsistent m) {x y : Int}
    (hx : m.inBounds x y = true) : WallConsistent (m.rdeCellStep x y).1 := by
  unfold Maze.rdeCellStep
  dsimp only
  split
  · split
    · split
      · rcases hgn : m.get_neighbor x y _ with _ | ⟨nx, ny⟩
        · exact hm
        · exact hm.rwb_nbr hx hgn
      · exact hm
    · exact hm
  · exact hm

theorem WallConsistent.rdeSweep {m : Maze} (hm : WallConsistent m) :
    WallConsistent m.rdeSweep.1 := by
  unfold Maze.rdeSweep
  have main : ∀ (l : List (Int × Int)), (∀ p ∈ l, p ∈ posList m.width m.height) →
      ∀ (acc : Maze × Bool), WallConsistent acc.1 → acc.1.params = m.params →
      WallConsistent (l.foldl (fun acc p =>
        let r := acc.1.rdeCellStep p.1 p.2
        (r.1, acc.2 || r.2)) acc).1 := by
    intro l
    induction l with
    | nil => intro _ acc hc _; exact hc
    | cons p t ih =>
      intro hsub acc hc hp
      refine ih (fun q hq => hsub q (List.mem_cons_of_mem _ hq)) _ ?_ ?_
      · have hin : acc.1.inBounds p.1 p.2 = true := by
          rw [Maze.inBounds_congr hp]
          have := posList_mem.1 (hsub p (List.mem_cons_self _ _))
          exact Maze.inBounds_iff.2 this
        exact hc.rdeCellStep hin
      · rw [Maze.params_rdeCellStep, hp]
  exact main _ (fun p hp => hp) (m, false) hm rfl

theorem WallConsistent.rdeLoop {fuel : Nat} {m m' : Maze} (hm : WallConsistent m)
    (h : Maze.rdeLoop fuel m = some m') : WallConsistent m' := by
  induction fuel generalizing m with
  | zero => simp [Maze.rdeLoop] at h
  | succ n ih =>
    unfold Maze.rdeLoop at h
    rcases hsw : m.rdeSweep with ⟨m1, ch⟩
    rw [hsw] at h
    have hc1 : WallConsistent m1 := by
      have := hm.rdeSweep
      rwa [hsw] at this
    cases ch with
    | true =>
      simp only [if_true] at h
      exact ih hc1 h
    | false =>
      simp only [Bool.false_eq_true, if_false, Option.some.injEq] at h
      rwa [← h]

theorem WallConsistent.remove_dead_ends {m m' : Maze} (hm : WallConsistent m)
    (h : m.remove_dead_ends = some m') : WallConsistent m' :=
  hm.rdeLoop h

/-- The classification pass does not touch walls. -/
theorem Maze.cells_analyze_cells (m : Maze) (a b : Int) :
    (m.analyze_cells.cells a b) =
      if (a, b) ∈ posList m.width m.height then
        { m.cells a b with
            is_intersection := decide (2 < (m.cells a b).exit_count),
            is_dead_end := ((m.cells a b).exit_count == 1) }
      else m.cells a b := by
  unfold Maze.analyze_cells
  exact Maze.cells_foldl_modify _ _ (posList_nodup _ _) m a b

theorem Maze.wallB_analyze_cells (m : Maze) (a b : Int) (d : Direction) :
    m.analyze_cells.wallB a b d = m.wallB a b d := by
  unfold Maze.wallB
  rw [Maze.cells_analyze_cells]
  split
  · cases d <;> rfl
  · rfl

/-! ### Reads through the DFS loop operations -/

theorem Maze.cells_setVisited (m : Maze) (x y a b : Int) :
    ((m.setVisited x y).cells a b) =
      if a = x ∧ b = y then { m.cells a b with visited := true } else m.cells a b := rfl

theorem Maze.visited_setVisited (m : Maze) (x y a b : Int) :
    ((m.setVisited x y).cells a b).visited =
      (decide (a = x ∧ b = y) || (m.cells a b).visited) := by
  rw [Maze.cells_setVisited]
  by_cases hab : a = x ∧ b = y
  · simp [hab]
  · simp [hab]

theorem Maze.wallB_setVisited (m : Maze) (x y a b : Int) (d : Direction) :
    (m.setVisited x y).wallB a b d = m.wallB a b d := by
  unfold Maze.wallB
  rw [Maze.cells_setVisited]
  split
  · cases d <;> rfl
  · rfl

theorem WallConsistent.setVisited {m : Maze} (hm : WallConsistent m) (x y : Int) :
    WallConsistent (m.setVisited x y) := by
  intro a b d hab
  have hab' : m.inBounds a b = true := hab
  have := hm a b d hab'
  constructor
  · intro hnb
    rw [Maze.wallB_setVisited, Maze.wallB_setVisited]
    exact this.1 hnb
  · intro hwr
    rw [Maze.wallB_setVisited, Maze.wallB_setVisited]
    exact this.2 hwr

theorem Maze.visited_remove_wall_between (m : Maze) (x1 y1 x2 y2 a b : Int) :
    ((m.remove_wall_between x1 y1 x2 y2).cells a b).visited = (m.cells a b).visited := by
  rw [Maze.remove_wall_between_eq]
  rcases rwbDirs m.width m.height m.wrap x1 y1 x2 y2 with _ | ⟨d1, d2⟩
  · rfl
  · rw [Maze.visited_removeWallAt, Maze.visited_removeWallAt]

theorem Maze.visited_applySymAt (m : Maze) (cx cy : Int) (d : Direction) (p : Int × Int)
    (a b : Int) :
    ((m.applySymAt cx cy d p).cells a b).visited = (m.cells a b).visited := by
  unfold Maze.applySymAt
  rcases m.get_cell p.1 p.2 with _ | ⟨bx, by2⟩
  · rfl
  · simp only
    rcases m.get_neighbor bx by2 (symStepDir cx cy p.1 p.2 d) with _ | ⟨nx, ny⟩
    · rfl
    · exact Maze.visited_remove_wall_between _ _ _ _ _ _ _

theorem Maze.visited_apply_symmetric_wall_removal (m : Maze) (cx cy : Int)
    (d : Direction) (a b : Int) :
    ((m.apply_symmetric_wall_removal cx cy d).cells a b).visited =
      (m.cells a b).visited := by
  unfold Maze.apply_symmetric_wall_removal
  exact foldl_preserve (fun mm => (mm.cells a b).visited = (m.cells a b).visited) _
    (fun m' q h => (Maze.visited_applySymAt m' cx cy d q a b).trans h) _ m rfl

theorem Direction.mem_allDirs (d : Direction) : d ∈ Direction.allDirs := by
  cases d <;> simp [Direction.allDirs]

theorem Maze.unvisitedNeighbors_mem {m : Maze} {x y : Int} {q : Int × Int}
    {d : Direction} :
    (q, d) ∈ m.unvisitedNeighbors x y ↔
      m.get_neighbor x y d = some q ∧ (m.cells q.1 q.2).visited = false := by
  unfold Maze.unvisitedNeighbors
  rw [List.mem_filterMap]
  constructor
  · rintro ⟨d', _, h⟩
    rcases hgn : m.get_neighbor x y d' with _ | ⟨nx, ny⟩
    · rw [hgn] at h
      simp at h
    · rw [hgn] at h
      simp only at h
      by_cases hv : (m.cells nx ny).visited
      · rw [if_pos hv] at h
        simp at h
      · rw [if_neg hv] at h
        simp only [Option.some.injEq, Prod.mk.injEq] at h
        obtain ⟨h1, h2⟩ := h
        subst h2
        subst h1
        exact ⟨hgn, by simpa using hv⟩
  · intro ⟨h1, h2⟩
    refine ⟨d, Direction.mem_allDirs d, ?_⟩
    rw [h1]
    cases q with
    | mk qa qb =>
      simp only at h2 ⊢
      rw [if_neg (by simp [h2])]

theorem Maze.unvisitedNeighbors_empty {m : Maze} {x y : Int}
    (h : (m.unvisitedNeighbors x y).isEmpty = true) :
    ∀ (d : Direction) (nx ny : Int), m.get_neighbor x y d = some (nx, ny) →
      (m.cells nx ny).visited = true := by
  intro d nx ny hn
  by_contra hv
  have hv' : (m.cells nx ny).visited = false := by simpa using hv
  have hmem : ((nx, ny), d) ∈ m.unvisitedNeighbors x y :=
    Maze.unvisitedNeighbors_mem.2 ⟨hn, hv'⟩
  rw [List.isEmpty_iff] at h
  rw [h] at hmem
  exact absurd hmem (List.not_mem_nil _)

theorem drawChoice_mem {α : Type} (rng : List Nat) (l : List α) (dflt : α)
    (hl : l ≠ []) : (drawChoice rng l dflt).1 ∈ l := by
  unfold drawChoice
  simp only
  have hlen : (drawNat rng).1 % l.length < l.length :=
    Nat.mod_lt _ (List.length_pos.2 hl)
  rw [List.getD_eq_getElem l dflt hlen]
  exact List.getElem_mem hlen

/-! ### The DFS loop: induction lemmas -/

/-- Unfolding equation for one loop iteration on a non-empty stack. -/
theorem Maze.dfsLoop_succ_cons (fuel : Nat) (m : Maze) (x y : Int)
    (rest : List (Int × Int)) (rng : List Nat) :
    Maze.dfsLoop (fuel + 1) m ((x, y) :: rest) rng =
      if (m.unvisitedNeighbors x y).isEmpty then Maze.dfsLoop fuel m rest rng
      else
        Maze.dfsLoop fuel
          ((m.apply_symmetric_wall_removal x y
              (drawChoice rng (m.unvisitedNeighbors x y) (((0, 0) : Int × Int), .up)).1.2).setVisited
            (drawChoice rng (m.unvisitedNeighbors x y) (((0, 0) : Int × Int), .up)).1.1.1
            (drawChoice rng (m.unvisitedNeighbors x y) (((0, 0) : Int × Int), .up)).1.1.2)
          ((drawChoice rng (m.unvisitedNeighbors x y) (((0, 0) : Int × Int), .up)).1.1 ::
            (x, y) :: rest)
          (drawChoice rng (m.unvisitedNeighbors x y) (((0, 0) : Int × Int), .up)).2 := rfl

theorem Maze.dfsLoop_wallConsistent {fuel : Nat} {m m' : Maze}
    {stack : List (Int × Int)} {rng rng' : List Nat}
    (h : Maze.dfsLoop fuel m stack rng = some (m', rng'))
    (hm : WallConsistent m) : WallConsistent m' := by
  induction fuel generalizing m stack rng with
  | zero => simp [Maze.dfsLoop] at h
  | succ n ih =>
    cases stack with
    | nil =>
      simp only [Maze.dfsLoop, Option.some.injEq, Prod.mk.injEq] at h
      rw [← h.1]
      exact hm
    | cons p rest =>
      cases p with
      | mk x y =>
        rw [Maze.dfsLoop_succ_cons] at h
        split_ifs at h
        · exact ih h hm
        · exact ih h (((hm.apply_symmetric_wall_removal _ _ _).setVisited _ _))

theorem Maze.dfsLoop_visited_mono {fuel : Nat} {m m' : Maze}
    {stack : List (Int × Int)} {rng rng' : List Nat}
    (h : Maze.dfsLoop fuel m stack rng = some (m', rng')) :
    ∀ a b, (m.cells a b).visited = true → (m'.cells a b).visited = true := by
  induction fuel generalizing m stack rng with
  | zero => simp [Maze.dfsLoop] at h
  | succ n ih =>
    cases stack with
    | nil =>
      simp only [Maze.dfsLoop, Option.some.injEq, Prod.mk.injEq] at h
      rw [← h.1]
      exact fun a b hv => hv
    | cons p rest =>
      cases p with
      | mk x y =>
        rw [Maze.dfsLoop_succ_cons] at h
        split_ifs at h
        · exact ih h
        · intro a b hv
          refine ih h a b ?_
          rw [Maze.visited_setVisited, Maze.visited_apply_symmetric_wall_removal, hv]
          simp

/-- After a successful run of the DFS loop, every visited in-bounds cell
all of whose stack membership was discharged has only visited
neighbors; with an initially valid stack this yields neighbor-closure of
the visited set at termination. -/
theorem Maze.dfsLoop_closure {fuel : Nat} {m m' : Maze}
    {stack : List (Int × Int)} {rng rng' : List Nat}
    (h : Maze.dfsLoop fuel m stack rng = some (m', rng'))
    (hstack : ∀ p ∈ stack, m.inBounds p.1 p.2 = true ∧ (m.cells p.1 p.2).visited = true)
    (hclo : ∀ x y, m.inBounds x y = true → (m.cells x y).visited = true →
      (x, y) ∈ stack ∨ ∀ (d : Direction) (nx ny : Int),
        m.get_neighbor x y d = some (nx, ny) → (m.cells nx ny).visited = true) :
    ∀ x y, m'.inBounds x y = true → (m'.cells x y).visited = true →
      ∀ (d : Direction) (nx ny : Int), m'.get_neighbor x y d = some (nx, ny) →
        (m'.cells nx ny).visited = true := by
  induction fuel generalizing m stack rng with
  | zero => simp [Maze.dfsLoop] at h
  | succ n ih =>
    cases stack with
    | nil =>
      simp only [Maze.dfsLoop, Option.some.injEq, Prod.mk.injEq] at h
      rw [← h.1]
      intro x y hb hv d nx ny hn
      rcases hclo x y hb hv with hmem | hnb
      · exact absurd hmem (List.not_mem_nil _)
      · exact hnb d nx ny hn
    | cons p rest =>
      cases p with
      | mk x y =>
        rw [Maze.dfsLoop_succ_cons] at h
        split_ifs at h with hemp
        · -- pop: the popped cell has no unvisited neighbors
          refine ih h (fun q hq => hstack q (List.mem_cons_of_mem _ hq)) ?_
          intro x0 y0 hb0 hv0
          rcases hclo x0 y0 hb0 hv0 with hmem | hnb
          · rcases List.mem_cons.1 hmem with heq | hmem2
            · right
              intro d nx ny hn
              have hxy : x0 = x ∧ y0 = y :=
                ⟨congrArg Prod.fst heq, congrArg Prod.snd heq⟩
              rw [hxy.1, hxy.2] at hn
              exact Maze.unvisitedNeighbors_empty hemp d nx ny hn
            · exact Or.inl hmem2
          · exact Or.inr hnb
        · -- push
          set pc := (drawChoice rng (m.unvisitedNeighbors x y) (((0, 0) : Int × Int), .up))
            with hpc
          have hmempc : pc.1 ∈ m.unvisitedNeighbors x y := by
            rw [hpc]
            exact drawChoice_mem _ _ _ (by simpa [List.isEmpty_iff] using hemp)
          have hpick : m.get_neighbor x y pc.1.2 = some pc.1.1 ∧
              (m.cells pc.1.1.1 pc.1.1.2).visited = false := by
            have := Maze.unvisitedNeighbors_mem.1 (by
              rw [show pc.1 = (pc.1.1, pc.1.2) from rfl] at hmempc
              exact hmempc)
            exact this
          have hx := hstack (x, y) (List.mem_cons_self _ _)
          set m2 := ((m.apply_symmetric_wall_removal x y pc.1.2).setVisited
            pc.1.1.1 pc.1.1.2) with hm2
          have hp2 : m2.params = m.params := by
            rw [hm2, Maze.params_setVisited, Maze.params_apply_symmetric_wall_removal]
          have hvis2 : ∀ a b, (m2.cells a b).visited =
              (decide (a = pc.1.1.1 ∧ b = pc.1.1.2) || (m.cells a b).visited) := by
            intro a b
            rw [hm2, Maze.visited_setVisited, Maze.visited_apply_symmetric_wall_removal]
          have hnb1 : m.inBounds pc.1.1.1 pc.1.1.2 = true :=
            Maze.get_neighbor_inBounds hx.1 hpick.1
          refine ih h ?_ ?_
          · intro q hq
            rcases List.mem_cons.1 hq with hq1 | hq2
            · subst hq1
              refine ⟨by rw [Maze.inBounds_congr hp2]; exact hnb1, ?_⟩
              rw [hvis2]
              simp
            · have hold := hstack q (by
                rcases List.mem_cons.1 hq2 with hq3 | hq4
                · rw [hq3]; exact List.mem_cons_self _ _
                · exact List.mem_cons_of_mem _ hq4)
              refine ⟨by rw [Maze.inBounds_congr hp2]; exact hold.1, ?_⟩
              rw [hvis2, hold.2]
              simp
          · intro x0 y0 hb0 hv0
            rw [Maze.inBounds_congr hp2] at hb0
            rw [hvis2] at hv0
            by_cases he0 : x0 = pc.1.1.1 ∧ y0 = pc.1.1.2
            · left
              rw [he0.1, he0.2]
              exact List.mem_cons_self _ _
            · have hv0' : (m.cells x0 y0).visited = true := by
                rcases Bool.or_eq_true_iff.1 hv0 with hc | hc
                · exact absurd (of_decide_eq_true hc) he0
                · exact hc
              rcases hclo x0 y0 hb0 hv0' with hmem | hnb
              · exact Or.inl (List.mem_cons_of_mem _ hmem)
              · right
                intro d nx ny hn
                rw [Maze.get_neighbor_congr hp2] at hn
                rw [hvis2, hnb d nx ny hn]
                simp

theorem Maze.get_cell_self {m : Maze} {x y : Int} (hb : m.inBounds x y = true) :
    m.get_cell x y = some (x, y) := by
  have hq := Maze.inBounds_iff.1 hb
  unfold Maze.get_cell
  split_ifs with h1 h2
  · rw [Int.emod_eq_of_lt hq.1 hq.2.1, Int.emod_eq_of_lt hq.2.2.1 hq.2.2.2]
  · omega
  · rfl

/-- The grid graph is connected: neighbor-closure of the visited set
plus one visited cell makes every in-bounds cell visited. -/
theorem Maze.closure_all_visited {m : Maze} {cx cy : Int}
    (hclo : ∀ x y, m.inBounds x y = true → (m.cells x y).visited = true →
      ∀ (d : Direction) (nx ny : Int), m.get_neighbor x y d = some (nx, ny) →
        (m.cells nx ny).visited = true)
    (hcb : m.inBounds cx cy = true) (hcv : (m.cells cx cy).visited = true) :
    ∀ x y, m.inBounds x y = true → (m.cells x y).visited = true := by
  have hq0 := Maze.inBounds_iff.1 hcb
  have main : ∀ (n : Nat) (x y : Int), (x - cx).natAbs + (y - cy).natAbs = n →
      m.inBounds x y = true → (m.cells x y).visited = true := by
    intro n
    induction n using Nat.strong_induction_on with
    | _ n ih =>
      intro x y hn hb
      have hq := Maze.inBounds_iff.1 hb
      rcases Int.lt_trichotomy x cx with hx | hx | hx
      · have hb' : m.inBounds (x + 1) y = true := Maze.inBounds_iff.2 (by omega)
        have hv' : (m.cells (x + 1) y).visited = true :=
          ih ((x + 1 - cx).natAbs + (y - cy).natAbs) (by omega) (x + 1) y rfl hb'
        refine hclo (x + 1) y hb' hv' .left x y ?_
        show m.get_cell (x + 1 + -1) (y + 0) = some (x, y)
        rw [show x + 1 + -1 = x by ring, show y + 0 = y by ring]
        exact Maze.get_cell_self hb
      · subst hx
        rcases Int.lt_trichotomy y cy with hy | hy | hy
        · have hb' : m.inBounds x (y + 1) = true := Maze.inBounds_iff.2 (by omega)
          have hv' : (m.cells x (y + 1)).visited = true :=
            ih ((x - x).natAbs + (y + 1 - cy).natAbs) (by omega) x (y + 1) rfl hb'
          refine hclo x (y + 1) hb' hv' .up x y ?_
          show m.get_cell (x + 0) (y + 1 + -1) = some (x, y)
          rw [show x + 0 = x by ring, show y + 1 + -1 = y by ring]
          exact Maze.get_cell_self hb
        · subst hy
          exact hcv
        · have hb' : m.inBounds x (y - 1) = true := Maze.inBounds_iff.2 (by omega)
          have hv' : (m.cells x (y - 1)).visited = true :=
            ih ((x - x).natAbs + (y - 1 - cy).natAbs) (by omega) x (y - 1) rfl hb'
          refine hclo x (y - 1) hb' hv' .down x y ?_
          show m.get_cell (x + 0) (y - 1 + 1) = some (x, y)
          rw [show x + 0 = x by ring, show y - 1 + 1 = y by ring]
          exact Maze.get_cell_self hb
      · have hb' : m.inBounds (x - 1) y = true := Maze.inBounds_iff.2 (by omega)
        have hv' : (m.cells (x - 1) y).visited = true :=
          ih ((x - 1 - cx).natAbs + (y - cy).natAbs) (by omega) (x - 1) y rfl hb'
        refine hclo (x - 1) y hb' hv' .right x y ?_
        show m.get_cell (x - 1 + 1) (y + 0) = some (x, y)
        rw [show x - 1 + 1 = x by ring, show y + 0 = y by ring]
        exact Maze.get_cell_self hb
  exact fun x y hb => main ((x - cx).natAbs + (y - cy).natAbs) x y rfl hb

theorem Maze.reconcileAt_eq_self {m : Maze} {p : Int × Int}
    (hv : (m.cells p.1 p.2).visited = true) : m.reconcileAt p = m := by
  unfold Maze.reconcileAt
  dsimp only
  rw [if_pos hv]

/-- When the DFS loop has visited every in-bounds cell, the symmetry
reconciliation post-pass is a no-op. -/
theorem Maze.reconcileSymmetry_eq_self {m : Maze}
    (hv : ∀ x y, m.inBounds x y = true → (m.cells x y).visited = true) :
    m.reconcileSymmetry = m := by
  unfold Maze.reconcileSymmetry
  split
  · rfl
  · have main : ∀ l : List (Int × Int), (∀ p ∈ l, p ∈ posList m.width m.height) →
        l.foldl (fun acc p => acc.reconcileAt p) m = m := by
      intro l
      induction l with
      | nil => intro _; rfl
      | cons p t ih =>
        intro hs
        rw [List.foldl_cons, Maze.reconcileAt_eq_self, ih (fun q hq => hs q (List.mem_cons_of_mem _ hq))]
        have hmem := posList_mem.1 (hs p (List.mem_cons_self _ _))
        exact hv p.1 p.2 (Maze.inBounds_iff.2 hmem)
    exact main _ (fun p hp => hp)

/-- The state immediately after DFS carving and reconciliation is
wall-consistent, fully visited, and has the original parameters. -/
theorem Maze.generateCarve_post {m m1 : Maze} {sx sy : Int} {rng rng1 : List Nat}
    (h : m.generateCarve sx sy rng = some (m1, rng1)) :
    m1.params = m.params ∧ WallConsistent m1 ∧
      (∀ x y, m1.inBounds x y = true → (m1.cells x y).visited = true) := by
  have hps := Maze.params_generateCarve h
  unfold Maze.generateCarve at h
  simp only at h
  rcases hgc : m.resetForGenerate.get_cell
      (if m.symmetry ≠ Symmetry.none then min sx ((m.width : Int) / 2) else sx)
      (if m.symmetry ≠ Symmetry.none then min sy ((m.height : Int) / 2) else sy)
      with _ | ⟨cx, cy⟩
  · rw [hgc] at h
    simp at h
  · rw [hgc] at h
    simp only at h
    rcases hdfs : Maze.dfsLoop (2 * m.width * m.height + 2)
        (m.resetForGenerate.setVisited cx cy) [(cx, cy)] rng with _ | ⟨m3, rng3⟩
    · rw [hdfs] at h
      simp at h
    · rw [hdfs] at h
      simp only [Option.some.injEq, Prod.mk.injEq] at h
      obtain ⟨h1, -⟩ := h
      have hpr := Maze.params_resetForGenerate m
      have hp2 : (m.resetForGenerate.setVisited cx cy).params = m.params := by
        rw [Maze.params_setVisited, hpr]
      have hp3 : m3.params = m.params := (Maze.params_dfsLoop hdfs).trans hp2
      have hcons3 : WallConsistent m3 :=
        Maze.dfsLoop_wallConsistent hdfs ((WallConsistent.resetForGenerate m).setVisited cx cy)
      have hall3 : ∀ x y, m3.inBounds x y = true → (m3.cells x y).visited = true := by
        by_cases hdeg : m.width = 0 ∨ m.height = 0
        · intro x y hb
          rw [Maze.inBounds_congr hp3] at hb
          have := Maze.inBounds_iff.1 hb
          omega
        · push_neg at hdeg
          have hw0 : 0 < m.resetForGenerate.width := by
            rw [Maze.width_of_params hpr]
            omega
          have hh0 : 0 < m.resetForGenerate.height := by
            rw [Maze.height_of_params hpr]
            omega
          have hcb : m.resetForGenerate.inBounds cx cy = true :=
            Maze.get_cell_inBounds hw0 hh0 hgc
          have hvis2 : ∀ a b, ((m.resetForGenerate.setVisited cx cy).cells a b).visited =
              (decide (a = cx ∧ b = cy) || (m.resetForGenerate.cells a b).visited) := by
            intro a b
            rw [Maze.visited_setVisited]
          have hresetv : ∀ a b, m.resetForGenerate.inBounds a b = true →
              (m.resetForGenerate.cells a b).visited = false := by
            intro a b hb
            rw [Maze.inBounds_congr hpr] at hb
            have hq := Maze.inBounds_iff.1 hb
            rw [Maze.cells_resetForGenerate,
              if_pos (posList_mem.2 ⟨hq.1, hq.2.1, hq.2.2.1, hq.2.2.2⟩)]
          have hclo3 := Maze.dfsLoop_closure hdfs
            (by
              intro q hq
              rcases List.mem_cons.1 hq with hq1 | hq1
              · subst hq1
                refine ⟨hcb, ?_⟩
                rw [hvis2]
                simp
              · exact absurd hq1 (List.not_mem_nil _))
            (by
              intro x y hb hv
              left
              rw [hvis2] at hv
              have hb' : m.resetForGenerate.inBounds x y = true := hb
              rw [hresetv x y hb'] at hv
              simp only [Bool.or_false] at hv
              have := of_decide_eq_true hv
              rw [this.1, this.2]
              exact List.mem_cons_self _ _)
          have hstart3 : (m3.cells cx cy).visited = true := by
            refine Maze.dfsLoop_visited_mono hdfs cx cy ?_
            rw [hvis2]
            simp
          have hcb3 : m3.inBounds cx cy = true := by
            rw [Maze.inBounds_congr hp3, ← Maze.inBounds_congr hpr]
            exact hcb
          exact Maze.closure_all_visited hclo3 hcb3 hstart3
      have hm1 : m1 = m3 := by
        rw [← h1]
        exact Maze.reconcileSymmetry_eq_self hall3
      subst hm1
      exact ⟨hps, hcons3, hall3⟩

theorem WallConsistent.analyze_cells {m : Maze} (hm : WallConsistent m) :
    WallConsistent m.analyze_cells := by
  have hps := Maze.params_analyze_cells m
  intro x y d hxy
  rw [Maze.inBounds_congr hps] at hxy
  have := hm x y d hxy
  constructor
  · intro hnb
    rw [Maze.inBounds_congr hps] at hnb
    rw [Maze.wallB_analyze_cells, Maze.wallB_analyze_cells]
    exact this.1 hnb
  · intro hwr
    rw [Maze.wrap_of_params hps] at hwr
    rw [Maze.wallB_analyze_cells, Maze.wallB_analyze_cells,
      Maze.width_of_params hps, Maze.height_of_params hps]
    exact this.2 hwr

theorem WallConsistent.of_all_walls {m : Maze}
    (hw : ∀ a b d, m.inBounds a b = true → m.wallB a b d = true) : WallConsistent m := by
  intro x y d hxy
  have hq := Maze.inBounds_iff.1 hxy
  constructor
  · intro hnb
    rw [hw _ _ _ hxy, hw _ _ _ hnb]
  · intro hwr
    rw [hw _ _ _ hxy]
    have hnb2 : m.inBounds ((x + d.value.1) % (m.width : Int))
        ((y + d.value.2) % (m.height : Int)) = true :=
      Maze.inBounds_iff.2
        ⟨Int.emod_nonneg _ (by omega), Int.emod_lt_of_pos _ (by omega),
         Int.emod_nonneg _ (by omega), Int.emod_lt_of_pos _ (by omega)⟩
    rw [hw _ _ _ hnb2]

theorem convertResetWalls_params (m0 : Maze) : (convertResetWalls m0).params = m0.params :=
  foldl_preserve (fun mm => mm.params = m0.params) _
    (fun m' (a : Int × Int) h => (Maze.params_modifyCell m' a.1 a.2 _).trans h) _ m0 rfl

theorem convertResetWalls_wallB {m0 : Maze} {a b : Int} (d : Direction)
    (hab : (convertResetWalls m0).inBounds a b = true) :
    (convertResetWalls m0).wallB a b d = true := by
  rw [Maze.inBounds_congr (convertResetWalls_params m0)] at hab
  have hq := Maze.inBounds_iff.1 hab
  unfold Maze.wallB convertResetWalls
  rw [Maze.cells_foldl_modify _ _ (posList_nodup _ _),
    if_pos (posList_mem.2 ⟨hq.1, hq.2.1, hq.2.2.1, hq.2.2.2⟩)]
  exact Cell.has_wall_withAllWalls _ d

theorem convertResetWalls_wallConsistent (m0 : Maze) :
    WallConsistent (convertResetWalls m0) :=
  WallConsistent.of_all_walls (fun _ _ d hab => convertResetWalls_wallB d hab)

theorem convertOpenStep_pres {m0 : Maze} (tile : Int → Int → Nat) (p : Int × Int)
    {mm : Maze} (hc : WallConsistent mm) (hp : mm.params = m0.params)
    (hb : mm.inBounds p.1 p.2 = true) :
    WallConsistent (convertOpenStep tile p mm) ∧
      (convertOpenStep tile p mm).params = m0.params := by
  unfold convertOpenStep
  have hgen : ∀ (ds : List Direction) (acc : Maze), WallConsistent acc →
      acc.params = m0.params →
      WallConsistent (ds.foldl (fun acc d =>
        let nx := p.1 + d.value.1
        let ny := p.2 + d.value.2
        if 0 ≤ nx ∧ nx < (acc.width : Int) ∧ 0 ≤ ny ∧ ny < (acc.height : Int) then
          match acc.get_cell nx ny with
          | some (ax, ay) =>
            if tile nx ny == 0 then acc.remove_wall_between p.1 p.2 ax ay else acc
          | none => acc
        else acc) acc) ∧
      (ds.foldl (fun acc d =>
        let nx := p.1 + d.value.1
        let ny := p.2 + d.value.2
        if 0 ≤ nx ∧ nx < (acc.width : Int) ∧ 0 ≤ ny ∧ ny < (acc.height : Int) then
          match acc.get_cell nx ny with
          | some (ax, ay) =>
            if tile nx ny == 0 then acc.remove_wall_between p.1 p.2 ax ay else acc
          | none => acc
        else acc) acc).params = m0.params := by
    intro ds
    induction ds with
    | nil => intro acc hca hpa; exact ⟨hca, hpa⟩
    | cons d dt ihd =>
      intro acc hca hpa
      rw [List.foldl_cons]
      have hone : WallConsistent (
          let nx := p.1 + d.value.1
          let ny := p.2 + d.value.2
          if 0 ≤ nx ∧ nx < (acc.width : Int) ∧ 0 ≤ ny ∧ ny < (acc.height : Int) then
            match acc.get_cell nx ny with
            | some (ax, ay) =>
              if tile nx ny == 0 then acc.remove_wall_between p.1 p.2 ax ay else acc
            | none => acc
          else acc) ∧
          (let nx := p.1 + d.value.1
           let ny := p.2 + d.value.2
           if 0 ≤ nx ∧ nx < (acc.width : Int) ∧ 0 ≤ ny ∧ ny < (acc.height : Int) then
            match acc.get_cell nx ny with
            | some (ax, ay) =>
              if tile nx ny == 0 then acc.remove_wall_between p.1 p.2 ax ay else acc
            | none => acc
           else acc).params = m0.params := by
        dsimp only
        by_cases hbnd : 0 ≤ p.1 + d.value.1 ∧ p.1 + d.value.1 < (acc.width : Int) ∧
            0 ≤ p.2 + d.value.2 ∧ p.2 + d.value.2 < (acc.height : Int)
        · rw [if_pos hbnd]
          rcases hgc : acc.get_cell (p.1 + d.value.1) (p.2 + d.value.2)
              with _ | ⟨ax, ay⟩
          · exact ⟨hca, hpa⟩
          · dsimp only
            by_cases ht : (tile (p.1 + d.value.1) (p.2 + d.value.2) == 0) = true
            · rw [if_pos ht]
              refine ⟨hca.rwb_nbr ?_ hgc, by rw [Maze.params_remove_wall_between, hpa]⟩
              rw [Maze.inBounds_congr hpa, ← Maze.inBounds_congr hp]
              exact hb
            · rw [if_neg ht]
              exact ⟨hca, hpa⟩
        · rw [if_neg hbnd]
          exact ⟨hca, hpa⟩
      exact ihd _ hone.1 hone.2
  exact hgen Direction.allDirs mm hc hp

theorem wrapStitchStep_params (tile : Int → Int → Nat) (W y : Int) (mm : Maze) :
    (wrapStitchStep tile W y mm).params = mm.params := by
  unfold wrapStitchStep
  split_ifs
  · rcases hgl : mm.get_cell 0 y with _ | ⟨lx, ly⟩ <;>
      rcases hgr : mm.get_cell ((mm.width : Int) - 1) y with _ | ⟨rx, ry⟩ <;>
      simp
  · rfl

theorem wrapStitchStep_wallConsistent (tile : Int → Int → Nat) (W y : Int)
    {mm : Maze} (hc : WallConsistent mm) :
    WallConsistent (wrapStitchStep tile W y mm) := by
  by_cases hdeg : mm.width = 0 ∨ mm.height = 0
  · refine WallConsistent.of_degenerate ?_
    rw [Maze.width_of_params (wrapStitchStep_params tile W y mm),
      Maze.height_of_params (wrapStitchStep_params tile W y mm)]
    exact hdeg
  · push_neg at hdeg
    have hw0 : 0 < mm.width := by omega
    have hh0 : 0 < mm.height := by omega
    unfold wrapStitchStep
    split_ifs with ht
    · rcases hgl : mm.get_cell 0 y with _ | ⟨lx, ly⟩
      · rcases hgr : mm.get_cell ((mm.width : Int) - 1) y with _ | ⟨rx, ry⟩ <;> exact hc
      · rcases hgr : mm.get_cell ((mm.width : Int) - 1) y with _ | ⟨rx, ry⟩
        · exact hc
        · have hbl := Maze.get_cell_inBounds hw0 hh0 hgl
          by_cases hwrap : mm.wrap = true
          · -- the left neighbor of the left border cell, wound around with
            -- wrap, is the right border cell
            refine hc.rwb_nbr hbl (d := .left) ?_
            unfold Maze.get_cell at hgl hgr
            rw [if_pos hwrap] at hgl hgr
            simp only [Option.some.injEq, Prod.mk.injEq] at hgl hgr
            obtain ⟨hl1, hl2⟩ := hgl
            obtain ⟨hr1, hr2⟩ := hgr
            rw [Maze.get_neighbor_wrap hwrap]
            have hlx : lx = 0 := by
              rw [← hl1, Int.emod_eq_of_lt (by omega) (by omega)]
            have h1 : (lx + (Direction.value Direction.left).1) % (mm.width : Int)
                = rx := by
              have hv : (Direction.value Direction.left).1 = -1 := rfl
              rw [hv, hlx, ← hr1]
              rw [show (0 : Int) + -1 = -1 by ring, neg_one_emod (by exact_mod_cast hw0)]
              rw [Int.emod_eq_of_lt (by omega) (by omega)]
            have h2 : (ly + (Direction.value Direction.left).2) % (mm.height : Int)
                = ry := by
              have hv : (Direction.value Direction.left).2 = 0 := rfl
              rw [hv, ← hl2, ← hr2, add_zero]
              exact Int.emod_emod_of_dvd _ dvd_rfl
            rw [h1, h2]
          · -- without wrap: at width two the right border cell is the direct
            -- right neighbor of the left one, otherwise the call is a no-op
            unfold Maze.get_cell at hgl hgr
            simp only [Bool.not_eq_true] at hwrap
            rw [hwrap] at hgl hgr
            simp only [Bool.false_eq_true, if_false] at hgl hgr
            split_ifs at hgl with hc1
            split_ifs at hgr with hc2
            simp only [Option.some.injEq, Prod.mk.injEq] at hgl hgr
            obtain ⟨hl1, hl2⟩ := hgl
            obtain ⟨hr1, hr2⟩ := hgr
            push_neg at hc1
            by_cases hw2 : mm.width = 2
            · refine hc.rwb_nbr hbl (d := .right) ?_
              unfold Maze.get_neighbor Maze.get_cell
              rw [hwrap]
              simp only [Bool.false_eq_true, if_false, Direction.value]
              rw [if_neg (by push_neg; constructor <;> omega)]
              simp only [Option.some.injEq, Prod.mk.injEq]
              omega
            · have hnone : rwbDirs mm.width mm.height mm.wrap lx ly rx ry = none := by
                unfold rwbDirs Direction.from_vector
                rw [hwrap]
                rw [if_neg (by omega), if_neg (by omega), if_neg (by omega),
                  if_neg (by omega)]
                simp
              show WallConsistent (mm.remove_wall_between lx ly rx ry)
              rw [Maze.remove_wall_between_eq, hnone]
              exact hc
    · exact hc

/-- The bridge stage (tile grid to Maze) always yields a wall-consistent
maze: the reset puts up every wall and every removal acts on a cell and
one of its neighbors. -/
theorem convertToMazeStructure_wallConsistent (m0 : Maze) (tile : Int → Int → Nat) :
    WallConsistent (convertToMazeStructure m0 tile) := by
  unfold convertToMazeStructure
  have hp1 := convertResetWalls_params m0
  have hc1 := convertResetWalls_wallConsistent m0
  have main2 : ∀ l : List (Int × Int),
      (∀ p ∈ l, p ∈ posList (convertResetWalls m0).width (convertResetWalls m0).height) →
      ∀ mm : Maze, WallConsistent mm → mm.params = m0.params →
      WallConsistent (l.foldl (fun acc p =>
        if tile p.1 p.2 == 0 then convertOpenStep tile p acc else acc) mm) ∧
      (l.foldl (fun acc p =>
        if tile p.1 p.2 == 0 then convertOpenStep tile p acc else acc) mm).params
        = m0.params := by
    intro l
    induction l with
    | nil => intro _ mm hc hp; exact ⟨hc, hp⟩
    | cons p t ih =>
      intro hsub mm hc hp
      rw [List.foldl_cons]
      have hpin : mm.inBounds p.1 p.2 = true := by
        rw [Maze.inBounds_congr hp, ← Maze.inBounds_congr hp1]
        exact Maze.inBounds_iff.2 (posList_mem.1 (hsub p (List.mem_cons_self _ _)))
      by_cases ht : tile p.1 p.2 == 0
      · rw [if_pos ht]
        have hs := convertOpenStep_pres tile p hc hp hpin
        exact ih (fun q hq => hsub q (List.mem_cons_of_mem _ hq)) _ hs.1 hs.2
      · rw [if_neg ht]
        exact ih (fun q hq => hsub q (List.mem_cons_of_mem _ hq)) _ hc hp
  have hmain := main2 _ (fun p hp => hp) (convertResetWalls m0) hc1 hp1
  dsimp only
  split_ifs with hwr
  · exact foldl_preserve WallConsistent _
      (fun mm (y : Int) hcm => wrapStitchStep_wallConsistent tile _ y hcm) _ _ hmain.1
  · exact hmain.1

/-- The maze of a pipeline run is the bridge stage of some tile grid,
followed by the classification pass. -/
theorem TetrisState.generate_maze (st : TetrisState) (rng : List Nat) :
    ∃ tile, (st.generate rng).maze =
      (convertToMazeStructure st.maze tile).analyze_cells := by
  unfold TetrisState.generate
  rcases h1 : generate_tetris_grid st.tetris_grid rng with ⟨tg, rng1⟩
  dsimp only
  rcases h2 : tetris_to_tiles tg rng1 with ⟨temp, rng2⟩
  dsimp only
  rcases h3 : createTunnels (applySizeAdjustments temp) rng2 with ⟨tile2, rng3⟩
  dsimp only
  exact ⟨_, rfl⟩

/-- C1: Wall-consistency invariant — every maze produced by either
generation strategy (the DFS `Maze.generate` or the tetromino piece
pipeline `tetrisGenerate`) satisfies wall consistency: for every pair of
grid-adjacent cells u, v where u's neighbor in direction d is v (and,
when wrap is on, also for the wrap-wound border pairs), u has a wall in d
iff v has a wall in the opposite direction. -/
theorem C1_wall_consistency :
    (∀ (m m' : Maze) (sx sy : Int) (rng : List Nat),
        m.generate sx sy rng = some m' → m'.wallConsistentB = true) ∧
    (∀ rng : List Nat, (tetrisGenerate rng).maze.wallConsistentB = true) := by
  constructor
  · intro m m' sx sy rng h
    unfold Maze.generate at h
    rcases hgc : m.generateCarve sx sy rng with _ | ⟨m1, rng1⟩
    · rw [hgc] at h
      simp at h
    · rw [hgc] at h
      dsimp only at h
      have hpost := Maze.generateCarve_post hgc
      exact Maze.wallConsistentB_iff.2
        ((hpost.2.1.analyze_cells).remove_dead_ends h)
  · intro rng
    obtain ⟨tile, heq⟩ := TetrisState.generate_maze tetrisInit rng
    rw [tetrisGenerate, heq]
    exact Maze.wallConsistentB_iff.2
      (WallConsistent.analyze_cells (convertToMazeStructure_wallConsistent _ _))

set_option maxRecDepth 40000 in
theorem C1_wall_consistency_witness :
    (((mkMazeRaw 2 2 false Symmetry.none).generate 0 0 []).getD
        (mkMazeRaw 2 2 false Symmetry.none)).wallConsistentB = true ∧
      (tetrisGenerate []).maze.wallConsistentB = true :=
  ⟨C1_wall_consistency.1 (mkMazeRaw 2 2 false Symmetry.none) _ 0 0 [] (by rfl),
    C1_wall_consistency.2 []⟩

/-- C5: Construction validation — an 8×8 maze with horizontal symmetry
constructs successfully, a 7-wide one with the same symmetry fails; in
general, whenever the symmetry requires an even dimension on an axis and
an odd value is supplied there, construction returns an error and no
maze value is produced; on success the dimensions are kept exactly as
supplied (never silently adjusted). -/
theorem C5_construction_validation :
    (∃ m : Maze, mazeInit 8 8 false Symmetry.horizontal = Except.ok m) ∧
    (∀ (h : Nat) (wrap : Bool), ∃ e,
      mazeInit 7 h wrap Symmetry.horizontal = Except.error e) ∧
    (∀ (w h : Nat) (wrap : Bool) (sym : Symmetry),
      ((sym.requiresEvenWidth = true ∧ w % 2 = 1) ∨
        (sym.requiresEvenHeight = true ∧ h % 2 = 1)) →
      ∃ e, mazeInit w h wrap sym = Except.error e) ∧
    (∀ (w h : Nat) (wrap : Bool) (sym : Symmetry) (m : Maze),
      mazeInit w h wrap sym = Except.ok m → m.width = w ∧ m.height = h) := by
  refine ⟨⟨_, rfl⟩, fun h wrap => ⟨_, rfl⟩, ?_, ?_⟩
  · intro w h wrap sym hcase
    unfold mazeInit
    by_cases h1 : (sym.requiresEvenWidth && !(w % 2 == 0)) = true
    · rw [if_pos h1]
      exact ⟨_, rfl⟩
    · rw [if_neg h1]
      have h2 : (sym.requiresEvenHeight && !(h % 2 == 0)) = true := by
        rcases hcase with ⟨hw, hodd⟩ | ⟨hh, hodd⟩
        · exfalso
          apply h1
          rw [hw]
          simp only [Bool.true_and, Bool.not_eq_true', beq_eq_false_iff_ne]
          omega
        · rw [hh]
          simp only [Bool.true_and, Bool.not_eq_true', beq_eq_false_iff_ne]
          omega
      rw [if_pos h2]
      exact ⟨_, rfl⟩
  · intro w h wrap sym m hok
    unfold mazeInit at hok
    split_ifs at hok
    simp only [Except.ok.injEq] at hok
    subst hok
    exact ⟨rfl, rfl⟩

theorem C5_construction_validation_witness :
    (∃ e, mazeInit 3 4 false Symmetry.horizontal = Except.error e) ∧
    ((mkMazeRaw 8 8 false Symmetry.horizontal).width = 8 ∧
      (mkMazeRaw 8 8 false Symmetry.horizontal).height = 8) :=
  ⟨C5_construction_validation.2.2.1 3 4 false Symmetry.horizontal (Or.inl ⟨rfl, rfl⟩),
    C5_construction_validation.2.2.2 8 8 false Symmetry.horizontal _ rfl⟩

/-- After the classification pass the intersection flag implies at least
three exits, so the `exit_count == 1` test guarding the `walls_t`
counter can never fire: `walls_t` is identically zero. -/
theorem analyze_statistics_walls_t (m : Maze) :
    (m.analyze_cells).get_statistics.walls_t = 0 := by
  have hgen : ∀ (l : List (Int × Int)),
      (∀ p ∈ l, p ∈ posList m.width m.height) →
      ∀ s : MazeStats,
      (l.foldl (fun s p =>
        let c := m.analyze_cells.cells p.1 p.2
        let s := { s with total_walls := s.total_walls + c.wall_count }
        let s :=
          if c.is_intersection then { s with intersections := s.intersections + 1 }
          else if c.is_dead_end then { s with dead_ends := s.dead_ends + 1 }
          else { s with corridors := s.corridors + 1 }
        if c.wall_count == 4 then { s with walls_i := s.walls_i + 1 }
        else if c.is_corner then { s with walls_l := s.walls_l + 1 }
        else if c.is_intersection then
          if c.exit_count == 1 then { s with walls_t := s.walls_t + 1 }
          else { s with walls_plus := s.walls_plus + 1 }
        else s) s).walls_t = s.walls_t := by
    intro l
    induction l with
    | nil => intro _ s; rfl
    | cons p t ih =>
      intro hsub s
      rw [List.foldl_cons]
      rw [ih (fun q hq => hsub q (List.mem_cons_of_mem _ hq))]
      have hmem := hsub p (List.mem_cons_self _ _)
      have hcell := Maze.cells_analyze_cells m p.1 p.2
      rw [if_pos hmem] at hcell
      dsimp only
      rw [hcell]
      dsimp only
      split_ifs <;> try rfl
      all_goals
        exfalso
        have hsame : Cell.exit_count { m.cells p.1 p.2 with
            is_intersection := decide (2 < (m.cells p.1 p.2).exit_count),
            is_dead_end := ((m.cells p.1 p.2).exit_count == 1) } =
          (m.cells p.1 p.2).exit_count := rfl
        simp_all only [decide_eq_true_eq, beq_iff_eq, hsame]
        omega
  unfold Maze.get_statistics
  have hps := Maze.params_analyze_cells m
  rw [Maze.width_of_params hps, Maze.height_of_params hps]
  rw [hgen _ (fun p hp => hp)]

/-- C8: the statistics taxonomy diverges from the spec for `walls_t`:
the branch counting T-intersections is guarded by `is_intersection`
(at least 3 exits) together with `exit_count == 1`, which is
contradictory, so `walls_t` stays 0 on every classified maze and 3-exit
intersections are counted into `walls_plus` instead.  Concretely, a maze
whose center cell is a 3-exit intersection reports `walls_t = 0` and
`walls_plus = 1`, where the spec's taxonomy requires `walls_t = 1`,
`walls_plus = 0`. -/
theorem C8_walls_t_dead_branch :
    (∀ m : Maze, (m.analyze_cells).get_statistics.walls_t = 0) ∧
    (c8maze.cells 1 1).exit_count = 3 ∧
    (c8maze.cells 1 1).is_intersection = true ∧
    c8maze.get_statistics.walls_t = 0 ∧
    c8maze.get_statistics.walls_plus = 1 :=
  ⟨analyze_statistics_walls_t, by decide, by decide, by decide, by decide⟩

/-! ### The symmetric carve as a pure list of bit clears -/

theorem Maze.get_cell_eq_getCellP (m : Maze) (x y : Int) :
    m.get_cell x y = getCellP m.width m.height m.wrap x y := rfl

theorem Maze.get_symmetric_cell_eq (m : Maze) (x y : Int) :
    m.get_symmetric_cell x y = symOrbit m.width m.height m.symmetry x y := rfl

@[simp] theorem Maze.params_applyClears (m : Maze) (L : List ((Int × Int) × Direction)) :
    (m.applyClears L).params = m.params :=
  foldl_preserve (fun mm => mm.params = m.params) _
    (fun m' (q : (Int × Int) × Direction) h =>
      (Maze.params_removeWallAt m' q.1.1 q.1.2 q.2).trans h) _ m rfl

theorem Maze.applyClears_append (m : Maze) (L1 L2 : List ((Int × Int) × Direction)) :
    m.applyClears (L1 ++ L2) = (m.applyClears L1).applyClears L2 := by
  unfold Maze.applyClears
  rw [List.foldl_append]

theorem Maze.applySymAt_eq_applyClears (m : Maze) (cx cy : Int) (d : Direction)
    (p : Int × Int) :
    m.applySymAt cx cy d p =
      m.applyClears (clearsOfAt m.width m.height m.wrap cx cy d p) := by
  unfold Maze.applySymAt clearsOfAt
  rw [show getCellP m.width m.height m.wrap p.1 p.2 = m.get_cell p.1 p.2 from rfl]
  rcases hgc : m.get_cell p.1 p.2 with _ | ⟨bx, by2⟩
  · rfl
  · dsimp only
    rw [show getCellP m.width m.height m.wrap
        (bx + (symStepDir cx cy p.1 p.2 d).value.1)
        (by2 + (symStepDir cx cy p.1 p.2 d).value.2)
      = m.get_neighbor bx by2 (symStepDir cx cy p.1 p.2 d) from rfl]
    rcases hgn : m.get_neighbor bx by2 (symStepDir cx cy p.1 p.2 d) with _ | ⟨nx, ny⟩
    · rfl
    · dsimp only
      rw [Maze.remove_wall_between_eq]
      rcases hrd : rwbDirs m.width m.height m.wrap bx by2 nx ny with _ | ⟨d1, d2⟩
      · rfl
      · rfl

/-- `_apply_symmetric_wall_removal` equals clearing a list of wall bits
computed purely from the parameters and the carve coordinates. -/
theorem Maze.apply_symmetric_wall_removal_eq (m : Maze) (cx cy : Int) (d : Direction) :
    m.apply_symmetric_wall_removal cx cy d =
      m.applyClears (symClears m.width m.height m.wrap m.symmetry cx cy d) := by
  unfold Maze.apply_symmetric_wall_removal symClears
  rw [Maze.get_symmetric_cell_eq]
  have main : ∀ (l : List (Int × Int)) (mm : Maze), mm.params = m.params →
      l.foldl (fun acc p => acc.applySymAt cx cy d p) mm =
        mm.applyClears
          (l.flatMap (fun p => clearsOfAt m.width m.height m.wrap cx cy d p)) := by
    intro l
    induction l with
    | nil => intro mm _; rfl
    | cons p t ih =>
      intro mm hp
      rw [List.foldl_cons, List.flatMap_cons, Maze.applyClears_append]
      have h1 : mm.applySymAt cx cy d p =
          mm.applyClears (clearsOfAt m.width m.height m.wrap cx cy d p) := by
        rw [Maze.applySymAt_eq_applyClears]
        rw [Maze.width_of_params hp, Maze.height_of_params hp, Maze.wrap_of_params hp]
      rw [h1]
      exact ih _ (by rw [Maze.params_applyClears, hp])
  exact main _ m rfl

theorem cellClears_cons (q : (Int × Int) × Direction) (t : List ((Int × Int) × Direction))
    (a b : Int) (c : Cell) :
    cellClears (q :: t) a b c =
      cellClears t a b (if a = q.1.1 ∧ b = q.1.2 then c.remove_wall q.2 else c) := rfl

theorem Maze.cells_applyClears (L : List ((Int × Int) × Direction)) :
    ∀ (m : Maze) (a b : Int),
      (m.applyClears L).cells a b = cellClears L a b (m.cells a b) := by
  induction L with
  | nil => intro m a b; rfl
  | cons q t ih =>
    intro m a b
    show ((m.removeWallAt q.1.1 q.1.2 q.2).applyClears t).cells a b = _
    rw [ih, cellClears_cons]
    rfl

theorem has_wall_cellClears (L : List ((Int × Int) × Direction)) :
    ∀ (a b : Int) (c : Cell) (e : Direction),
      (cellClears L a b c).has_wall e =
        (c.has_wall e &&
          !(L.any (fun q => decide (a = q.1.1 ∧ b = q.1.2 ∧ q.2 = e)))) := by
  induction L with
  | nil => intro a b c e; simp [cellClears]
  | cons q t ih =>
    intro a b c e
    rw [cellClears_cons, ih, List.any_cons]
    by_cases hq : a = q.1.1 ∧ b = q.1.2
    · rw [if_pos hq, Cell.has_wall_remove_wall]
      have h1 : decide (a = q.1.1 ∧ b = q.1.2 ∧ q.2 = e) = decide (q.2 = e) := by
        simp [hq.1, hq.2]
      have h2 : (decide (e = q.2) : Bool) = decide (q.2 = e) := by
        simp [eq_comm]
      rw [h1, h2]
      cases hde : decide (q.2 = e) <;> cases c.has_wall e <;> simp
    · rw [if_neg hq]
      have h1 : decide (a = q.1.1 ∧ b = q.1.2 ∧ q.2 = e) = false := by
        simp only [decide_eq_false_iff_not]
        intro hcon
        exact hq ⟨hcon.1, hcon.2.1⟩
      rw [h1]
      simp

theorem cellClears_visited (L : List ((Int × Int) × Direction)) :
    ∀ (a b : Int) (c : Cell), (cellClears L a b c).visited = c.visited := by
  induction L with
  | nil => intro a b c; rfl
  | cons q t ih =>
    intro a b c
    rw [cellClears_cons, ih]
    split_ifs
    · exact Cell.remove_wall_visited _ _
    · rfl

theorem cellClears_inter (L : List ((Int × Int) × Direction)) :
    ∀ (a b : Int) (c : Cell),
      (cellClears L a b c).is_intersection = c.is_intersection := by
  induction L with
  | nil => intro a b c; rfl
  | cons q t ih =>
    intro a b c
    rw [cellClears_cons, ih]
    split_ifs
    · exact Cell.remove_wall_inter _ _
    · rfl

theorem cellClears_dead (L : List ((Int × Int) × Direction)) :
    ∀ (a b : Int) (c : Cell), (cellClears L a b c).is_dead_end = c.is_dead_end := by
  induction L with
  | nil => intro a b c; rfl
  | cons q t ih =>
    intro a b c
    rw [cellClears_cons, ih]
    split_ifs
    · exact Cell.remove_wall_dead _ _
    · rfl

/-- Clearing the same list of wall bits twice equals clearing it once,
cell by cell. -/
theorem cellClears_idem (L : List ((Int × Int) × Direction)) (a b : Int) (c : Cell) :
    cellClears L a b (cellClears L a b c) = cellClears L a b c := by
  have hw : ∀ e : Direction,
      (cellClears L a b (cellClears L a b c)).has_wall e =
        (cellClears L a b c).has_wall e := by
    intro e
    rw [has_wall_cellClears, has_wall_cellClears]
    cases hA : L.any (fun q => decide (a = q.1.1 ∧ b = q.1.2 ∧ q.2 = e)) <;>
      cases c.has_wall e <;> rfl
  refine Cell.ext ?_ ?_ ?_ ?_ ?_ ?_ ?_
  · exact hw .up
  · exact hw .down
  · exact hw .left
  · exact hw .right
  · rw [cellClears_visited, cellClears_visited]
  · rw [cellClears_inter, cellClears_inter]
  · rw [cellClears_dead, cellClears_dead]

/-- Clearing a list of wall bits is idempotent on the whole maze. -/
theorem Maze.applyClears_idem (m : Maze) (L : List ((Int × Int) × Direction)) :
    (m.applyClears L).applyClears L = m.applyClears L := by
  have hp := Maze.params_applyClears (m.applyClears L) L
  refine Maze.ext ?_ ?_ ?_ ?_ ?_
  · exact Maze.width_of_params hp
  · exact Maze.height_of_params hp
  · exact Maze.wrap_of_params hp
  · exact Maze.symmetry_of_params hp
  · funext a b
    rw [Maze.cells_applyClears, Maze.cells_applyClears]
    exact cellClears_idem L a b (m.cells a b)

/-- C7: the symmetric wall-removal operation is idempotent — calling
`_apply_symmetric_wall_removal` twice with the same cell and direction
leaves the maze exactly as one call does, and removing an
already-removed wall from a cell is a no-op. -/
theorem C7_symmetric_carve_idempotent :
    (∀ (m : Maze) (cx cy : Int) (d : Direction),
      (m.apply_symmetric_wall_removal cx cy d).apply_symmetric_wall_removal cx cy d
        = m.apply_symmetric_wall_removal cx cy d) ∧
    (∀ (c : Cell) (e : Direction),
      (c.remove_wall e).remove_wall e = c.remove_wall e) := by
  constructor
  · intro m cx cy d
    rw [Maze.apply_symmetric_wall_removal_eq (m.apply_symmetric_wall_removal cx cy d)
      cx cy d]
    rw [Maze.apply_symmetric_wall_removal_eq m cx cy d]
    have hp := Maze.params_applyClears m
      (symClears m.width m.height m.wrap m.symmetry cx cy d)
    rw [Maze.width_of_params hp, Maze.height_of_params hp, Maze.wrap_of_params hp,
      Maze.symmetry_of_params hp]
    exact Maze.applyClears_idem m _
  · intro c e
    cases e <;> rfl

/-! ### The dead-end eliminator: no-change steps, decrease, termination -/

theorem Maze.rdeCellStep_false {m m1 : Maze} {x y : Int}
    (h : m.rdeCellStep x y = (m1, false)) : m1 = m := by
  unfold Maze.rdeCellStep at h
  dsimp only at h
  split at h
  · split at h
    · split at h
      · split at h
        · simp at h
        · simp only [Prod.mk.injEq] at h
          exact h.1.symm
      · simp only [Prod.mk.injEq] at h
        exact h.1.symm
    · simp only [Prod.mk.injEq] at h
      exact h.1.symm
  · simp only [Prod.mk.injEq] at h
    exact h.1.symm

theorem Maze.rdeSweep_fold_false :
    ∀ (l : List (Int × Int)) (acc : Maze × Bool),
      (l.foldl (fun acc p =>
        let (m1, ch) := acc.1.rdeCellStep p.1 p.2
        (m1, acc.2 || ch)) acc).2 = false →
      (l.foldl (fun acc p =>
        let (m1, ch) := acc.1.rdeCellStep p.1 p.2
        (m1, acc.2 || ch)) acc).1 = acc.1 ∧ acc.2 = false := by
  intro l
  induction l with
  | nil => intro acc h; exact ⟨rfl, h⟩
  | cons p t ih =>
    intro acc h
    rw [List.foldl_cons] at h ⊢
    rcases hst : acc.1.rdeCellStep p.1 p.2 with ⟨m1, ch⟩
    rw [hst] at h
    have hred : (match ((m1 : Maze), (ch : Bool)) with
        | (m1, ch) => (m1, acc.2 || ch)) = ((m1 : Maze), acc.2 || ch) := rfl
    rw [hred] at h ⊢
    obtain ⟨h1, h2⟩ := ih _ h
    have h2' : (acc.2 || ch) = false := h2
    have hch : ch = false := by
      cases ch
      · rfl
      · rw [Bool.or_true] at h2'
        exact h2'
    have hacc : acc.2 = false := by
      cases hacc2 : acc.2
      · rfl
      · rw [hacc2, Bool.true_or] at h2'
        exact h2'
    subst hch
    have hm1 : m1 = acc.1 := Maze.rdeCellStep_false hst
    refine ⟨?_, hacc⟩
    rw [h1]
    exact hm1

theorem Maze.rdeSweep_false {m : Maze} (h : (m.rdeSweep).2 = false) :
    (m.rdeSweep).1 = m := by
  unfold Maze.rdeSweep at h ⊢
  exact (Maze.rdeSweep_fold_false _ _ h).1

/-- A terminating dead-end-eliminator run ends in a maze whose full
sweep reports no change and returns the maze verbatim. -/
theorem Maze.rdeLoop_some :
    ∀ {fuel : Nat} {m m' : Maze}, Maze.rdeLoop fuel m = some m' →
      m'.rdeSweep = (m', false) := by
  intro fuel
  induction fuel with
  | zero => intro m m' h; exact absurd h (by simp [Maze.rdeLoop])
  | succ fuel ih =>
    intro m m' h
    unfold Maze.rdeLoop at h
    rcases hsw : m.rdeSweep with ⟨m1, ch⟩
    rw [hsw] at h
    dsimp only at h
    cases ch with
    | true =>
      rw [if_pos rfl] at h
      exact ih h
    | false =>
      rw [if_neg (by simp)] at h
      simp only [Option.some.injEq] at h
      have hf : (m.rdeSweep).2 = false := by rw [hsw]
      have h1 : (m.rdeSweep).1 = m := Maze.rdeSweep_false hf
      rw [hsw] at h1
      dsimp only at h1
      subst h
      rw [h1]
      rw [h1] at hsw
      exact hsw

theorem Maze.rdeLoop_fix {m : Maze} (hsw : m.rdeSweep = (m, false)) :
    ∀ fuel : Nat, 1 ≤ fuel → Maze.rdeLoop fuel m = some m := by
  intro fuel hf
  cases fuel with
  | zero => omega
  | succ n =>
    unfold Maze.rdeLoop
    rw [hsw]
    rfl

theorem Cell.wall_count_remove_le (c : Cell) (d : Direction) :
    (c.remove_wall d).wall_count ≤ c.wall_count := by
  cases d <;>
    simp only [Cell.remove_wall, Cell.wall_count] <;>
    cases c.wallUp <;> cases c.wallDown <;> cases c.wallLeft <;> cases c.wallRight <;>
    simp

theorem Cell.wall_count_remove_lt (c : Cell) (d : Direction) (h : c.has_wall d = true) :
    (c.remove_wall d).wall_count < c.wall_count := by
  cases d <;>
    simp only [Cell.has_wall] at h <;>
    simp only [Cell.remove_wall, Cell.wall_count, h] <;>
    cases c.wallUp <;> cases c.wallDown <;> cases c.wallLeft <;> cases c.wallRight <;>
    simp_all

theorem sum_map_le {α : Type} (l : List α) (f g : α → Nat)
    (h : ∀ a ∈ l, f a ≤ g a) : (l.map f).sum ≤ (l.map g).sum := by
  induction l with
  | nil => simp
  | cons a t ih =>
    simp only [List.map_cons, List.sum_cons]
    have h1 := h a (List.mem_cons_self _ _)
    have h2 := ih (fun a ha => h a (List.mem_cons_of_mem _ ha))
    omega

theorem sum_map_lt {α : Type} (l : List α) (f g : α → Nat)
    (h : ∀ a ∈ l, f a ≤ g a) (hx : ∃ a ∈ l, f a < g a) :
    (l.map f).sum < (l.map g).sum := by
  induction l with
  | nil => exact absurd hx (by simp)
  | cons a t ih =>
    simp only [List.map_cons, List.sum_cons]
    obtain ⟨b, hb, hlt⟩ := hx
    rcases List.mem_cons.1 hb with rfl | hbt
    · have h2 := sum_map_le t f g (fun a ha => h a (List.mem_cons_of_mem _ ha))
      omega
    · have h1 := h a (List.mem_cons_self _ _)
      have h2 := ih (fun a ha => h a (List.mem_cons_of_mem _ ha)) ⟨b, hbt, hlt⟩
      omega

theorem Maze.totalWalls_removeWallAt_le (m : Maze) (x y : Int) (d : Direction) :
    (m.removeWallAt x y d).totalWalls ≤ m.totalWalls := by
  unfold Maze.totalWalls
  rw [show (m.removeWallAt x y d).width = m.width from rfl,
    show (m.removeWallAt x y d).height = m.height from rfl]
  apply sum_map_le
  intro p _
  rw [show (m.removeWallAt x y d).cells p.1 p.2 =
      if p.1 = x ∧ p.2 = y then (m.cells p.1 p.2).remove_wall d else m.cells p.1 p.2
    from rfl]
  split_ifs
  · exact Cell.wall_count_remove_le _ _
  · exact le_refl _

theorem Maze.totalWalls_removeWallAt_lt {m : Maze} {x y : Int} {d : Direction}
    (hin : m.inBounds x y = true) (hw : (m.cells x y).has_wall d = true) :
    (m.removeWallAt x y d).totalWalls < m.totalWalls := by
  unfold Maze.totalWalls
  rw [show (m.removeWallAt x y d).width = m.width from rfl,
    show (m.removeWallAt x y d).height = m.height from rfl]
  apply sum_map_lt
  · intro p _
    rw [show (m.removeWallAt x y d).cells p.1 p.2 =
        if p.1 = x ∧ p.2 = y then (m.cells p.1 p.2).remove_wall d else m.cells p.1 p.2
      from rfl]
    split_ifs
    · exact Cell.wall_count_remove_le _ _
    · exact le_refl _
  · refine ⟨(x, y), ?_, ?_⟩
    · have hq := Maze.inBounds_iff.1 hin
      exact posList_mem.2 ⟨hq.1, hq.2.1, hq.2.2.1, hq.2.2.2⟩
    · rw [show (m.removeWallAt x y d).cells x y =
          if x = x ∧ y = y then (m.cells x y).remove_wall d else m.cells x y from rfl]
      rw [if_pos ⟨rfl, rfl⟩]
      exact Cell.wall_count_remove_lt _ _ hw

theorem Maze.totalWalls_le (m : Maze) : m.totalWalls ≤ 4 * m.width * m.height := by
  unfold Maze.totalWalls
  calc ((posList m.width m.height).map fun p => (m.cells p.1 p.2).wall_count).sum
      ≤ ((posList m.width m.height).map fun _ => 4).sum :=
        sum_map_le _ _ _ (fun a _ => Cell.wall_count_le _)
    _ = 4 * m.width * m.height := by
        rw [List.map_const', List.sum_replicate, posList_length, smul_eq_mul]
        ring

/-- A dead-end repair that flags a change removes the present wall of a
direct in-grid neighbor pair when wrap is off. -/
theorem Maze.rdeCellStep_true {m m1 : Maze} {x y : Int}
    (h : m.rdeCellStep x y = (m1, true)) :
    ∃ (d : Direction) (nx ny : Int),
      (m.cells x y).has_wall d = true ∧
      m.get_neighbor x y d = some (nx, ny) ∧
      m1 = m.remove_wall_between x y nx ny := by
  unfold Maze.rdeCellStep at h
  dsimp only at h
  split at h
  · split at h
    · split at h
      · split at h
        · rename_i v1 v2 v3 v4 v5 v6 v7
          simp only [Prod.mk.injEq] at h
          have hp := List.find?_some v3
          unfold Maze.rdeNbrOk at hp
          simp only [Bool.and_eq_true] at hp
          exact ⟨v2, v5, v6, hp.1.2, v7, h.1.symm⟩
        · simp at h
      · simp at h
    · simp at h
  · simp at h

theorem Maze.rdeCellStep_lt {m m1 : Maze} {x y : Int} (hwrap : m.wrap = false)
    (hin : m.inBounds x y = true) (h : m.rdeCellStep x y = (m1, true)) :
    m1.totalWalls < m.totalWalls := by
  obtain ⟨d, nx, ny, hw, hgn, hm1⟩ := Maze.rdeCellStep_true h
  have hgn' := hgn
  unfold Maze.get_neighbor Maze.get_cell at hgn'
  rw [hwrap] at hgn'
  simp only [Bool.false_eq_true, if_false] at hgn'
  split_ifs at hgn' with hoob
  simp only [Option.some.injEq, Prod.mk.injEq] at hgn'
  obtain ⟨hnx, hny⟩ := hgn'
  subst hm1
  rw [Maze.remove_wall_between_eq]
  have hrwb : rwbDirs m.width m.height m.wrap x y nx ny = some (d, d.opposite) := by
    unfold rwbDirs
    rw [show nx - x = d.value.1 by omega, show ny - y = d.value.2 by omega,
      Direction.from_vector_value]
  rw [hrwb]
  calc ((m.removeWallAt x y d).removeWallAt nx ny d.opposite).totalWalls
      ≤ (m.removeWallAt x y d).totalWalls := Maze.totalWalls_removeWallAt_le _ _ _ _
    _ < m.totalWalls := Maze.totalWalls_removeWallAt_lt hin hw

/-- A sweep that flags a change strictly lowers the wall count when wrap
is off. -/
theorem Maze.rdeSweep_lt {m : Maze} (hwrap : m.wrap = false)
    (h2 : (m.rdeSweep).2 = true) : (m.rdeSweep).1.totalWalls < m.totalWalls := by
  unfold Maze.rdeSweep at h2 ⊢
  have main : ∀ (l : List (Int × Int)), (∀ p ∈ l, p ∈ posList m.width m.height) →
      ∀ acc : Maze × Bool, acc.1.params = m.params →
      (l.foldl (fun acc p =>
          let (m1, ch) := acc.1.rdeCellStep p.1 p.2
          (m1, acc.2 || ch)) acc).1.params = m.params ∧
      (l.foldl (fun acc p =>
          let (m1, ch) := acc.1.rdeCellStep p.1 p.2
          (m1, acc.2 || ch)) acc).1.totalWalls ≤ acc.1.totalWalls ∧
      ((l.foldl (fun acc p =>
          let (m1, ch) := acc.1.rdeCellStep p.1 p.2
          (m1, acc.2 || ch)) acc).2 = true →
        acc.2 = true ∨
          (l.foldl (fun acc p =>
            let (m1, ch) := acc.1.rdeCellStep p.1 p.2
            (m1, acc.2 || ch)) acc).1.totalWalls < acc.1.totalWalls) := by
    intro l
    induction l with
    | nil => intro _ acc hp; exact ⟨hp, le_refl _, fun h => Or.inl h⟩
    | cons p t ih =>
      intro hsub acc hp
      rw [List.foldl_cons]
      rcases hst : acc.1.rdeCellStep p.1 p.2 with ⟨m1, ch⟩
      have hred : (match ((m1 : Maze), (ch : Bool)) with
          | (m1, ch) => (m1, acc.2 || ch)) = ((m1 : Maze), acc.2 || ch) := rfl
      rw [hred]
      have hp1 : m1.params = m.params := by
        have := Maze.params_rdeCellStep acc.1 p.1 p.2
        rw [hst] at this
        exact this.trans hp
      obtain ⟨ih1, ih2, ih3⟩ :=
        ih (fun q hq => hsub q (List.mem_cons_of_mem _ hq)) (m1, acc.2 || ch) hp1
      cases ch with
      | false =>
        have hm1 : m1 = acc.1 := Maze.rdeCellStep_false hst
        subst hm1
        refine ⟨ih1, ih2, fun hfin => ?_⟩
        rcases ih3 hfin with hor | hlt
        · rw [Bool.or_false] at hor
          exact Or.inl hor
        · exact Or.inr hlt
      | true =>
        have hlt : m1.totalWalls < acc.1.totalWalls := by
          apply Maze.rdeCellStep_lt _ _ hst
          · rw [Maze.wrap_of_params hp]
            exact hwrap
          · rw [Maze.inBounds_congr hp]
            rw [← Maze.inBounds_congr (rfl : m.params = m.params)]
            exact Maze.inBounds_iff.2
              (posList_mem.1 (hsub p (List.mem_cons_self _ _)))
        refine ⟨ih1, le_trans ih2 (le_of_lt hlt), fun _ => Or.inr ?_⟩
        exact lt_of_le_of_lt ih2 hlt
  obtain ⟨-, -, hstrict⟩ := main (posList m.width m.height) (fun p hp => hp) (m, false) rfl
  rcases hstrict h2 with hfalse | hlt
  · exact absurd hfalse (by simp)
  · exact hlt

theorem Maze.rdeLoop_isSome :
    ∀ (fuel : Nat) (m : Maze), m.wrap = false → m.totalWalls + 1 ≤ fuel →
      (Maze.rdeLoop fuel m).isSome = true := by
  intro fuel
  induction fuel with
  | zero => intro m _ hf; omega
  | succ fuel ih =>
    intro m hwrap hf
    unfold Maze.rdeLoop
    rcases hsw : m.rdeSweep with ⟨m1, ch⟩
    dsimp only
    cases ch with
    | false => simp
    | true =>
      rw [if_pos rfl]
      have hp1 : m1.params = m.params := by
        have := Maze.params_rdeSweep m
        rw [hsw] at this
        exact this
      apply ih
      · rw [Maze.wrap_of_params hp1]
        exact hwrap
      · have hlt : m1.totalWalls < m.totalWalls := by
          have h2 : (m.rdeSweep).2 = true := by rw [hsw]
          have := Maze.rdeSweep_lt hwrap h2
          rw [hsw] at this
          exact this
        omega

theorem Maze.remove_dead_ends_isSome (m : Maze) (hwrap : m.wrap = false) :
    (m.remove_dead_ends).isSome = true := by
  unfold Maze.remove_dead_ends
  apply Maze.rdeLoop_isSome _ _ hwrap
  have := Maze.totalWalls_le m
  omega

/-- C4 (amended): with wrap off every `_remove_dead_ends` run terminates
(each changed sweep carves at least one wall), and whenever a run
terminates its result is a fixpoint: the full sweep over the result
carves nothing and reports no change, so a second run returns the same
grid unchanged.  (Under wrap the repair can flag a change while carving
nothing, and the loop then never terminates — see the counterexample.) -/
theorem C4_dead_end_fixpoint :
    (∀ m : Maze, m.wrap = false → (m.remove_dead_ends).isSome = true) ∧
    (∀ m m' : Maze, m.remove_dead_ends = some m' →
      m'.rdeSweep = (m', false) ∧ m'.remove_dead_ends = some m') := by
  constructor
  · exact fun m h => Maze.remove_dead_ends_isSome m h
  · intro m m' h
    have hsw := Maze.rdeLoop_some h
    refine ⟨hsw, ?_⟩
    unfold Maze.remove_dead_ends
    exact Maze.rdeLoop_fix hsw _ (by omega)

theorem C4_dead_end_fixpoint_witness :
    ((mkMazeRaw 2 2 false Symmetry.none).remove_dead_ends).isSome = true ∧
    ((mkMazeRaw 2 2 false Symmetry.none).rdeSweep
        = (mkMazeRaw 2 2 false Symmetry.none, false) ∧
      (mkMazeRaw 2 2 false Symmetry.none).remove_dead_ends
        = some (mkMazeRaw 2 2 false Symmetry.none)) :=
  ⟨C4_dead_end_fixpoint.1 (mkMazeRaw 2 2 false Symmetry.none) rfl,
    C4_dead_end_fixpoint.2 (mkMazeRaw 2 2 false Symmetry.none)
      (mkMazeRaw 2 2 false Symmetry.none) (by rfl)⟩

/-- C4, counterexample: a wall-consistent 2×1 wrap maze on which one
full sweep carves no wall (the wall sets are unchanged) yet reports a
change, and `_remove_dead_ends` never terminates. -/
theorem C4_counterexample :
    c4maze.wallConsistentB = true ∧
    (c4maze.rdeSweep).2 = true ∧
    wallsEqB (c4maze.rdeSweep).1 c4maze = true ∧
    c4maze.remove_dead_ends = none :=
  ⟨by decide, by decide, by decide, by rfl⟩

/-! ### The tetromino seed grid (stage 1) -/

theorem tetrisAssignStep_skip (acc : (Int → Int → Option TetrisPiece) × List Nat)
    (p : Int × Int) (hs : p.1 = 1 ∧ (p.2 = 6 ∨ p.2 = 7)) :
    tetrisAssignStep acc p = acc := by
  unfold tetrisAssignStep
  dsimp only
  rw [if_pos hs]

theorem tetrisAssignStep_go (acc : (Int → Int → Option TetrisPiece) × List Nat)
    (p : Int × Int) (hs : ¬(p.1 = 1 ∧ (p.2 = 6 ∨ p.2 = 7))) :
    ∃ v : Option TetrisPiece,
      (tetrisAssignStep acc p).1 =
        (if p.1 < 2 then setG (setG acc.1 p.1 p.2 v) (4 - p.1) p.2 v
         else setG acc.1 p.1 p.2 v) := by
  unfold tetrisAssignStep
  dsimp only
  rw [if_neg hs]
  exact ⟨_, rfl⟩

theorem tetrisAssignStep_read (acc : (Int → Int → Option TetrisPiece) × List Nat)
    (p : Int × Int) {a b : Int}
    (h1 : ¬(a = p.1 ∧ b = p.2)) (h2 : ¬(a = 4 - p.1 ∧ b = p.2)) :
    (tetrisAssignStep acc p).1 a b = acc.1 a b := by
  by_cases hs : p.1 = 1 ∧ (p.2 = 6 ∨ p.2 = 7)
  · rw [tetrisAssignStep_skip acc p hs]
  · obtain ⟨v, heq⟩ := tetrisAssignStep_go acc p hs
    rw [heq]
    split_ifs
    · show (if a = 4 - p.1 ∧ b = p.2 then v else setG acc.1 p.1 p.2 v a b) = acc.1 a b
      rw [if_neg h2]
      show (if a = p.1 ∧ b = p.2 then v else acc.1 a b) = acc.1 a b
      rw [if_neg h1]
    · show (if a = p.1 ∧ b = p.2 then v else acc.1 a b) = acc.1 a b
      rw [if_neg h1]

theorem tetrisAssignStep_writes (acc : (Int → Int → Option TetrisPiece) × List Nat)
    (p : Int × Int) (hs : ¬(p.1 = 1 ∧ (p.2 = 6 ∨ p.2 = 7)))
    (hx : p.1 = 0 ∨ p.1 = 1) :
    (tetrisAssignStep acc p).1 p.1 p.2 = (tetrisAssignStep acc p).1 (4 - p.1) p.2 := by
  obtain ⟨v, heq⟩ := tetrisAssignStep_go acc p hs
  rw [heq]
  rw [if_pos (by omega : p.1 < 2)]
  show (if p.1 = 4 - p.1 ∧ p.2 = p.2 then v else setG acc.1 p.1 p.2 v p.1 p.2) =
    (if 4 - p.1 = 4 - p.1 ∧ p.2 = p.2 then v else setG acc.1 p.1 p.2 v (4 - p.1) p.2)
  rw [if_neg (by omega), if_pos ⟨rfl, rfl⟩]
  show (if p.1 = p.1 ∧ p.2 = p.2 then v else acc.1 p.1 p.2) = v
  rw [if_pos ⟨rfl, rfl⟩]

theorem tetrisAssignStep_read_fixed (acc : (Int → Int → Option TetrisPiece) × List Nat)
    (p : Int × Int) (hcols : p.1 = 0 ∨ p.1 = 1 ∨ p.1 = 2)
    {a b : Int} (ha : a = 1 ∨ a = 3) (hb : b = 6 ∨ b = 7) :
    (tetrisAssignStep acc p).1 a b = acc.1 a b := by
  by_cases hs : p.1 = 1 ∧ (p.2 = 6 ∨ p.2 = 7)
  · rw [tetrisAssignStep_skip acc p hs]
  · exact tetrisAssignStep_read acc p (by omega) (by omega)

/-- The random-assignment loop never rewrites the special rows at
columns 1 and 3 (either the loop cell is skipped or its writes land
elsewhere). -/
theorem tetrisAssign_fold_fixed :
    ∀ (l : List (Int × Int)), (∀ p ∈ l, p.1 = 0 ∨ p.1 = 1 ∨ p.1 = 2) →
      ∀ (gr : (Int → Int → Option TetrisPiece) × List Nat) (a b : Int),
      (a = 1 ∨ a = 3) → (b = 6 ∨ b = 7) →
      (l.foldl tetrisAssignStep gr).1 a b = gr.1 a b := by
  intro l
  induction l with
  | nil => intro _ gr a b _ _; rfl
  | cons p t ih =>
    intro hcols gr a b ha hb
    rw [List.foldl_cons,
      ih (fun q hq => hcols q (List.mem_cons_of_mem _ hq)) _ a b ha hb]
    exact tetrisAssignStep_read_fixed gr p (hcols p (List.mem_cons_self _ _)) ha hb

/-- Mirror equality through the random-assignment loop: once a pair is
written (or will be written later), it stays mirror-equal. -/
theorem tetrisAssign_fold_mirror :
    ∀ (l : List (Int × Int)), (∀ p ∈ l, p.1 = 0 ∨ p.1 = 1 ∨ p.1 = 2) →
      ∀ (gr : (Int → Int → Option TetrisPiece) × List Nat) (x y : Int),
      (x = 0 ∨ x = 1) → ¬(x = 1 ∧ (y = 6 ∨ y = 7)) →
      ((x, y) ∈ l ∨ gr.1 x y = gr.1 (4 - x) y) →
      (l.foldl tetrisAssignStep gr).1 x y =
        (l.foldl tetrisAssignStep gr).1 (4 - x) y := by
  intro l
  induction l with
  | nil =>
    intro _ gr x y _ _ hor
    rcases hor with h | h
    · exact absurd h (by simp)
    · exact h
  | cons p t ih =>
    intro hcols gr x y hx hexc hor
    rw [List.foldl_cons]
    have hcolsT := fun q hq => hcols q (List.mem_cons_of_mem _ hq)
    by_cases hpx : (x, y) = p
    · subst hpx
      exact ih hcolsT _ x y hx hexc
        (Or.inr (tetrisAssignStep_writes gr (x, y) hexc hx))
    · rcases hor with hmem | hmir
      · rcases List.mem_cons.1 hmem with heq | hmemT
        · exact absurd heq hpx
        · exact ih hcolsT _ x y hx hexc (Or.inl hmemT)
      · have hc := hcols p (List.mem_cons_self _ _)
        refine ih hcolsT _ x y hx hexc (Or.inr ?_)
        rw [tetrisAssignStep_read gr p
            (by intro hcon; exact hpx (Prod.ext_iff.2 ⟨hcon.1, hcon.2⟩)) (by omega)]
        rw [tetrisAssignStep_read gr p (by omega)
            (by intro hcon; exact hpx (Prod.ext_iff.2 ⟨by omega, hcon.2⟩))]
        exact hmir

theorem setG_foldl_read {α : Type} (v : α) :
    ∀ (l : List (Int × Int)) (g0 : Int → Int → α) (a b : Int),
      (l.foldl (fun g p => setG g p.1 p.2 v) g0) a b =
        if (a, b) ∈ l then v else g0 a b := by
  intro l
  induction l with
  | nil => intro g0 a b; simp
  | cons p t ih =>
    intro g0 a b
    rw [List.foldl_cons, ih]
    by_cases hm : (a, b) ∈ t
    · rw [if_pos hm, if_pos (List.mem_cons_of_mem _ hm)]
    · rw [if_neg hm]
      show (if a = p.1 ∧ b = p.2 then v else g0 a b) = _
      by_cases hp : a = p.1 ∧ b = p.2
      · rw [if_pos hp, if_pos (List.mem_cons.2 (Or.inl (Prod.ext_iff.2 ⟨hp.1, hp.2⟩)))]
      · rw [if_neg hp, if_neg ?_]
        intro hmem
        rcases List.mem_cons.1 hmem with he | ht
        · exact hp ⟨by rw [← he], by rw [← he]⟩
        · exact hm ht

theorem generate_tetris_grid_eq (g0 : Int → Int → Option TetrisPiece) (rng : List Nat) :
    generate_tetris_grid g0 rng =
      (posList 3 9).foldl tetrisAssignStep
        (setG (setG ((posList 5 9).foldl
            (fun g p => setG g p.1 p.2 (some TetrisPiece.SQUARE)) g0)
          1 6 (some TetrisPiece.I)) 1 7 (some TetrisPiece.I), rng) := rfl

/-- C9 (amended): after stage 1, the seed grid is horizontally
mirror-symmetric at every position except the two pairs containing the
forced cells: the fixed cells (1,6), (1,7) hold I (the fixed assignment
wins — the random loop skips them), but their mirrors (3,6), (3,7) are
skipped by the mirror write as well and keep the initial SQUARE, so the
full symmetry law of the claim fails exactly there. -/
theorem C9_seed_grid_symmetry (g0 : Int → Int → Option TetrisPiece) (rng : List Nat) :
    (∀ x y : Int, 0 ≤ x → x < 5 → 0 ≤ y → y < 9 →
      ¬((x = 1 ∨ x = 3) ∧ (y = 6 ∨ y = 7)) →
      (generate_tetris_grid g0 rng).1 x y =
        (generate_tetris_grid g0 rng).1 (4 - x) y) ∧
    (generate_tetris_grid g0 rng).1 1 6 = some TetrisPiece.I ∧
    (generate_tetris_grid g0 rng).1 1 7 = some TetrisPiece.I ∧
    (generate_tetris_grid g0 rng).1 3 6 = some TetrisPiece.SQUARE ∧
    (generate_tetris_grid g0 rng).1 3 7 = some TetrisPiece.SQUARE := by
  rw [generate_tetris_grid_eq]
  set gr0 : (Int → Int → Option TetrisPiece) × List Nat :=
    (setG (setG ((posList 5 9).foldl
        (fun g p => setG g p.1 p.2 (some TetrisPiece.SQUARE)) g0)
      1 6 (some TetrisPiece.I)) 1 7 (some TetrisPiece.I), rng) with hgr0
  have hcols : ∀ p ∈ posList 3 9, p.1 = 0 ∨ p.1 = 1 ∨ p.1 = 2 := by
    intro p hp
    have := posList_mem.1 hp
    omega
  constructor
  · intro x y hx0 hx5 hy0 hy9 hexc
    have hmem : ∀ x' : Int, x' = 0 ∨ x' = 1 ∨ x' = 2 →
        ((x', y) : Int × Int) ∈ posList 3 9 := by
      intro x' hx'
      exact posList_mem.2 ⟨by omega, by omega, hy0, hy9⟩
    have hmain : ∀ x' : Int, (x' = 0 ∨ x' = 1) → ¬(x' = 1 ∧ (y = 6 ∨ y = 7)) →
        ((posList 3 9).foldl tetrisAssignStep gr0).1 x' y =
          ((posList 3 9).foldl tetrisAssignStep gr0).1 (4 - x') y :=
      fun x' hx' hexc' => tetrisAssign_fold_mirror (posList 3 9) hcols gr0 x' y hx' hexc'
        (Or.inl (hmem x' (by omega)))
    rcases (by omega : x = 0 ∨ x = 1 ∨ x = 2 ∨ x = 3 ∨ x = 4) with rfl | rfl | rfl | rfl | rfl
    · exact hmain 0 (Or.inl rfl) (by omega)
    · exact hmain 1 (Or.inr rfl) (by omega)
    · norm_num
    · have := hmain 1 (Or.inr rfl) (by omega)
      rw [show (4 : Int) - 1 = 3 from by norm_num] at this
      rw [show (4 : Int) - 3 = 1 from by norm_num]
      exact this.symm
    · have := hmain 0 (Or.inl rfl) (by omega)
      rw [show (4 : Int) - 0 = 4 from by norm_num] at this
      rw [show (4 : Int) - 4 = 0 from by norm_num]
      exact this.symm
  · have hread := tetrisAssign_fold_fixed (posList 3 9) hcols
    refine ⟨?_, ?_, ?_, ?_⟩ <;>
      rw [hread _ _ _ (by norm_num) (by norm_num)] <;>
      simp [setG, setG_foldl_read, posList_mem]

theorem C9_seed_grid_symmetry_witness :
    (generate_tetris_grid (fun _ _ => none) []).1 0 0
        = (generate_tetris_grid (fun _ _ => none) []).1 (4 - 0) 0 ∧
      (generate_tetris_grid (fun _ _ => none) []).1 1 6 = some TetrisPiece.I :=
  ⟨(C9_seed_grid_symmetry (fun _ _ => none) []).1 0 0 (by decide) (by decide)
      (by decide) (by decide) (by decide),
    (C9_seed_grid_symmetry (fun _ _ => none) []).2.1⟩

/-- C9, counterexample: with an arbitrary concrete random stream the
fixed cell (1,6) holds I while its horizontal mirror (3,6) holds
SQUARE, so the claimed symmetry law fails at that pair. -/
theorem C9_counterexample :
    (generate_tetris_grid (fun _ _ => none) []).1 1 6 = some TetrisPiece.I ∧
    (generate_tetris_grid (fun _ _ => none) []).1 3 6 = some TetrisPiece.SQUARE ∧
    ¬((generate_tetris_grid (fun _ _ => none) []).1 1 6
        = (generate_tetris_grid (fun _ _ => none) []).1 3 6) := by
  refine ⟨?_, ?_, ?_⟩ <;> decide

/-! ### C10: wrap disabled and border walls kept through the pipeline -/

theorem rwbDirs_nowrap {w h : Nat} {x1 y1 x2 y2 : Int} {d1 d2 : Direction}
    (hd : rwbDirs w h false x1 y1 x2 y2 = some (d1, d2)) :
    x2 - x1 = d1.value.1 ∧ y2 - y1 = d1.value.2 ∧ d2 = d1.opposite := by
  unfold rwbDirs at hd
  cases hfv : Direction.from_vector (x2 - x1) (y2 - y1) with
  | some d =>
    rw [hfv] at hd
    simp only [Option.some.injEq, Prod.mk.injEq] at hd
    obtain ⟨h1, h2⟩ := hd
    subst h1
    obtain ⟨hx, hy⟩ := Direction.from_vector_inv hfv
    exact ⟨hx, hy, h2.symm⟩
  | none =>
    rw [hfv] at hd
    simp at hd

/-- A wall removal between two in-grid cells keeps all border walls when
wrap is off (the cleared bits always face an in-grid neighbor). -/
theorem BorderOK.rwb {m : Maze} {x1 y1 x2 y2 : Int} (hb : BorderOK m)
    (hwrap : m.wrap = false) (h1 : m.inBounds x1 y1 = true)
    (h2 : m.inBounds x2 y2 = true) :
    BorderOK (m.remove_wall_between x1 y1 x2 y2) := by
  rw [Maze.remove_wall_between_eq]
  rcases hrd : rwbDirs m.width m.height m.wrap x1 y1 x2 y2 with _ | ⟨d1, d2⟩
  · exact hb
  · rw [hwrap] at hrd
    obtain ⟨hdx, hdy, hd2⟩ := rwbDirs_nowrap hrd
    subst hd2
    intro a b e hab hnb
    have hps : ((m.removeWallAt x1 y1 d1).removeWallAt x2 y2 d1.opposite).params
        = m.params := rfl
    rw [Maze.inBounds_congr hps] at hab hnb
    rw [Maze.wallB_removeWallAt, Maze.wallB_removeWallAt]
    have hbw := hb a b e hab hnb
    have hov := Direction.opposite_value d1
    have hA1 : (decide (a = x1) && decide (b = y1) && decide (e = d1)) = false := by
      by_cases hc : a = x1 ∧ b = y1 ∧ e = d1
      · exfalso
        have hin : m.inBounds (a + e.value.1) (b + e.value.2) = true := by
          rw [hc.1, hc.2.1, hc.2.2]
          rw [show x1 + d1.value.1 = x2 from by omega,
            show y1 + d1.value.2 = y2 from by omega]
          exact h2
        rw [hin] at hnb
        exact absurd hnb (by simp)
      · by_cases p1 : a = x1 <;> by_cases p2 : b = y1 <;> by_cases p3 : e = d1 <;>
          simp [p1, p2, p3] <;> exact absurd ⟨p1, p2, p3⟩ hc
    have hA2 : (decide (a = x2) && decide (b = y2) && decide (e = d1.opposite))
        = false := by
      by_cases hc : a = x2 ∧ b = y2 ∧ e = d1.opposite
      · exfalso
        have hin : m.inBounds (a + e.value.1) (b + e.value.2) = true := by
          rw [hc.1, hc.2.1, hc.2.2]
          rw [show x2 + d1.opposite.value.1 = x1 from by rw [hov.1]; omega,
            show y2 + d1.opposite.value.2 = y1 from by rw [hov.2]; omega]
          exact h1
        rw [hin] at hnb
        exact absurd hnb (by simp)
      · by_cases p1 : a = x2 <;> by_cases p2 : b = y2 <;> by_cases p3 : e = d1.opposite <;>
          simp [p1, p2, p3] <;> exact absurd ⟨p1, p2, p3⟩ hc
    rw [hbw, hA1, hA2]
    rfl

theorem convertResetWalls_border (m0 : Maze) : BorderOK (convertResetWalls m0) :=
  fun x y d hxy _ => convertResetWalls_wallB d hxy

theorem convertOpenStep_border {m0 : Maze} (tile : Int → Int → Nat) (p : Int × Int)
    {mm : Maze} (hbd : BorderOK mm) (hp : mm.params = m0.params)
    (hw : m0.wrap = false) (hb : mm.inBounds p.1 p.2 = true) :
    BorderOK (convertOpenStep tile p mm) ∧
      (convertOpenStep tile p mm).params = m0.params := by
  unfold convertOpenStep
  have hgen : ∀ (ds : List Direction) (acc : Maze), BorderOK acc →
      acc.params = m0.params →
      BorderOK (ds.foldl (fun acc d =>
        let nx := p.1 + d.value.1
        let ny := p.2 + d.value.2
        if 0 ≤ nx ∧ nx < (acc.width : Int) ∧ 0 ≤ ny ∧ ny < (acc.height : Int) then
          match acc.get_cell nx ny with
          | some (ax, ay) =>
            if tile nx ny == 0 then acc.remove_wall_between p.1 p.2 ax ay else acc
          | none => acc
        else acc) acc) ∧
      (ds.foldl (fun acc d =>
        let nx := p.1 + d.value.1
        let ny := p.2 + d.value.2
        if 0 ≤ nx ∧ nx < (acc.width : Int) ∧ 0 ≤ ny ∧ ny < (acc.height : Int) then
          match acc.get_cell nx ny with
          | some (ax, ay) =>
            if tile nx ny == 0 then acc.remove_wall_between p.1 p.2 ax ay else acc
          | none => acc
        else acc) acc).params = m0.params := by
    intro ds
    induction ds with
    | nil => intro acc hba hpa; exact ⟨hba, hpa⟩
    | cons d dt ihd =>
      intro acc hba hpa
      rw [List.foldl_cons]
      have hone : BorderOK (
          let nx := p.1 + d.value.1
          let ny := p.2 + d.value.2
          if 0 ≤ nx ∧ nx < (acc.width : Int) ∧ 0 ≤ ny ∧ ny < (acc.height : Int) then
            match acc.get_cell nx ny with
            | some (ax, ay) =>
              if tile nx ny == 0 then acc.remove_wall_between p.1 p.2 ax ay else acc
            | none => acc
          else acc) ∧
          (let nx := p.1 + d.value.1
           let ny := p.2 + d.value.2
           if 0 ≤ nx ∧ nx < (acc.width : Int) ∧ 0 ≤ ny ∧ ny < (acc.height : Int) then
            match acc.get_cell nx ny with
            | some (ax, ay) =>
              if tile nx ny == 0 then acc.remove_wall_between p.1 p.2 ax ay else acc
            | none => acc
           else acc).params = m0.params := by
        dsimp only
        by_cases hbnd : 0 ≤ p.1 + d.value.1 ∧ p.1 + d.value.1 < (acc.width : Int) ∧
            0 ≤ p.2 + d.value.2 ∧ p.2 + d.value.2 < (acc.height : Int)
        · rw [if_pos hbnd]
          rcases hgc : acc.get_cell (p.1 + d.value.1) (p.2 + d.value.2)
              with _ | ⟨ax, ay⟩
          · exact ⟨hba, hpa⟩
          · dsimp only
            by_cases ht : (tile (p.1 + d.value.1) (p.2 + d.value.2) == 0) = true
            · rw [if_pos ht]
              have hwa : acc.wrap = false := by
                rw [Maze.wrap_of_params hpa]
                exact hw
              have hax : acc.inBounds ax ay = true := by
                unfold Maze.get_cell at hgc
                rw [hwa] at hgc
                simp only [Bool.false_eq_true, if_false] at hgc
                split_ifs at hgc with hc1
                simp only [Option.some.injEq, Prod.mk.injEq] at hgc
                exact Maze.inBounds_iff.2
                  ⟨by omega, by omega, by omega, by omega⟩
              refine ⟨hba.rwb hwa ?_ hax,
                by rw [Maze.params_remove_wall_between, hpa]⟩
              rw [Maze.inBounds_congr hpa, ← Maze.inBounds_congr hp]
              exact hb
            · rw [if_neg ht]
              exact ⟨hba, hpa⟩
        · rw [if_neg hbnd]
          exact ⟨hba, hpa⟩
      exact ihd _ hone.1 hone.2
  exact hgen Direction.allDirs mm hbd hp

/-- The bridge stage keeps dimensions, wrap and symmetry. -/
theorem convertToMazeStructure_params (m0 : Maze) (tile : Int → Int → Nat) :
    (convertToMazeStructure m0 tile).params = m0.params := by
  unfold convertToMazeStructure
  have hp1 := convertResetWalls_params m0
  have main2 : ∀ (l : List (Int × Int)) (mm : Maze), mm.params = m0.params →
      (l.foldl (fun acc p =>
        if tile p.1 p.2 == 0 then convertOpenStep tile p acc else acc) mm).params
        = m0.params := by
    intro l
    induction l with
    | nil => intro mm hp; exact hp
    | cons p t ih =>
      intro mm hp
      rw [List.foldl_cons]
      by_cases ht : tile p.1 p.2 == 0
      · rw [if_pos ht]
        refine ih _ ?_
        -- parameter preservation of one open step, by the direction fold
        have := foldl_preserve (fun m2 => m2.params = m0.params)
          (fun acc d =>
            let nx := p.1 + d.value.1
            let ny := p.2 + d.value.2
            if 0 ≤ nx ∧ nx < (acc.width : Int) ∧ 0 ≤ ny ∧ ny < (acc.height : Int) then
              match acc.get_cell nx ny with
              | some (ax, ay) =>
                if tile nx ny == 0 then acc.remove_wall_between p.1 p.2 ax ay else acc
              | none => acc
            else acc) ?_ Direction.allDirs mm hp
        · exact this
        · intro m' d hm'
          dsimp only
          by_cases hbnd : 0 ≤ p.1 + d.value.1 ∧ p.1 + d.value.1 < (m'.width : Int) ∧
              0 ≤ p.2 + d.value.2 ∧ p.2 + d.value.2 < (m'.height : Int)
          · rw [if_pos hbnd]
            rcases hgc : m'.get_cell (p.1 + d.value.1) (p.2 + d.value.2)
                with _ | ⟨ax, ay⟩
            · exact hm'
            · dsimp only
              split_ifs
              · rw [Maze.params_remove_wall_between]
                exact hm'
              · exact hm'
          · rw [if_neg hbnd]
            exact hm'
      · rw [if_neg ht]
        exact ih _ hp
  have hp2 := main2 (posList (convertResetWalls m0).width (convertResetWalls m0).height)
    (convertResetWalls m0) hp1
  dsimp only
  split_ifs with hwr
  · refine (foldl_preserve (fun m2 => m2.params = m0.params) _ ?_ _ _ hp2)
    intro m' (y : Int) hm'
    exact (wrapStitchStep_params _ _ y m').trans hm'
  · exact hp2

theorem convertToMazeStructure_border {m0 : Maze} (tile : Int → Int → Nat)
    (hw : m0.wrap = false) : BorderOK (convertToMazeStructure m0 tile) := by
  unfold convertToMazeStructure
  have hp1 := convertResetWalls_params m0
  have hb1 := convertResetWalls_border m0
  have main2 : ∀ l : List (Int × Int),
      (∀ p ∈ l, p ∈ posList (convertResetWalls m0).width (convertResetWalls m0).height) →
      ∀ mm : Maze, BorderOK mm → mm.params = m0.params →
      BorderOK (l.foldl (fun acc p =>
        if tile p.1 p.2 == 0 then convertOpenStep tile p acc else acc) mm) ∧
      (l.foldl (fun acc p =>
        if tile p.1 p.2 == 0 then convertOpenStep tile p acc else acc) mm).params
        = m0.params := by
    intro l
    induction l with
    | nil => intro _ mm hbm hp; exact ⟨hbm, hp⟩
    | cons p t ih =>
      intro hsub mm hbm hp
      rw [List.foldl_cons]
      have hpin : mm.inBounds p.1 p.2 = true := by
        rw [Maze.inBounds_congr hp, ← Maze.inBounds_congr hp1]
        exact Maze.inBounds_iff.2 (posList_mem.1 (hsub p (List.mem_cons_self _ _)))
      by_cases ht : tile p.1 p.2 == 0
      · rw [if_pos ht]
        have hs := convertOpenStep_border tile p hbm hp hw hpin
        exact ih (fun q hq => hsub q (List.mem_cons_of_mem _ hq)) _ hs.1 hs.2
      · rw [if_neg ht]
        exact ih (fun q hq => hsub q (List.mem_cons_of_mem _ hq)) _ hbm hp
  have hmain := main2 _ (fun p hp => hp) (convertResetWalls m0) hb1 hp1
  dsimp only
  split_ifs with hwr
  · exfalso
    have := Maze.wrap_of_params hmain.2
    rw [hw] at this
    rw [this] at hwr
    exact absurd hwr (by simp)
  · exact hmain.1

theorem BorderOK.analyze {m : Maze} (hb : BorderOK m) : BorderOK m.analyze_cells := by
  intro x y d hxy hnb
  have hps := Maze.params_analyze_cells m
  rw [Maze.inBounds_congr hps] at hxy hnb
  rw [Maze.wallB_analyze_cells]
  exact hb x y d hxy hnb

theorem tetrisGenerate_params (rng : List Nat) :
    (tetrisGenerate rng).maze.params = tetrisInit.maze.params := by
  obtain ⟨tile, heq⟩ := TetrisState.generate_maze tetrisInit rng
  rw [tetrisGenerate, heq, Maze.params_analyze_cells, convertToMazeStructure_params]

/-- C10: the piece pipeline always runs on a wrap-disabled grid, the
resulting grid is wrap-disabled, and every border cell of the result
keeps its outward-facing wall (all wall removals of the bridge stage act
on in-grid orthogonal neighbor pairs, and the wrap-stitch branch is
unreachable), so the stage-4 tunnel tiles never become open wrap
edges. -/
theorem C10_wrap_disabled_borders :
    tetrisInit.maze.wrap = false ∧
    (∀ rng : List Nat, (tetrisGenerate rng).maze.wrap = false) ∧
    (∀ (rng : List Nat) (x y : Int) (d : Direction),
      (tetrisGenerate rng).maze.inBounds x y = true →
      (tetrisGenerate rng).maze.inBounds (x + d.value.1) (y + d.value.2) = false →
      (tetrisGenerate rng).maze.wallB x y d = true) := by
  refine ⟨rfl, ?_, ?_⟩
  · intro rng
    rw [Maze.wrap_of_params (tetrisGenerate_params rng)]
    rfl
  · intro rng
    obtain ⟨tile, heq⟩ := TetrisState.generate_maze tetrisInit rng
    rw [tetrisGenerate, heq]
    exact (convertToMazeStructure_border tile rfl).analyze

theorem C10_wrap_disabled_borders_witness :
    (tetrisGenerate []).maze.wallB 0 0 Direction.up = true := by
  have hp := tetrisGenerate_params ([] : List Nat)
  refine C10_wrap_disabled_borders.2.2 [] 0 0 Direction.up ?_ ?_
  · rw [Maze.inBounds_congr hp]
    decide
  · rw [Maze.inBounds_congr hp]
    decide

/-! ### C6: the generation engine reads nothing but parameters, walls
and visited flags -/

theorem MEq.get_neighbor {m1 m2 : Maze} (h : MEq m1 m2) (x y : Int) (d : Direction) :
    m1.get_neighbor x y d = m2.get_neighbor x y d :=
  Maze.get_cell_congr h.1 _ _

theorem MEq.has_wall {m1 m2 : Maze} (h : MEq m1 m2) {x y : Int}
    (hxy : m1.inBounds x y = true) (e : Direction) :
    (m1.cells x y).has_wall e = (m2.cells x y).has_wall e := by
  have hc := h.2 x y hxy
  cases e <;> simp [Cell.has_wall, hc.1, hc.2.1, hc.2.2.1, hc.2.2.2.1]

theorem MEq.exit_count {m1 m2 : Maze} (h : MEq m1 m2) {x y : Int}
    (hxy : m1.inBounds x y = true) :
    (m1.cells x y).exit_count = (m2.cells x y).exit_count := by
  have hc := h.2 x y hxy
  unfold Cell.exit_count Cell.wall_count
  rw [hc.1, hc.2.1, hc.2.2.1, hc.2.2.2.1]

theorem MEq.unvisitedNeighbors {m1 m2 : Maze} (h : MEq m1 m2)
    (hw : 0 < m1.width) (hh : 0 < m1.height) (x y : Int) :
    m1.unvisitedNeighbors x y = m2.unvisitedNeighbors x y := by
  unfold Maze.unvisitedNeighbors
  congr 1
  funext d
  rw [← h.get_neighbor x y d]
  rcases hg : m1.get_neighbor x y d with _ | ⟨nx, ny⟩
  · rfl
  · have hin : m1.inBounds nx ny = true := Maze.get_cell_inBounds hw hh hg
    have hc := h.2 nx ny hin
    dsimp only
    rw [hc.2.2.2.2]

theorem MEq.removeWallAt {m1 m2 : Maze} (h : MEq m1 m2) (x y : Int) (d : Direction) :
    MEq (m1.removeWallAt x y d) (m2.removeWallAt x y d) := by
  refine ⟨h.1, ?_⟩
  intro a b hab
  have hab1 : m1.inBounds a b = true := hab
  have hc := h.2 a b hab1
  rw [show (m1.removeWallAt x y d).cells a b =
      if a = x ∧ b = y then (m1.cells a b).remove_wall d else m1.cells a b from rfl,
    show (m2.removeWallAt x y d).cells a b =
      if a = x ∧ b = y then (m2.cells a b).remove_wall d else m2.cells a b from rfl]
  split_ifs with hq
  · cases d <;>
      simp [Cell.remove_wall, hc.1, hc.2.1, hc.2.2.1, hc.2.2.2.1, hc.2.2.2.2]
  · exact hc

theorem MEq.remove_wall_between {m1 m2 : Maze} (h : MEq m1 m2) (x1 y1 x2 y2 : Int) :
    MEq (m1.remove_wall_between x1 y1 x2 y2) (m2.remove_wall_between x1 y1 x2 y2) := by
  rw [Maze.remove_wall_between_eq, Maze.remove_wall_between_eq]
  rw [show rwbDirs m2.width m2.height m2.wrap x1 y1 x2 y2
      = rwbDirs m1.width m1.height m1.wrap x1 y1 x2 y2 from by
    rw [Maze.width_of_params h.1, Maze.height_of_params h.1, Maze.wrap_of_params h.1]]
  rcases rwbDirs m1.width m1.height m1.wrap x1 y1 x2 y2 with _ | ⟨d1, d2⟩
  · exact h
  · exact (h.removeWallAt x1 y1 d1).removeWallAt x2 y2 d2

theorem MEq.setVisited_bisim {m1 m2 : Maze} (h : MEq m1 m2) (x y : Int) :
    MEq (m1.setVisited x y) (m2.setVisited x y) := by
  refine ⟨h.1, ?_⟩
  intro a b hab
  have hab1 : m1.inBounds a b = true := hab
  have hc := h.2 a b hab1
  rw [show (m1.setVisited x y).cells a b =
      if a = x ∧ b = y then { m1.cells a b with visited := true } else m1.cells a b
      from rfl,
    show (m2.setVisited x y).cells a b =
      if a = x ∧ b = y then { m2.cells a b with visited := true } else m2.cells a b
      from rfl]
  split_ifs with hq
  · exact ⟨hc.1, hc.2.1, hc.2.2.1, hc.2.2.2.1, rfl⟩
  · exact hc

theorem MEq.applySym_bisim {m1 m2 : Maze} (h : MEq m1 m2)
    (cx cy : Int) (d : Direction) :
    MEq (m1.apply_symmetric_wall_removal cx cy d)
      (m2.apply_symmetric_wall_removal cx cy d) := by
  rw [Maze.apply_symmetric_wall_removal_eq, Maze.apply_symmetric_wall_removal_eq]
  rw [show symClears m2.width m2.height m2.wrap m2.symmetry cx cy d
      = symClears m1.width m1.height m1.wrap m1.symmetry cx cy d from by
    rw [Maze.width_of_params h.1, Maze.height_of_params h.1, Maze.wrap_of_params h.1,
      Maze.symmetry_of_params h.1]]
  set L := symClears m1.width m1.height m1.wrap m1.symmetry cx cy d with hL
  refine ⟨by rw [Maze.params_applyClears, Maze.params_applyClears, h.1], ?_⟩
  intro a b hab
  rw [Maze.inBounds_congr (Maze.params_applyClears m1 L)] at hab
  have hc := h.2 a b hab
  rw [Maze.cells_applyClears, Maze.cells_applyClears]
  have hwall : ∀ e : Direction,
      (cellClears L a b (m1.cells a b)).has_wall e =
        (cellClears L a b (m2.cells a b)).has_wall e := by
    intro e
    rw [has_wall_cellClears, has_wall_cellClears, h.has_wall hab]
  refine ⟨hwall .up, hwall .down, hwall .left, hwall .right, ?_⟩
  rw [cellClears_visited, cellClears_visited, hc.2.2.2.2]

theorem MEq_resetForGenerate {m1 m2 : Maze} (hp : m1.params = m2.params) :
    MEq m1.resetForGenerate m2.resetForGenerate := by
  have hps1 : m1.resetForGenerate.params = m1.params := by
    unfold Maze.resetForGenerate
    exact foldl_preserve (fun mm => mm.params = m1.params) _
      (fun m' (a : Int × Int) h => (Maze.params_modifyCell m' a.1 a.2 _).trans h) _ m1 rfl
  have hps2 : m2.resetForGenerate.params = m2.params := by
    unfold Maze.resetForGenerate
    exact foldl_preserve (fun mm => mm.params = m2.params) _
      (fun m' (a : Int × Int) h => (Maze.params_modifyCell m' a.1 a.2 _).trans h) _ m2 rfl
  refine ⟨by rw [hps1, hps2, hp], ?_⟩
  intro a b hab
  rw [Maze.inBounds_congr hps1] at hab
  have hq := Maze.inBounds_iff.1 hab
  have hmem : (a, b) ∈ posList m1.width m1.height :=
    posList_mem.2 ⟨hq.1, hq.2.1, hq.2.2.1, hq.2.2.2⟩
  have hmem2 : (a, b) ∈ posList m2.width m2.height := by
    rw [← Maze.width_of_params hp, ← Maze.height_of_params hp]
    exact hmem
  unfold Maze.resetForGenerate
  rw [Maze.cells_foldl_modify _ _ (posList_nodup _ _),
    Maze.cells_foldl_modify _ _ (posList_nodup _ _),
    if_pos hmem, if_pos hmem2]
  exact ⟨rfl, rfl, rfl, rfl, rfl⟩

theorem Maze.params_dfsStep (m : Maze) (x y a b : Int) (d : Direction) :
    ((m.apply_symmetric_wall_removal x y d).setVisited a b).params = m.params := by
  rw [Maze.params_setVisited, Maze.params_apply_symmetric_wall_removal]

/-- The DFS loop run from equivalent states yields equal random-stream
consumption, equal termination behavior and equivalent mazes. -/
theorem Maze.dfsLoop_bisim :
    ∀ (fuel : Nat) (m1 m2 : Maze) (st : List (Int × Int)) (rng : List Nat),
      MEq m1 m2 → 0 < m1.width → 0 < m1.height →
      (Maze.dfsLoop fuel m1 st rng = none ∧ Maze.dfsLoop fuel m2 st rng = none) ∨
      (∃ r1 r2 rng', Maze.dfsLoop fuel m1 st rng = some (r1, rng') ∧
        Maze.dfsLoop fuel m2 st rng = some (r2, rng') ∧ MEq r1 r2) := by
  intro fuel
  induction fuel with
  | zero =>
    intro m1 m2 st rng _ _ _
    left
    exact ⟨rfl, rfl⟩
  | succ fuel ih =>
    intro m1 m2 st rng h hw hh
    match st with
    | [] =>
      right
      exact ⟨m1, m2, rng, rfl, rfl, h⟩
    | (x, y) :: rest =>
      rw [Maze.dfsLoop_succ_cons, Maze.dfsLoop_succ_cons]
      rw [← h.unvisitedNeighbors hw hh x y]
      by_cases hns : (m1.unvisitedNeighbors x y).isEmpty
      · rw [if_pos hns, if_pos hns]
        exact ih m1 m2 rest rng h hw hh
      · rw [if_neg hns, if_neg hns]
        set pk := drawChoice rng (m1.unvisitedNeighbors x y) (((0, 0) : Int × Int), .up)
          with hpk
        have h' := (h.applySym_bisim x y pk.1.2).setVisited_bisim
          pk.1.1.1 pk.1.1.2
        have hps := Maze.params_dfsStep m1 x y pk.1.1.1 pk.1.1.2 pk.1.2
        exact ih _ _ _ _ h' (by rw [Maze.width_of_params hps]; exact hw)
          (by rw [Maze.height_of_params hps]; exact hh)

theorem MEq.reconcileAt {m1 m2 : Maze} (h : MEq m1 m2) (hw : 0 < m1.width)
    (hh : 0 < m1.height) (p : Int × Int) (hp : m1.inBounds p.1 p.2 = true) :
    MEq (m1.reconcileAt p) (m2.reconcileAt p) := by
  unfold Maze.reconcileAt
  dsimp only
  rw [show (m2.cells p.1 p.2).visited = (m1.cells p.1 p.2).visited from
    ((h.2 p.1 p.2 hp).2.2.2.2).symm]
  by_cases hv : (m1.cells p.1 p.2).visited = true
  · rw [if_pos hv, if_pos hv]
    exact h
  · rw [if_neg hv, if_neg hv]
    have hbase : m2.reconcileBase p.1 p.2 = m1.reconcileBase p.1 p.2 := by
      unfold Maze.reconcileBase
      rw [← Maze.symmetry_of_params h.1, ← Maze.width_of_params h.1,
        ← Maze.height_of_params h.1]
      rcases m1.symmetry with _ | _ | _ | _ | _
      · rfl
      · exact Maze.get_cell_congr h.1.symm _ _
      · exact Maze.get_cell_congr h.1.symm _ _
      · exact Maze.get_cell_congr h.1.symm _ _
      · exact Maze.get_cell_congr h.1.symm _ _
    rw [hbase]
    rcases hb : m1.reconcileBase p.1 p.2 with _ | ⟨bx, by2⟩
    · exact h
    · dsimp only
      have hbin : m1.inBounds bx by2 = true := by
        unfold Maze.reconcileBase at hb
        split at hb
        · exact Maze.get_cell_inBounds hw hh hb
        · exact Maze.get_cell_inBounds hw hh hb
        · exact Maze.get_cell_inBounds hw hh hb
        · exact Maze.get_cell_inBounds hw hh hb
        · simp at hb
      have hbc := h.2 bx by2 hbin
      rw [show (m2.cells bx by2).visited = (m1.cells bx by2).visited from
        hbc.2.2.2.2.symm]
      by_cases hbv : (m1.cells bx by2).visited = true
      · rw [if_pos hbv, if_pos hbv]
        refine ⟨h.1, ?_⟩
        intro a b hab
        have hab1 : m1.inBounds a b = true := hab
        have hcab := h.2 a b hab1
        rw [Maze.cells_modifyCell, Maze.cells_modifyCell]
        split_ifs with hq
        · exact ⟨hbc.1, hbc.2.1, hbc.2.2.1, hbc.2.2.2.1, rfl⟩
        · exact hcab
      · rw [if_neg hbv, if_neg hbv]
        exact h

theorem MEq.reconcileSymmetry {m1 m2 : Maze} (h : MEq m1 m2) (hw : 0 < m1.width)
    (hh : 0 < m1.height) : MEq m1.reconcileSymmetry m2.reconcileSymmetry := by
  unfold Maze.reconcileSymmetry
  rw [← Maze.symmetry_of_params h.1, ← Maze.width_of_params h.1,
    ← Maze.height_of_params h.1]
  split_ifs with hs
  · exact h
  · have main : ∀ l : List (Int × Int), (∀ p ∈ l, p ∈ posList m1.width m1.height) →
        ∀ mm1 mm2 : Maze, MEq mm1 mm2 → mm1.params = m1.params →
        MEq (l.foldl (fun acc p => acc.reconcileAt p) mm1)
          (l.foldl (fun acc p => acc.reconcileAt p) mm2) := by
      intro l
      induction l with
      | nil => intro _ mm1 mm2 hm _; exact hm
      | cons p t ih =>
        intro hsub mm1 mm2 hm hpm
        rw [List.foldl_cons, List.foldl_cons]
        refine ih (fun q hq => hsub q (List.mem_cons_of_mem _ hq)) _ _ ?_ ?_
        · refine hm.reconcileAt ?_ ?_ p ?_
          · rw [Maze.width_of_params hpm]
            exact hw
          · rw [Maze.height_of_params hpm]
            exact hh
          · rw [Maze.inBounds_congr hpm]
            exact Maze.inBounds_iff.2 (posList_mem.1 (hsub p (List.mem_cons_self _ _)))
        · rw [Maze.params_reconcileAt]
          exact hpm
    exact main _ (fun p hp => hp) m1 m2 h rfl

theorem MEq.rdeCellStep_bisim {m1 m2 : Maze} (h : MEq m1 m2) (hw : 0 < m1.width)
    (hh : 0 < m1.height) {x y : Int} (hxy : m1.inBounds x y = true) :
    MEq (m1.rdeCellStep x y).1 (m2.rdeCellStep x y).1 ∧
      (m1.rdeCellStep x y).2 = (m2.rdeCellStep x y).2 := by
  unfold Maze.rdeCellStep
  dsimp only
  rw [show (m2.cells x y).exit_count = (m1.cells x y).exit_count from
    (h.exit_count hxy).symm]
  by_cases h1 : ((m1.cells x y).exit_count == 1) = true
  · rw [if_pos h1, if_pos h1]
    rw [show (fun d => !(m2.cells x y).has_wall d) = (fun d => !(m1.cells x y).has_wall d)
      from funext fun d => by rw [h.has_wall hxy]]
    rcases Direction.allDirs.find? (fun d => !(m1.cells x y).has_wall d) with _ | exitDir
    · exact ⟨h, rfl⟩
    · dsimp only
      rw [show m2.rdeNbrOk x y exitDir = m1.rdeNbrOk x y exitDir from funext fun d => by
        unfold Maze.rdeNbrOk
        rw [← h.has_wall hxy d, ← h.get_neighbor x y d]
        rcases hg : m1.get_neighbor x y d with _ | ⟨nx, ny⟩
        · rfl
        · have hin := Maze.get_cell_inBounds hw hh hg
          dsimp only
          rw [← h.exit_count hin]]
      rcases Direction.allDirs.find? (m1.rdeNbrOk x y exitDir) with _ | d
      · exact ⟨h, rfl⟩
      · dsimp only
        rw [← h.get_neighbor x y d]
        rcases m1.get_neighbor x y d with _ | ⟨nx, ny⟩
        · exact ⟨h, rfl⟩
        · exact ⟨h.remove_wall_between x y nx ny, rfl⟩
  · rw [if_neg h1, if_neg h1]
    exact ⟨h, rfl⟩

theorem MEq.rdeSweep_bisim {m1 m2 : Maze} (h : MEq m1 m2) (hw : 0 < m1.width)
    (hh : 0 < m1.height) :
    MEq (m1.rdeSweep).1 (m2.rdeSweep).1 ∧ (m1.rdeSweep).2 = (m2.rdeSweep).2 := by
  unfold Maze.rdeSweep
  rw [← Maze.width_of_params h.1, ← Maze.height_of_params h.1]
  have main : ∀ l : List (Int × Int), (∀ p ∈ l, p ∈ posList m1.width m1.height) →
      ∀ a1 a2 : Maze × Bool, MEq a1.1 a2.1 → a1.2 = a2.2 → a1.1.params = m1.params →
      MEq ((l.foldl (fun acc p =>
          let (mz, ch) := acc.1.rdeCellStep p.1 p.2
          (mz, acc.2 || ch)) a1).1)
        ((l.foldl (fun acc p =>
          let (mz, ch) := acc.1.rdeCellStep p.1 p.2
          (mz, acc.2 || ch)) a2).1) ∧
      (l.foldl (fun acc p =>
          let (mz, ch) := acc.1.rdeCellStep p.1 p.2
          (mz, acc.2 || ch)) a1).2 =
        (l.foldl (fun acc p =>
          let (mz, ch) := acc.1.rdeCellStep p.1 p.2
          (mz, acc.2 || ch)) a2).2 := by
    intro l
    induction l with
    | nil => intro _ a1 a2 hm hf _; exact ⟨hm, hf⟩
    | cons p t ih =>
      intro hsub a1 a2 hm hf hpm
      rw [List.foldl_cons, List.foldl_cons]
      rcases hst1 : a1.1.rdeCellStep p.1 p.2 with ⟨n1, c1⟩
      rcases hst2 : a2.1.rdeCellStep p.1 p.2 with ⟨n2, c2⟩
      have hstep := hm.rdeCellStep_bisim (x := p.1) (y := p.2)
        (by rw [Maze.width_of_params hpm]; exact hw)
        (by rw [Maze.height_of_params hpm]; exact hh)
        (by
          rw [Maze.inBounds_congr hpm]
          exact Maze.inBounds_iff.2 (posList_mem.1 (hsub p (List.mem_cons_self _ _))))
      rw [hst1, hst2] at hstep
      dsimp only at hstep
      have hred1 : (match ((n1 : Maze), (c1 : Bool)) with
          | (mz, ch) => (mz, a1.2 || ch)) = ((n1 : Maze), a1.2 || c1) := rfl
      have hred2 : (match ((n2 : Maze), (c2 : Bool)) with
          | (mz, ch) => (mz, a2.2 || ch)) = ((n2 : Maze), a2.2 || c2) := rfl
      rw [hred1, hred2]
      refine ih (fun q hq => hsub q (List.mem_cons_of_mem _ hq))
        ((n1 : Maze), a1.2 || c1) ((n2 : Maze), a2.2 || c2) hstep.1 ?_ ?_
      · rw [hf, hstep.2]
      · show n1.params = m1.params
        have := Maze.params_rdeCellStep a1.1 p.1 p.2
        rw [hst1] at this
        exact this.trans hpm
  exact main _ (fun p hp => hp) (m1, false) (m2, false) h rfl rfl

theorem MEq.rdeLoop_bisim :
    ∀ (fuel : Nat) (m1 m2 : Maze), MEq m1 m2 → 0 < m1.width → 0 < m1.height →
      (Maze.rdeLoop fuel m1 = none ∧ Maze.rdeLoop fuel m2 = none) ∨
      (∃ r1 r2, Maze.rdeLoop fuel m1 = some r1 ∧ Maze.rdeLoop fuel m2 = some r2 ∧
        MEq r1 r2) := by
  intro fuel
  induction fuel with
  | zero =>
    intro m1 m2 _ _ _
    left
    exact ⟨rfl, rfl⟩
  | succ fuel ih =>
    intro m1 m2 h hw hh
    unfold Maze.rdeLoop
    rcases hsw1 : m1.rdeSweep with ⟨n1, c1⟩
    rcases hsw2 : m2.rdeSweep with ⟨n2, c2⟩
    have hstep := h.rdeSweep_bisim hw hh
    rw [hsw1, hsw2] at hstep
    dsimp only at hstep
    obtain ⟨hmn, hcc⟩ := hstep
    subst hcc
    have hpn : n1.params = m1.params := by
      have := Maze.params_rdeSweep m1
      rw [hsw1] at this
      exact this
    cases c1 with
    | false =>
      right
      exact ⟨n1, n2, rfl, rfl, hmn⟩
    | true =>
      exact ih n1 n2 hmn (by rw [Maze.width_of_params hpn]; exact hw)
        (by rw [Maze.height_of_params hpn]; exact hh)

theorem MEq.remove_dead_ends_bisim {m1 m2 : Maze} (h : MEq m1 m2) (hw : 0 < m1.width)
    (hh : 0 < m1.height) :
    (m1.remove_dead_ends = none ∧ m2.remove_dead_ends = none) ∨
    (∃ r1 r2, m1.remove_dead_ends = some r1 ∧ m2.remove_dead_ends = some r2 ∧
      MEq r1 r2) := by
  unfold Maze.remove_dead_ends
  rw [← Maze.width_of_params h.1, ← Maze.height_of_params h.1]
  exact MEq.rdeLoop_bisim _ _ _ h hw hh

theorem MEq.analyze_cells_bisim {m1 m2 : Maze} (h : MEq m1 m2) :
    MEq m1.analyze_cells m2.analyze_cells := by
  refine ⟨by rw [Maze.params_analyze_cells, Maze.params_analyze_cells, h.1], ?_⟩
  intro a b hab
  rw [Maze.inBounds_congr (Maze.params_analyze_cells m1)] at hab
  have hc := h.2 a b hab
  have hq := Maze.inBounds_iff.1 hab
  have hmem : (a, b) ∈ posList m1.width m1.height :=
    posList_mem.2 ⟨hq.1, hq.2.1, hq.2.2.1, hq.2.2.2⟩
  have hmem2 : (a, b) ∈ posList m2.width m2.height := by
    rw [← Maze.width_of_params h.1, ← Maze.height_of_params h.1]
    exact hmem
  rw [Maze.cells_analyze_cells, Maze.cells_analyze_cells, if_pos hmem, if_pos hmem2]
  exact ⟨hc.1, hc.2.1, hc.2.2.1, hc.2.2.2.1, hc.2.2.2.2⟩

theorem MEq.wallsEq {r1 r2 : Maze} (h : MEq r1 r2) : wallsEqB r1 r2 = true := by
  unfold wallsEqB
  rw [List.all_eq_true]
  intro p hp
  rw [List.all_eq_true]
  intro d _
  have hin : r1.inBounds p.1 p.2 = true := Maze.inBounds_iff.2 (posList_mem.1 hp)
  have := h.has_wall hin d
  unfold Maze.wallB
  rw [this]
  simp

theorem Maze.generateCarve_bisim {m1 m2 : Maze} (hp : m1.params = m2.params)
    (hw : 0 < m1.width) (hh : 0 < m1.height) (sx sy : Int) (rng : List Nat) :
    (m1.generateCarve sx sy rng = none ∧ m2.generateCarve sx sy rng = none) ∨
    (∃ r1 r2 rng', m1.generateCarve sx sy rng = some (r1, rng') ∧
      m2.generateCarve sx sy rng = some (r2, rng') ∧ MEq r1 r2) := by
  unfold Maze.generateCarve
  dsimp only
  rw [← Maze.symmetry_of_params hp, ← Maze.width_of_params hp,
    ← Maze.height_of_params hp]
  have hres := MEq_resetForGenerate hp
  rw [Maze.get_cell_congr hres.1.symm]
  rcases hgc : m1.resetForGenerate.get_cell
      (if m1.symmetry ≠ Symmetry.none then min sx ((m1.width : Int) / 2) else sx)
      (if m1.symmetry ≠ Symmetry.none then min sy ((m1.height : Int) / 2) else sy)
      with _ | ⟨cx, cy⟩
  · left
    exact ⟨rfl, rfl⟩
  · dsimp only
    have h2 := hres.setVisited_bisim cx cy
    have hps1 : (m1.resetForGenerate.setVisited cx cy).params = m1.params := by
      rw [Maze.params_setVisited, Maze.params_resetForGenerate]
    have hw' : 0 < (m1.resetForGenerate.setVisited cx cy).width := by
      rw [Maze.width_of_params hps1]
      exact hw
    have hh' : 0 < (m1.resetForGenerate.setVisited cx cy).height := by
      rw [Maze.height_of_params hps1]
      exact hh
    rcases Maze.dfsLoop_bisim (2 * m1.width * m1.height + 2) _ _ [(cx, cy)] rng
        h2 hw' hh' with ⟨hn1, hn2⟩ | ⟨r1, r2, rng', h1', h2', hmeq⟩
    · rw [hn1, hn2]
      left
      exact ⟨rfl, rfl⟩
    · rw [h1', h2']
      right
      refine ⟨r1.reconcileSymmetry, r2.reconcileSymmetry, rng', rfl, rfl, ?_⟩
      have hpr : r1.params = m1.params :=
        (Maze.params_dfsLoop h1').trans hps1
      exact hmeq.reconcileSymmetry (by rw [Maze.width_of_params hpr]; exact hw)
        (by rw [Maze.height_of_params hpr]; exact hh)

/-- C6: determinism of `generate` — the run is a pure function of the
construction parameters, the start cell and the pseudorandom stream.
Two grids with identical parameters (whatever their current cell
contents) produce runs that succeed or fail together and, on success,
carry identical parameters and bit-identical wall sets. -/
theorem C6_determinism (m1 m2 : Maze) (sx sy : Int) (rng : List Nat)
    (hp : m1.params = m2.params) (hw : 0 < m1.width) (hh : 0 < m1.height) :
    ((m1.generate sx sy rng).isSome = (m2.generate sx sy rng).isSome) ∧
    ∀ r1 r2 : Maze, m1.generate sx sy rng = some r1 → m2.generate sx sy rng = some r2 →
      r1.params = r2.params ∧ wallsEqB r1 r2 = true := by
  unfold Maze.generate
  rcases Maze.generateCarve_bisim hp hw hh sx sy rng with
    ⟨hn1, hn2⟩ | ⟨c1, c2, rng', h1, h2, hmeq⟩
  · rw [hn1, hn2]
    exact ⟨rfl, fun r1 r2 hr1 _ => absurd hr1 (by simp)⟩
  · rw [h1, h2]
    dsimp only
    have hma := hmeq.analyze_cells_bisim
    have hpc : c1.params = m1.params := Maze.params_generateCarve h1
    have hw1 : 0 < c1.analyze_cells.width := by
      rw [Maze.width_of_params (Maze.params_analyze_cells c1),
        Maze.width_of_params hpc]
      exact hw
    have hh1 : 0 < c1.analyze_cells.height := by
      rw [Maze.height_of_params (Maze.params_analyze_cells c1),
        Maze.height_of_params hpc]
      exact hh
    rcases MEq.remove_dead_ends_bisim hma hw1 hh1 with ⟨hn1', hn2'⟩ | ⟨r1, r2, hr1, hr2, hmr⟩
    · rw [hn1', hn2']
      exact ⟨rfl, fun _ _ hc => absurd hc (by simp)⟩
    · rw [hr1, hr2]
      refine ⟨rfl, ?_⟩
      intro s1 s2 hs1 hs2
      simp only [Option.some.injEq] at hs1 hs2
      subst hs1
      subst hs2
      exact ⟨hmr.1, hmr.wallsEq⟩

theorem C6_determinism_witness :
    ((mkMazeRaw 2 2 false Symmetry.none).generate 0 0 [1, 2]).isSome =
      (({ mkMazeRaw 2 2 false Symmetry.none with
          cells := fun _ _ => Cell.init.withAllWalls } : Maze).generate 0 0 [1, 2]).isSome ∧
    ∀ r1 r2 : Maze,
      (mkMazeRaw 2 2 false Symmetry.none).generate 0 0 [1, 2] = some r1 →
      ({ mkMazeRaw 2 2 false Symmetry.none with
          cells := fun _ _ => Cell.init.withAllWalls } : Maze).generate 0 0 [1, 2]
        = some r2 →
      r1.params = r2.params ∧ wallsEqB r1 r2 = true :=
  C6_determinism (mkMazeRaw 2 2 false Symmetry.none)
    ({ mkMazeRaw 2 2 false Symmetry.none with
        cells := fun _ _ => Cell.init.withAllWalls } : Maze) 0 0 [1, 2]
    rfl (by decide) (by decide)

/-! ### C2: mirror invariance of the carve stage -/

theorem mirrorLR_mirrorLR (d : Direction) : mirrorLR (mirrorLR d) = d := by
  cases d <;> rfl

theorem mirrorUD_mirrorUD (d : Direction) : mirrorUD (mirrorUD d) = d := by
  cases d <;> rfl

theorem mirrorLR_value (d : Direction) :
    (mirrorLR d).value.1 = -(d.value.1) ∧ (mirrorLR d).value.2 = d.value.2 := by
  cases d <;> exact ⟨by decide, by decide⟩

theorem mirrorUD_value (d : Direction) :
    (mirrorUD d).value.1 = d.value.1 ∧ (mirrorUD d).value.2 = -(d.value.2) := by
  cases d <;> exact ⟨by decide, by decide⟩

theorem mirrorLR_opposite (d : Direction) : (mirrorLR d).opposite = mirrorLR d.opposite := by
  cases d <;> rfl

theorem mirrorUD_opposite (d : Direction) : (mirrorUD d).opposite = mirrorUD d.opposite := by
  cases d <;> rfl

/-- Reflection commutes with `emod`: `(w - 1 - a) % w = w - 1 - a % w`
for a nonnegative modulus. -/
theorem emod_mirror (w a : Int) (hw : 0 ≤ w) : (w - 1 - a) % w = w - 1 - a % w := by
  rcases eq_or_lt_of_le hw with hz | hpos
  · rw [← hz, Int.emod_zero, Int.emod_zero]
  · have h1 : 0 ≤ a % w := Int.emod_nonneg _ (by omega)
    have h2 : a % w < w := Int.emod_lt_of_pos _ hpos
    have hdecomp : a = a % w + w * (a / w) := (Int.emod_add_ediv a w).symm
    have key : w - 1 - a = (w - 1 - a % w) + (-(a / w)) * w := by
      calc w - 1 - a = w - 1 - (a % w + w * (a / w)) := by rw [← hdecomp]
        _ = (w - 1 - a % w) + (-(a / w)) * w := by ring
    rw [key, Int.add_mul_emod_self]
    exact Int.emod_eq_of_lt (by omega) (by omega)

/-- `getCellP` commutes with the x-reflection. -/
theorem getCellP_mirrorH (w h : Nat) (wrap : Bool) (a b : Int) :
    getCellP w h wrap ((w : Int) - 1 - a) b =
      (getCellP w h wrap a b).map (fun q => ((w : Int) - 1 - q.1, q.2)) := by
  unfold getCellP
  cases wrap with
  | true =>
    rw [if_pos rfl, if_pos rfl]
    show some _ = some _
    rw [emod_mirror (w : Int) a (by positivity)]
  | false =>
    rw [if_neg (by simp : ¬(false = true)), if_neg (by simp : ¬(false = true))]
    by_cases hout : a < 0 ∨ (w : Int) ≤ a ∨ b < 0 ∨ (h : Int) ≤ b
    · rw [if_pos hout, if_pos (by omega)]
      rfl
    · rw [if_neg hout, if_neg (by omega)]
      rfl

/-- `getCellP` commutes with the y-reflection. -/
theorem getCellP_mirrorV (w h : Nat) (wrap : Bool) (a b : Int) :
    getCellP w h wrap a ((h : Int) - 1 - b) =
      (getCellP w h wrap a b).map (fun q => (q.1, (h : Int) - 1 - q.2)) := by
  unfold getCellP
  cases wrap with
  | true =>
    rw [if_pos rfl, if_pos rfl]
    show some _ = some _
    rw [emod_mirror (h : Int) b (by positivity)]
  | false =>
    rw [if_neg (by simp : ¬(false = true)), if_neg (by simp : ¬(false = true))]
    by_cases hout : a < 0 ∨ (w : Int) ≤ a ∨ b < 0 ∨ (h : Int) ≤ b
    · rw [if_pos hout, if_pos (by omega)]
      rfl
    · rw [if_neg hout, if_neg (by omega)]
      rfl

theorem from_vector_negH (d : Direction) :
    Direction.from_vector (-(d.value.1)) d.value.2 = some (mirrorLR d) := by
  cases d <;> rfl

theorem from_vector_negV (d : Direction) :
    Direction.from_vector d.value.1 (-(d.value.2)) = some (mirrorUD d) := by
  cases d <;> rfl

theorem from_vector_negH_none {dx dy : Int} (h : Direction.from_vector dx dy = none) :
    Direction.from_vector (-dx) dy = none := by
  unfold Direction.from_vector at h ⊢
  split_ifs at h with h1 h2 h3 h4
  split_ifs with g1 g2 g3 g4
  · exfalso; omega
  · exfalso; omega
  · exfalso; omega
  · exfalso; omega
  · rfl

theorem from_vector_negV_none {dx dy : Int} (h : Direction.from_vector dx dy = none) :
    Direction.from_vector dx (-dy) = none := by
  unfold Direction.from_vector at h ⊢
  split_ifs at h with h1 h2 h3 h4
  split_ifs with g1 g2 g3 g4
  · exfalso; omega
  · exfalso; omega
  · exfalso; omega
  · exfalso; omega
  · rfl

/-- `remove_wall_between`'s direction pair commutes with the
x-reflection of both cells (widths other than 1: on a width-1 wrap grid
the two horizontal wrap seams coincide and the pair flips). -/
theorem rwbDirs_mirrorH (w h : Nat) (wrap : Bool) (hw1 : w ≠ 1) (x y nx ny : Int) :
    rwbDirs w h wrap ((w : Int) - 1 - x) y ((w : Int) - 1 - nx) ny =
      (rwbDirs w h wrap x y nx ny).map (fun q => (mirrorLR q.1, mirrorLR q.2)) := by
  unfold rwbDirs
  rw [show (w : Int) - 1 - nx - ((w : Int) - 1 - x) = -(nx - x) from by ring]
  rcases hfv : Direction.from_vector (nx - x) (ny - y) with _ | d
  · rw [from_vector_negH_none hfv]
    cases wrap with
    | false => rfl
    | true =>
      by_cases c1 : nx - x = (w : Int) - 1 ∧ ny - y = 0
      · rw [if_pos rfl, if_pos rfl, if_neg (by omega), if_pos (by omega : -(nx - x) =
          -((w : Int) - 1) ∧ ny - y = 0), if_pos c1]
        rfl
      · by_cases c2 : nx - x = -((w : Int) - 1) ∧ ny - y = 0
        · rw [if_pos rfl, if_pos rfl, if_pos (by omega : -(nx - x) =
            (w : Int) - 1 ∧ ny - y = 0), if_neg c1, if_pos c2]
          rfl
        · by_cases c3 : nx - x = 0 ∧ ny - y = (h : Int) - 1
          · rw [if_pos rfl, if_pos rfl, if_neg (by omega), if_neg (by omega),
              if_pos (by omega : -(nx - x) = 0 ∧ ny - y = (h : Int) - 1),
              if_neg c1, if_neg c2, if_pos c3]
            rfl
          · by_cases c4 : nx - x = 0 ∧ ny - y = -((h : Int) - 1)
            · rw [if_pos rfl, if_pos rfl, if_neg (by omega), if_neg (by omega),
                if_neg (by omega), if_pos (by omega : -(nx - x) = 0 ∧ ny - y =
                  -((h : Int) - 1)), if_neg c1, if_neg c2, if_neg c3, if_pos c4]
              rfl
            · rw [if_pos rfl, if_pos rfl, if_neg (by omega), if_neg (by omega),
                if_neg (by omega), if_neg (by omega),
                if_neg c1, if_neg c2, if_neg c3, if_neg c4]
              rfl
  · obtain ⟨hvx, hvy⟩ := Direction.from_vector_inv hfv
    rw [hvx, hvy, from_vector_negH]
    cases d <;> rfl

/-- `remove_wall_between`'s direction pair commutes with the
y-reflection of both cells (heights other than 1). -/
theorem rwbDirs_mirrorV (w h : Nat) (wrap : Bool) (hh1 : h ≠ 1) (x y nx ny : Int) :
    rwbDirs w h wrap x ((h : Int) - 1 - y) nx ((h : Int) - 1 - ny) =
      (rwbDirs w h wrap x y nx ny).map (fun q => (mirrorUD q.1, mirrorUD q.2)) := by
  unfold rwbDirs
  rw [show (h : Int) - 1 - ny - ((h : Int) - 1 - y) = -(ny - y) from by ring]
  rcases hfv : Direction.from_vector (nx - x) (ny - y) with _ | d
  · rw [from_vector_negV_none hfv]
    cases wrap with
    | false => rfl
    | true =>
      by_cases c1 : nx - x = (w : Int) - 1 ∧ ny - y = 0
      · rw [if_pos rfl, if_pos rfl, if_pos (by omega : nx - x =
          (w : Int) - 1 ∧ -(ny - y) = 0), if_pos c1]
        rfl
      · by_cases c2 : nx - x = -((w : Int) - 1) ∧ ny - y = 0
        · rw [if_pos rfl, if_pos rfl, if_neg (by omega), if_pos (by omega : nx - x =
            -((w : Int) - 1) ∧ -(ny - y) = 0), if_neg c1, if_pos c2]
          rfl
        · by_cases c3 : nx - x = 0 ∧ ny - y = (h : Int) - 1
          · rw [if_pos rfl, if_pos rfl, if_neg (by omega), if_neg (by omega),
              if_neg (by omega), if_pos (by omega : nx - x = 0 ∧ -(ny - y) =
                -((h : Int) - 1)), if_neg c1, if_neg c2, if_pos c3]
            rfl
          · by_cases c4 : nx - x = 0 ∧ ny - y = -((h : Int) - 1)
            · rw [if_pos rfl, if_pos rfl, if_neg (by omega), if_neg (by omega),
                if_pos (by omega : nx - x = 0 ∧ -(ny - y) = (h : Int) - 1),
                if_neg c1, if_neg c2, if_neg c3, if_pos c4]
              rfl
            · rw [if_pos rfl, if_pos rfl, if_neg (by omega), if_neg (by omega),
                if_neg (by omega), if_neg (by omega),
                if_neg c1, if_neg c2, if_neg c3, if_neg c4]
              rfl
  · obtain ⟨hvx, hvy⟩ := Direction.from_vector_inv hfv
    rw [hvx, hvy, from_vector_negV]
    cases d <;> rfl

theorem symStepDir_self (cx cy : Int) (d : Direction) :
    symStepDir cx cy cx cy d = d := by
  unfold symStepDir
  rw [if_pos ⟨rfl, rfl⟩]

theorem symStepDir_mateH {cx px : Int} (cy py : Int) (hne : px ≠ cx) (d : Direction) :
    symStepDir cx cy px py d = mirrorLR d := by
  unfold symStepDir
  rw [if_neg (fun hc => hne hc.1), if_pos (by omega : px - cx ≠ 0)]
  cases d <;> rfl

theorem symStepDir_mateV {cy py : Int} (cx px : Int) (hpx : px = cx) (hne : py ≠ cy)
    (d : Direction) : symStepDir cx cy px py d = mirrorUD d := by
  unfold symStepDir
  rw [if_neg (fun hc => hne hc.2), if_neg (by omega : ¬(px - cx ≠ 0)),
    if_pos (by omega : py - cy ≠ 0)]
  cases d <;> rfl

/-- The bit clears of the x-mirrored orbit step are the x-mirrored bit
clears of the base step. -/
theorem clearsOfAt_mateH (w h : Nat) (wrap : Bool) (hw1 : w ≠ 1) (x y : Int)
    (d : Direction) (hne : (w : Int) - 1 - x ≠ x) :
    clearsOfAt w h wrap x y d ((w : Int) - 1 - x, y) =
      (clearsOfAt w h wrap x y d (x, y)).map (mirrorBitH (w : Int)) := by
  unfold clearsOfAt
  dsimp only
  rw [getCellP_mirrorH, symStepDir_self, symStepDir_mateH y y hne]
  rcases hg : getCellP w h wrap x y with _ | ⟨bx, by2⟩
  · rfl
  · rw [show Option.map (fun q : Int × Int => ((w : Int) - 1 - q.1, q.2)) (some (bx, by2)) =
      some ((w : Int) - 1 - bx, by2) from rfl]
    dsimp only
    rw [show (w : Int) - 1 - bx + (mirrorLR d).value.1 = (w : Int) - 1 - (bx + d.value.1)
        from by rw [(mirrorLR_value d).1]; ring,
      (mirrorLR_value d).2, getCellP_mirrorH]
    rcases hn : getCellP w h wrap (bx + d.value.1) (by2 + d.value.2) with _ | ⟨nx, ny⟩
    · rfl
    · rw [show Option.map (fun q : Int × Int => ((w : Int) - 1 - q.1, q.2)) (some (nx, ny)) =
        some ((w : Int) - 1 - nx, ny) from rfl]
      dsimp only
      rw [rwbDirs_mirrorH w h wrap hw1 bx by2 nx ny]
      rcases hr : rwbDirs w h wrap bx by2 nx ny with _ | ⟨d1, d2⟩
      · rfl
      · rfl

/-- The bit clears of the y-mirrored orbit step are the y-mirrored bit
clears of the base step. -/
theorem clearsOfAt_mateV (w h : Nat) (wrap : Bool) (hh1 : h ≠ 1) (x y : Int)
    (d : Direction) (hne : (h : Int) - 1 - y ≠ y) :
    clearsOfAt w h wrap x y d (x, (h : Int) - 1 - y) =
      (clearsOfAt w h wrap x y d (x, y)).map (mirrorBitV (h : Int)) := by
  unfold clearsOfAt
  dsimp only
  rw [getCellP_mirrorV, symStepDir_self, symStepDir_mateV x x rfl hne]
  rcases hg : getCellP w h wrap x y with _ | ⟨bx, by2⟩
  · rfl
  · rw [show Option.map (fun q : Int × Int => (q.1, (h : Int) - 1 - q.2)) (some (bx, by2)) =
      some (bx, (h : Int) - 1 - by2) from rfl]
    dsimp only
    rw [show (h : Int) - 1 - by2 + (mirrorUD d).value.2 = (h : Int) - 1 - (by2 + d.value.2)
        from by rw [(mirrorUD_value d).2]; ring,
      (mirrorUD_value d).1, getCellP_mirrorV]
    rcases hn : getCellP w h wrap (bx + d.value.1) (by2 + d.value.2) with _ | ⟨nx, ny⟩
    · rfl
    · rw [show Option.map (fun q : Int × Int => (q.1, (h : Int) - 1 - q.2)) (some (nx, ny)) =
        some (nx, (h : Int) - 1 - ny) from rfl]
      dsimp only
      rw [rwbDirs_mirrorV w h wrap hh1 bx by2 nx ny]
      rcases hr : rwbDirs w h wrap bx by2 nx ny with _ | ⟨d1, d2⟩
      · rfl
      · rfl

/-- Under horizontal symmetry one carve clears a base list of bits
together with its x-mirror image. -/
theorem symClears_horizontal (w h : Nat) (wrap : Bool) (hw1 : w ≠ 1) (x y : Int)
    (d : Direction) (hne : (w : Int) - 1 - x ≠ x) :
    symClears w h wrap .horizontal x y d =
      clearsOfAt w h wrap x y d (x, y) ++
        (clearsOfAt w h wrap x y d (x, y)).map (mirrorBitH (w : Int)) := by
  unfold symClears symOrbit
  dsimp only
  rw [if_pos hne, List.flatMap_cons, List.flatMap_cons, List.flatMap_nil,
    List.append_nil, clearsOfAt_mateH w h wrap hw1 x y d hne]

/-- Under vertical symmetry one carve clears a base list of bits
together with its y-mirror image. -/
theorem symClears_vertical (w h : Nat) (wrap : Bool) (hh1 : h ≠ 1) (x y : Int)
    (d : Direction) (hne : (h : Int) - 1 - y ≠ y) :
    symClears w h wrap .vertical x y d =
      clearsOfAt w h wrap x y d (x, y) ++
        (clearsOfAt w h wrap x y d (x, y)).map (mirrorBitV (h : Int)) := by
  unfold symClears symOrbit
  dsimp only
  rw [if_pos hne, List.flatMap_cons, List.flatMap_cons, List.flatMap_nil,
    List.append_nil, clearsOfAt_mateV w h wrap hh1 x y d hne]

theorem anyCongr {α : Type} (l : List α) (p q : α → Bool) (h : ∀ a, p a = q a) :
    l.any p = l.any q := by
  induction l with
  | nil => rfl
  | cons x t ih => rw [List.any_cons, List.any_cons, h, ih]

/-- A bit list of the form `A ++ mirror A` hits the bit `(a, b, e)` iff
it hits the x-mirrored bit. -/
theorem any_mirrorH (w : Int) (A : List ((Int × Int) × Direction)) (a b : Int)
    (e : Direction) :
    (A ++ A.map (mirrorBitH w)).any
        (fun q => decide (a = q.1.1 ∧ b = q.1.2 ∧ q.2 = e)) =
      (A ++ A.map (mirrorBitH w)).any
        (fun q => decide (w - 1 - a = q.1.1 ∧ b = q.1.2 ∧ q.2 = mirrorLR e)) := by
  rw [List.any_append, List.any_append, List.any_map, List.any_map]
  have h1 : A.any ((fun q : (Int × Int) × Direction =>
      decide (a = q.1.1 ∧ b = q.1.2 ∧ q.2 = e)) ∘ mirrorBitH w) =
      A.any (fun q => decide (w - 1 - a = q.1.1 ∧ b = q.1.2 ∧ q.2 = mirrorLR e)) := by
    refine anyCongr A _ _ ?_
    intro q
    simp only [Function.comp, mirrorBitH]
    rw [decide_eq_decide]
    constructor
    · rintro ⟨ha, hb, hd⟩
      exact ⟨by omega, hb, by rw [← hd, mirrorLR_mirrorLR]⟩
    · rintro ⟨ha, hb, hd⟩
      exact ⟨by omega, hb, by rw [hd, mirrorLR_mirrorLR]⟩
  have h2 : A.any ((fun q : (Int × Int) × Direction =>
      decide (w - 1 - a = q.1.1 ∧ b = q.1.2 ∧ q.2 = mirrorLR e)) ∘ mirrorBitH w) =
      A.any (fun q => decide (a = q.1.1 ∧ b = q.1.2 ∧ q.2 = e)) := by
    refine anyCongr A _ _ ?_
    intro q
    simp only [Function.comp, mirrorBitH]
    rw [decide_eq_decide]
    constructor
    · rintro ⟨ha, hb, hd⟩
      refine ⟨by omega, hb, ?_⟩
      have := congrArg mirrorLR hd
      rwa [mirrorLR_mirrorLR, mirrorLR_mirrorLR] at this
    · rintro ⟨ha, hb, hd⟩
      exact ⟨by omega, hb, by rw [hd]⟩
  rw [h1, h2]
  exact Bool.or_comm _ _

/-- A bit list of the form `A ++ mirror A` hits the bit `(a, b, e)` iff
it hits the y-mirrored bit. -/
theorem any_mirrorV (h : Int) (A : List ((Int × Int) × Direction)) (a b : Int)
    (e : Direction) :
    (A ++ A.map (mirrorBitV h)).any
        (fun q => decide (a = q.1.1 ∧ b = q.1.2 ∧ q.2 = e)) =
      (A ++ A.map (mirrorBitV h)).any
        (fun q => decide (a = q.1.1 ∧ h - 1 - b = q.1.2 ∧ q.2 = mirrorUD e)) := by
  rw [List.any_append, List.any_append, List.any_map, List.any_map]
  have h1 : A.any ((fun q : (Int × Int) × Direction =>
      decide (a = q.1.1 ∧ b = q.1.2 ∧ q.2 = e)) ∘ mirrorBitV h) =
      A.any (fun q => decide (a = q.1.1 ∧ h - 1 - b = q.1.2 ∧ q.2 = mirrorUD e)) := by
    refine anyCongr A _ _ ?_
    intro q
    simp only [Function.comp, mirrorBitV]
    rw [decide_eq_decide]
    constructor
    · rintro ⟨ha, hb, hd⟩
      exact ⟨ha, by omega, by rw [← hd, mirrorUD_mirrorUD]⟩
    · rintro ⟨ha, hb, hd⟩
      exact ⟨ha, by omega, by rw [hd, mirrorUD_mirrorUD]⟩
  have h2 : A.any ((fun q : (Int × Int) × Direction =>
      decide (a = q.1.1 ∧ h - 1 - b = q.1.2 ∧ q.2 = mirrorUD e)) ∘ mirrorBitV h) =
      A.any (fun q => decide (a = q.1.1 ∧ b = q.1.2 ∧ q.2 = e)) := by
    refine anyCongr A _ _ ?_
    intro q
    simp only [Function.comp, mirrorBitV]
    rw [decide_eq_decide]
    constructor
    · rintro ⟨ha, hb, hd⟩
      refine ⟨ha, by omega, ?_⟩
      have := congrArg mirrorUD hd
      rwa [mirrorUD_mirrorUD, mirrorUD_mirrorUD] at this
    · rintro ⟨ha, hb, hd⟩
      exact ⟨ha, by omega, by rw [hd]⟩
  rw [h1, h2]
  exact Bool.or_comm _ _

/-- Clearing a mirror-closed bit list preserves the horizontal mirror
invariance. -/
theorem SymHW.applyClears_h {m : Maze} (hs : SymHW m)
    (A : List ((Int × Int) × Direction)) :
    SymHW (m.applyClears (A ++ A.map (mirrorBitH (m.width : Int)))) := by
  intro a b e hab
  rw [Maze.inBounds_congr (Maze.params_applyClears m _)] at hab
  show (m.applyClears _).wallB a b e = (m.applyClears _).wallB _ b (mirrorLR e)
  rw [Maze.width_of_params (Maze.params_applyClears m _)]
  unfold Maze.wallB
  rw [Maze.cells_applyClears, Maze.cells_applyClears, has_wall_cellClears,
    has_wall_cellClears, any_mirrorH (m.width : Int) A a b e]
  have hwall := hs a b e hab
  unfold Maze.wallB at hwall
  rw [hwall]

/-- Clearing a mirror-closed bit list preserves the vertical mirror
invariance. -/
theorem SymVW.applyClears_v {m : Maze} (hs : SymVW m)
    (A : List ((Int × Int) × Direction)) :
    SymVW (m.applyClears (A ++ A.map (mirrorBitV (m.height : Int)))) := by
  intro a b e hab
  rw [Maze.inBounds_congr (Maze.params_applyClears m _)] at hab
  show (m.applyClears _).wallB a b e = (m.applyClears _).wallB a _ (mirrorUD e)
  rw [Maze.height_of_params (Maze.params_applyClears m _)]
  unfold Maze.wallB
  rw [Maze.cells_applyClears, Maze.cells_applyClears, has_wall_cellClears,
    has_wall_cellClears, any_mirrorV (m.height : Int) A a b e]
  have hwall := hs a b e hab
  unfold Maze.wallB at hwall
  rw [hwall]

theorem SymHW.setVisited_h {m : Maze} (hs : SymHW m) (x y : Int) :
    SymHW (m.setVisited x y) := by
  intro a b e hab
  rw [Maze.wallB_setVisited, Maze.wallB_setVisited]
  exact hs a b e hab

theorem SymVW.setVisited_v {m : Maze} (hs : SymVW m) (x y : Int) :
    SymVW (m.setVisited x y) := by
  intro a b e hab
  rw [Maze.wallB_setVisited, Maze.wallB_setVisited]
  exact hs a b e hab

theorem hasWallResetCell (c : Cell) (e : Direction) :
    ({ c.withAllWalls with visited := false } : Cell).has_wall e = true := by
  cases e <;> rfl

theorem SymHW.resetForGenerate_h (m : Maze) : SymHW m.resetForGenerate := by
  intro a b e hab
  rw [Maze.inBounds_congr (Maze.params_resetForGenerate m)] at hab
  obtain ⟨h1, h2, h3, h4⟩ := Maze.inBounds_iff.1 hab
  show m.resetForGenerate.wallB a b e = _
  rw [Maze.width_of_params (Maze.params_resetForGenerate m)]
  unfold Maze.wallB
  rw [Maze.cells_resetForGenerate, Maze.cells_resetForGenerate,
    if_pos (posList_mem.2 ⟨h1, h2, h3, h4⟩),
    if_pos (posList_mem.2 ⟨by omega, by omega, h3, h4⟩),
    hasWallResetCell, hasWallResetCell]

theorem SymVW.resetForGenerate_v (m : Maze) : SymVW m.resetForGenerate := by
  intro a b e hab
  rw [Maze.inBounds_congr (Maze.params_resetForGenerate m)] at hab
  obtain ⟨h1, h2, h3, h4⟩ := Maze.inBounds_iff.1 hab
  show m.resetForGenerate.wallB a b e = _
  rw [Maze.height_of_params (Maze.params_resetForGenerate m)]
  unfold Maze.wallB
  rw [Maze.cells_resetForGenerate, Maze.cells_resetForGenerate,
    if_pos (posList_mem.2 ⟨h1, h2, h3, h4⟩),
    if_pos (posList_mem.2 ⟨h1, h2, by omega, by omega⟩),
    hasWallResetCell, hasWallResetCell]

/-- Under horizontal symmetry on an even width, every wall removal of
the DFS-carving loop preserves the horizontal mirror invariance. -/
theorem Maze.dfsLoop_symH {fuel : Nat} :
    ∀ {m m' : Maze} {stack : List (Int × Int)} {rng rng' : List Nat},
      Maze.dfsLoop fuel m stack rng = some (m', rng') →
      m.symmetry = .horizontal → m.width % 2 = 0 →
      SymHW m → SymHW m' := by
  induction fuel with
  | zero =>
    intro m m' stack rng rng' hl
    exact absurd hl (by simp [Maze.dfsLoop])
  | succ n ih =>
    intro m m' stack rng rng' hl hsym hweven hs
    match stack with
    | [] =>
      rw [show Maze.dfsLoop (n + 1) m [] rng = some (m, rng) from rfl] at hl
      cases hl
      exact hs
    | (x, y) :: rest =>
      rw [Maze.dfsLoop_succ_cons] at hl
      by_cases hns : (m.unvisitedNeighbors x y).isEmpty = true
      · rw [if_pos hns] at hl
        exact ih hl hsym hweven hs
      · rw [if_neg hns] at hl
        have hne : (m.width : Int) - 1 - x ≠ x := by
          intro hc
          omega
        have hw1 : m.width ≠ 1 := by omega
        have hs1 : SymHW (m.apply_symmetric_wall_removal x y
            (drawChoice rng (m.unvisitedNeighbors x y)
              (((0, 0) : Int × Int), .up)).1.2) := by
          rw [Maze.apply_symmetric_wall_removal_eq, hsym,
            symClears_horizontal m.width m.height m.wrap hw1 x y _ hne]
          exact SymHW.applyClears_h hs _
        have hs2 := SymHW.setVisited_h hs1
          (drawChoice rng (m.unvisitedNeighbors x y) (((0, 0) : Int × Int), .up)).1.1.1
          (drawChoice rng (m.unvisitedNeighbors x y) (((0, 0) : Int × Int), .up)).1.1.2
        have hp2 : ((m.apply_symmetric_wall_removal x y
            (drawChoice rng (m.unvisitedNeighbors x y)
              (((0, 0) : Int × Int), .up)).1.2).setVisited
            (drawChoice rng (m.unvisitedNeighbors x y) (((0, 0) : Int × Int), .up)).1.1.1
            (drawChoice rng (m.unvisitedNeighbors x y)
              (((0, 0) : Int × Int), .up)).1.1.2).params = m.params := by
          rw [Maze.params_setVisited, Maze.params_apply_symmetric_wall_removal]
        exact ih hl (by rw [Maze.symmetry_of_params hp2, hsym])
          (by rw [Maze.width_of_params hp2]; exact hweven) hs2

/-- Under vertical symmetry on an even height, every wall removal of
the DFS-carving loop preserves the vertical mirror invariance. -/
theorem Maze.dfsLoop_symV {fuel : Nat} :
    ∀ {m m' : Maze} {stack : List (Int × Int)} {rng rng' : List Nat},
      Maze.dfsLoop fuel m stack rng = some (m', rng') →
      m.symmetry = .vertical → m.height % 2 = 0 →
      SymVW m → SymVW m' := by
  induction fuel with
  | zero =>
    intro m m' stack rng rng' hl
    exact absurd hl (by simp [Maze.dfsLoop])
  | succ n ih =>
    intro m m' stack rng rng' hl hsym hheven hs
    match stack with
    | [] =>
      rw [show Maze.dfsLoop (n + 1) m [] rng = some (m, rng) from rfl] at hl
      cases hl
      exact hs
    | (x, y) :: rest =>
      rw [Maze.dfsLoop_succ_cons] at hl
      by_cases hns : (m.unvisitedNeighbors x y).isEmpty = true
      · rw [if_pos hns] at hl
        exact ih hl hsym hheven hs
      · rw [if_neg hns] at hl
        have hne : (m.height : Int) - 1 - y ≠ y := by
          intro hc
          omega
        have hh1 : m.height ≠ 1 := by omega
        have hs1 : SymVW (m.apply_symmetric_wall_removal x y
            (drawChoice rng (m.unvisitedNeighbors x y)
              (((0, 0) : Int × Int), .up)).1.2) := by
          rw [Maze.apply_symmetric_wall_removal_eq, hsym,
            symClears_vertical m.width m.height m.wrap hh1 x y _ hne]
          exact SymVW.applyClears_v hs _
        have hs2 := SymVW.setVisited_v hs1
          (drawChoice rng (m.unvisitedNeighbors x y) (((0, 0) : Int × Int), .up)).1.1.1
          (drawChoice rng (m.unvisitedNeighbors x y) (((0, 0) : Int × Int), .up)).1.1.2
        have hp2 : ((m.apply_symmetric_wall_removal x y
            (drawChoice rng (m.unvisitedNeighbors x y)
              (((0, 0) : Int × Int), .up)).1.2).setVisited
            (drawChoice rng (m.unvisitedNeighbors x y) (((0, 0) : Int × Int), .up)).1.1.1
            (drawChoice rng (m.unvisitedNeighbors x y)
              (((0, 0) : Int × Int), .up)).1.1.2).params = m.params := by
          rw [Maze.params_setVisited, Maze.params_apply_symmetric_wall_removal]
        exact ih hl (by rw [Maze.symmetry_of_params hp2, hsym])
          (by rw [Maze.height_of_params hp2]; exact hheven) hs2

theorem Maze.symHB_of_SymHW {m : Maze} (hs : SymHW m) : m.symHB = true := by
  unfold Maze.symHB
  rw [List.all_eq_true]
  intro p hp
  rw [List.all_eq_true]
  intro d _
  obtain ⟨h1, h2, h3, h4⟩ := posList_mem.1 hp
  rw [hs p.1 p.2 d (Maze.inBounds_iff.2 ⟨h1, h2, h3, h4⟩)]
  simp

theorem Maze.symVB_of_SymVW {m : Maze} (hs : SymVW m) : m.symVB = true := by
  unfold Maze.symVB
  rw [List.all_eq_true]
  intro p hp
  rw [List.all_eq_true]
  intro d _
  obtain ⟨h1, h2, h3, h4⟩ := posList_mem.1 hp
  rw [hs p.1 p.2 d (Maze.inBounds_iff.2 ⟨h1, h2, h3, h4⟩)]
  simp

/-- For horizontal symmetry on an even width the carve stage (DFS +
reconciliation, before dead-end elimination) satisfies the claimed
orbit equality. -/
theorem Maze.generateCarve_symH {m m1 : Maze} {sx sy : Int} {rng rng1 : List Nat}
    (hsym : m.symmetry = .horizontal) (hweven : m.width % 2 = 0)
    (h : m.generateCarve sx sy rng = some (m1, rng1)) : m1.symHB = true := by
  have hps := Maze.params_generateCarve h
  by_cases hdeg : m.width = 0 ∨ m.height = 0
  · unfold Maze.symHB
    rw [List.all_eq_true]
    intro p hp
    exfalso
    obtain ⟨h1, h2, h3, h4⟩ := posList_mem.1 hp
    have hww := Maze.width_of_params hps
    have hhh := Maze.height_of_params hps
    omega
  · push_neg at hdeg
    unfold Maze.generateCarve at h
    simp only at h
    rcases hgc : m.resetForGenerate.get_cell
        (if m.symmetry ≠ Symmetry.none then min sx ((m.width : Int) / 2) else sx)
        (if m.symmetry ≠ Symmetry.none then min sy ((m.height : Int) / 2) else sy)
        with _ | ⟨cx, cy⟩
    · rw [hgc] at h
      simp at h
    · rw [hgc] at h
      simp only at h
      rcases hdfs : Maze.dfsLoop (2 * m.width * m.height + 2)
          (m.resetForGenerate.setVisited cx cy) [(cx, cy)] rng with _ | ⟨m3, rng3⟩
      · rw [hdfs] at h
        simp at h
      · rw [hdfs] at h
        simp only [Option.some.injEq, Prod.mk.injEq] at h
        obtain ⟨h1, -⟩ := h
        have hpr := Maze.params_resetForGenerate m
        have hp2 : (m.resetForGenerate.setVisited cx cy).params = m.params := by
          rw [Maze.params_setVisited, hpr]
        have hsym3 : SymHW m3 := by
          refine Maze.dfsLoop_symH hdfs ?_ ?_ ?_
          · rw [Maze.symmetry_of_params hp2, hsym]
          · rw [Maze.width_of_params hp2]
            exact hweven
          · exact SymHW.setVisited_h (SymHW.resetForGenerate_h m) cx cy
        have hall3 : ∀ x y, m3.inBounds x y = true → (m3.cells x y).visited = true := by
          have hp3 : m3.params = m.params := (Maze.params_dfsLoop hdfs).trans hp2
          have hw0 : 0 < m.resetForGenerate.width := by
            rw [Maze.width_of_params hpr]
            omega
          have hh0 : 0 < m.resetForGenerate.height := by
            rw [Maze.height_of_params hpr]
            omega
          have hcb : m.resetForGenerate.inBounds cx cy = true :=
            Maze.get_cell_inBounds hw0 hh0 hgc
          have hvis2 : ∀ a b, ((m.resetForGenerate.setVisited cx cy).cells a b).visited =
              (decide (a = cx ∧ b = cy) || (m.resetForGenerate.cells a b).visited) := by
            intro a b
            rw [Maze.visited_setVisited]
          have hresetv : ∀ a b, m.resetForGenerate.inBounds a b = true →
              (m.resetForGenerate.cells a b).visited = false := by
            intro a b hb
            rw [Maze.inBounds_congr hpr] at hb
            have hq := Maze.inBounds_iff.1 hb
            rw [Maze.cells_resetForGenerate,
              if_pos (posList_mem.2 ⟨hq.1, hq.2.1, hq.2.2.1, hq.2.2.2⟩)]
          have hclo3 := Maze.dfsLoop_closure hdfs
            (by
              intro q hq
              rcases List.mem_cons.1 hq with hq1 | hq1
              · subst hq1
                refine ⟨hcb, ?_⟩
                rw [hvis2]
                simp
              · exact absurd hq1 (List.not_mem_nil _))
            (by
              intro x y hb hv
              left
              rw [hvis2] at hv
              have hb' : m.resetForGenerate.inBounds x y = true := hb
              rw [hresetv x y hb'] at hv
              simp only [Bool.or_false] at hv
              have := of_decide_eq_true hv
              rw [this.1, this.2]
              exact List.mem_cons_self _ _)
          have hstart3 : (m3.cells cx cy).visited = true := by
            refine Maze.dfsLoop_visited_mono hdfs cx cy ?_
            rw [hvis2]
            simp
          have hcb3 : m3.inBounds cx cy = true := by
            rw [Maze.inBounds_congr hp3, ← Maze.inBounds_congr hpr]
            exact hcb
          exact Maze.closure_all_visited hclo3 hcb3 hstart3
        have hm1 : m1 = m3 := by
          rw [← h1]
          exact Maze.reconcileSymmetry_eq_self hall3
        subst hm1
        exact Maze.symHB_of_SymHW hsym3

/-- For vertical symmetry on an even height the carve stage satisfies
the claimed orbit equality. -/
theorem Maze.generateCarve_symV {m m1 : Maze} {sx sy : Int} {rng rng1 : List Nat}
    (hsym : m.symmetry = .vertical) (hheven : m.height % 2 = 0)
    (h : m.generateCarve sx sy rng = some (m1, rng1)) : m1.symVB = true := by
  have hps := Maze.params_generateCarve h
  by_cases hdeg : m.width = 0 ∨ m.height = 0
  · unfold Maze.symVB
    rw [List.all_eq_true]
    intro p hp
    exfalso
    obtain ⟨h1, h2, h3, h4⟩ := posList_mem.1 hp
    have hww := Maze.width_of_params hps
    have hhh := Maze.height_of_params hps
    omega
  · push_neg at hdeg
    unfold Maze.generateCarve at h
    simp only at h
    rcases hgc : m.resetForGenerate.get_cell
        (if m.symmetry ≠ Symmetry.none then min sx ((m.width : Int) / 2) else sx)
        (if m.symmetry ≠ Symmetry.none then min sy ((m.height : Int) / 2) else sy)
        with _ | ⟨cx, cy⟩
    · rw [hgc] at h
      simp at h
    · rw [hgc] at h
      simp only at h
      rcases hdfs : Maze.dfsLoop (2 * m.width * m.height + 2)
          (m.resetForGenerate.setVisited cx cy) [(cx, cy)] rng with _ | ⟨m3, rng3⟩
      · rw [hdfs] at h
        simp at h
      · rw [hdfs] at h
        simp only [Option.some.injEq, Prod.mk.injEq] at h
        obtain ⟨h1, -⟩ := h
        have hpr := Maze.params_resetForGenerate m
        have hp2 : (m.resetForGenerate.setVisited cx cy).params = m.params := by
          rw [Maze.params_setVisited, hpr]
        have hsym3 : SymVW m3 := by
          refine Maze.dfsLoop_symV hdfs ?_ ?_ ?_
          · rw [Maze.symmetry_of_params hp2, hsym]
          · rw [Maze.height_of_params hp2]
            exact hheven
          · exact SymVW.setVisited_v (SymVW.resetForGenerate_v m) cx cy
        have hall3 : ∀ x y, m3.inBounds x y = true → (m3.cells x y).visited = true := by
          have hp3 : m3.params = m.params := (Maze.params_dfsLoop hdfs).trans hp2
          have hw0 : 0 < m.resetForGenerate.width := by
            rw [Maze.width_of_params hpr]
            omega
          have hh0 : 0 < m.resetForGenerate.height := by
            rw [Maze.height_of_params hpr]
            omega
          have hcb : m.resetForGenerate.inBounds cx cy = true :=
            Maze.get_cell_inBounds hw0 hh0 hgc
          have hvis2 : ∀ a b, ((m.resetForGenerate.setVisited cx cy).cells a b).visited =
              (decide (a = cx ∧ b = cy) || (m.resetForGenerate.cells a b).visited) := by
            intro a b
            rw [Maze.visited_setVisited]
          have hresetv : ∀ a b, m.resetForGenerate.inBounds a b = true →
              (m.resetForGenerate.cells a b).visited = false := by
            intro a b hb
            rw [Maze.inBounds_congr hpr] at hb
            have hq := Maze.inBounds_iff.1 hb
            rw [Maze.cells_resetForGenerate,
              if_pos (posList_mem.2 ⟨hq.1, hq.2.1, hq.2.2.1, hq.2.2.2⟩)]
          have hclo3 := Maze.dfsLoop_closure hdfs
            (by
              intro q hq
              rcases List.mem_cons.1 hq with hq1 | hq1
              · subst hq1
                refine ⟨hcb, ?_⟩
                rw [hvis2]
                simp
              · exact absurd hq1 (List.not_mem_nil _))
            (by
              intro x y hb hv
              left
              rw [hvis2] at hv
              have hb' : m.resetForGenerate.inBounds x y = true := hb
              rw [hresetv x y hb'] at hv
              simp only [Bool.or_false] at hv
              have := of_decide_eq_true hv
              rw [this.1, this.2]
              exact List.mem_cons_self _ _)
          have hstart3 : (m3.cells cx cy).visited = true := by
            refine Maze.dfsLoop_visited_mono hdfs cx cy ?_
            rw [hvis2]
            simp
          have hcb3 : m3.inBounds cx cy = true := by
            rw [Maze.inBounds_congr hp3, ← Maze.inBounds_congr hpr]
            exact hcb
          exact Maze.closure_all_visited hclo3 hcb3 hstart3
        have hm1 : m1 = m3 := by
          rw [← h1]
          exact Maze.reconcileSymmetry_eq_self hall3
        subst hm1
        exact Maze.symVB_of_SymVW hsym3

/-- C2 (corrected): symmetry-orbit equality.  What actually holds is the
mirror law after the carve stage (DFS + reconciliation, before dead-end
elimination): with symmetry=Horizontal and an even width, every cell's
wall set equals the x-mirrored cell's wall set with Left/Right swapped,
and the analogous law holds for Vertical with an even height.  The
original claim — the laws after the full `generate`, and the Rotational
and Both variants — is refuted by `C2_counterexample`. -/
theorem C2_symmetry_orbit :
    (∀ (m : Maze) (sx sy : Int) (rng : List Nat) (r : Maze × List Nat),
      m.symmetry = .horizontal → m.width % 2 = 0 →
      m.generateCarve sx sy rng = some r → r.1.symHB = true) ∧
    (∀ (m : Maze) (sx sy : Int) (rng : List Nat) (r : Maze × List Nat),
      m.symmetry = .vertical → m.height % 2 = 0 →
      m.generateCarve sx sy rng = some r → r.1.symVB = true) :=
  ⟨fun _ _ _ _ _ hsym hev h => Maze.generateCarve_symH hsym hev h,
   fun _ _ _ _ _ hsym hev h => Maze.generateCarve_symV hsym hev h⟩

set_option maxRecDepth 200000 in
/-- The original C2 claim fails: on a 4×6 grid with vertical symmetry
the carve stage is perfectly mirror-symmetric but the full `generate`
is not (dead-end elimination repairs cells asymmetrically), and on a
4×2 grid with rotational symmetry the claimed opposite-direction law
already fails after `generate` (the code only swaps Left/Right when the
x-offset is nonzero, never applies the full point reflection). -/
theorem C2_counterexample :
    ((mkMazeRaw 4 6 false Symmetry.vertical).generate 2 3 [1, 1]).map Maze.symVB =
        some false ∧
    ((mkMazeRaw 4 6 false Symmetry.vertical).generateCarve 2 3 [1, 1]).map
        (fun r => r.1.symVB) = some true ∧
    ((mkMazeRaw 4 2 false Symmetry.rotational).generate 0 0 [1]).map Maze.symRB =
        some false := by
  refine ⟨?_, ?_, ?_⟩
  · decide
  · decide
  · decide

theorem C2_symmetry_orbit_witness :
    ((mkMazeRaw 2 2 false Symmetry.horizontal).generateCarve 0 0 [1]).map
        (fun r => r.1.symHB) = some true ∧
    ((mkMazeRaw 2 2 false Symmetry.vertical).generateCarve 0 0 [1]).map
        (fun r => r.1.symVB) = some true := by
  have hsomeH : ((mkMazeRaw 2 2 false Symmetry.horizontal).generateCarve 0 0 [1]).isSome =
      true := by decide
  have hsomeV : ((mkMazeRaw 2 2 false Symmetry.vertical).generateCarve 0 0 [1]).isSome =
      true := by decide
  constructor
  · rcases hg : (mkMazeRaw 2 2 false Symmetry.horizontal).generateCarve 0 0 [1]
        with _ | r
    · rw [hg] at hsomeH
      simp at hsomeH
    · exact congrArg some
        (C2_symmetry_orbit.1 (mkMazeRaw 2 2 false Symmetry.horizontal) 0 0 [1] r
          rfl rfl hg)
  · rcases hg : (mkMazeRaw 2 2 false Symmetry.vertical).generateCarve 0 0 [1]
        with _ | r
    · rw [hg] at hsomeV
      simp at hsomeV
    · exact congrArg some
        (C2_symmetry_orbit.2 (mkMazeRaw 2 2 false Symmetry.vertical) 0 0 [1] r
          rfl rfl hg)

/-! ### C3: the DFS carve produces a spanning tree -/

/-- Flipping one predicate value from false to true on a duplicate-free
list grows the filtered length by one. -/
theorem filter_length_flip {α : Type} {l : List α} {t : α} (hnd : l.Nodup)
    (ht : t ∈ l) (p p' : α → Bool) (hoff : ∀ a ∈ l, a ≠ t → p' a = p a)
    (hpt : p t = false) (hpt' : p' t = true) :
    (l.filter p').length = (l.filter p).length + 1 := by
  induction l with
  | nil => cases ht
  | cons a rest ih =>
    have hnd2 := List.nodup_cons.1 hnd
    rcases List.mem_cons.1 ht with rfl | htr
    · rw [List.filter_cons, List.filter_cons, hpt, hpt']
      have hcong : rest.filter p' = rest.filter p :=
        List.filter_congr (fun q hq =>
          hoff q (List.mem_cons_of_mem _ hq) (fun he => hnd2.1 (he ▸ hq)))
      rw [hcong]
      simp
    · have hat : a ≠ t := fun he => hnd2.1 (he ▸ htr)
      have hrec := ih hnd2.2 htr
        (fun q hq hqt => hoff q (List.mem_cons_of_mem _ hq) hqt)
      rw [List.filter_cons, List.filter_cons,
        hoff a (List.mem_cons_self _ _) hat]
      cases hpa : p a
      · simp only [Bool.false_eq_true, if_false]
        exact hrec
      · simp only [if_true]
        rw [List.length_cons, List.length_cons, hrec]

theorem edgeSlots_nodup (w h : Nat) : (edgeSlots w h).Nodup := by
  unfold edgeSlots
  have main : ∀ l : List (Int × Int), l.Nodup →
      (l.flatMap fun p => [(p, Direction.right), (p, Direction.down)]).Nodup := by
    intro l
    induction l with
    | nil => intro _; exact List.nodup_nil
    | cons a rest ih =>
      intro hnd
      have hnd2 := List.nodup_cons.1 hnd
      rw [List.flatMap_cons]
      refine List.Nodup.append (by simp) (ih hnd2.2) ?_
      intro e he1 he2
      have h1 : e.1 = a := by
        rcases List.mem_cons.1 he1 with rfl | h
        · rfl
        · rcases List.mem_cons.1 h with rfl | h2
          · rfl
          · exact absurd h2 (List.not_mem_nil _)
      have h2 : e.1 ∈ rest := by
        rcases List.mem_flatMap.1 he2 with ⟨b, hb, hbe⟩
        have : e.1 = b := by
          rcases List.mem_cons.1 hbe with rfl | hh
          · rfl
          · rcases List.mem_cons.1 hh with rfl | h3
            · rfl
            · exact absurd h3 (List.not_mem_nil _)
        rw [this]
        exact hb
      rw [h1] at h2
      exact hnd2.1 h2
  exact main _ (posList_nodup w h)

theorem edgeSlots_mem {w h : Nat} {e : (Int × Int) × Direction} :
    e ∈ edgeSlots w h ↔
      e.1 ∈ posList w h ∧ (e.2 = Direction.right ∨ e.2 = Direction.down) := by
  unfold edgeSlots
  rw [List.mem_flatMap]
  constructor
  · rintro ⟨b, hb, hbe⟩
    rcases List.mem_cons.1 hbe with rfl | hh
    · exact ⟨hb, Or.inl rfl⟩
    · rcases List.mem_cons.1 hh with rfl | h3
      · exact ⟨hb, Or.inr rfl⟩
      · exact absurd h3 (List.not_mem_nil _)
  · rintro ⟨hp, hd | hd⟩ <;>
      exact ⟨e.1, hp, by
        rw [show e = (e.1, e.2) from rfl, hd]
        simp⟩

/-- `openEdgeList` in terms of the fixed slot list. -/
theorem Maze.openEdgeList_eq (m : Maze) :
    m.openEdgeList = (edgeSlots m.width m.height).filter
      (fun e => m.edgeOpenCanon e.1 e.2) := rfl

/-- Extending an acyclic graph with a single pendant edge at a
previously isolated vertex keeps it acyclic. -/
theorem isAcyclic_extend_leaf {V : Type} [DecidableEq V] {G G' : SimpleGraph V}
    {v0 u0 : V} (hG : G.IsAcyclic) (hne : u0 ≠ v0)
    (hiso : ∀ a, ¬ G.Adj v0 a)
    (hsub : ∀ a b, G'.Adj a b →
      G.Adj a b ∨ (a = v0 ∧ b = u0) ∨ (a = u0 ∧ b = v0)) :
    G'.IsAcyclic := by
  have lastEdge : ∀ (n : Nat) {c : V} (q : G'.Walk c v0), q.length ≤ n →
      1 ≤ q.length → s(u0, v0) ∈ q.edges := by
    intro n
    induction n with
    | zero =>
      intro c q hle h1
      omega
    | succ k ihn =>
      intro c q hle h1
      cases q with
      | nil => simp at h1
      | @cons _ b _ hadj q' =>
        rcases Nat.eq_zero_or_pos q'.length with hq0 | hq1
        · have hb : b = v0 := SimpleGraph.Walk.eq_of_length_eq_zero hq0
          have hc : c = u0 := by
            rcases hsub c b hadj with h | h | h
            · rw [hb] at h
              exact absurd (G.symm h) (hiso c)
            · rw [hb] at h
              exact absurd h.2.symm hne
            · exact h.1
          rw [SimpleGraph.Walk.edges_cons, hc]
          exact List.mem_cons.2 (Or.inl (by rw [hb]))
        · rw [SimpleGraph.Walk.edges_cons]
          refine List.mem_cons_of_mem _ (ihn q' ?_ hq1)
          rw [SimpleGraph.Walk.length_cons] at hle
          omega
  intro v c hc
  by_cases hv0 : v0 ∈ c.support
  · have hc' := hc.rotate hv0
    cases hcw : c.rotate hv0 with
    | nil =>
      rw [hcw] at hc'
      have := hc'.three_le_length
      simp at this
    | @cons _ b _ hadj p =>
      rw [hcw] at hc'
      have hb : b = u0 := by
        rcases hsub v0 b hadj with h | h | h
        · exact absurd h (hiso b)
        · exact h.2
        · exact absurd h.1.symm hne
      have hlen : 1 ≤ p.length := by
        have h3 := hc'.three_le_length
        rw [SimpleGraph.Walk.length_cons] at h3
        omega
      have hmem : s(v0, b) ∈ p.edges := by
        have h0 : s(u0, v0) ∈ p.edges := lastEdge p.length p le_rfl hlen
        have hswap : s(v0, b) = s(u0, v0) := by rw [hb, Sym2.eq_swap]
        rw [hswap]
        exact h0
      have hnodup := hc'.edges_nodup
      rw [SimpleGraph.Walk.edges_cons] at hnodup
      exact (List.nodup_cons.1 hnodup).1 hmem
  · have hedges : ∀ e ∈ c.edges, e ∈ G.edgeSet := by
      intro e he
      induction e using Sym2.ind with
      | _ a b =>
        have hadj : G'.Adj a b := c.adj_of_mem_edges he
        have ha : a ∈ c.support := c.fst_mem_support_of_mem_edges he
        have hb : b ∈ c.support := c.snd_mem_support_of_mem_edges he
        rcases hsub a b hadj with h | h | h
        · exact (G.mem_edgeSet).2 h
        · exact absurd (h.1 ▸ ha) hv0
        · exact absurd (h.2 ▸ hb) hv0
    exact hG (c.transfer G hedges) (hc.transfer hedges)

/-- With symmetry=None the symmetric wall removal degenerates to
clearing the two facing wall bits of the carved pair. -/
theorem Maze.carve_none_eq {m : Maze} {x y nx ny : Int} {d : Direction}
    (hsym : m.symmetry = Symmetry.none) (hwr : m.wrap = false)
    (hxb : m.inBounds x y = true)
    (hn : m.get_neighbor x y d = some (nx, ny)) :
    m.apply_symmetric_wall_removal x y d =
      (m.removeWallAt x y d).removeWallAt nx ny d.opposite := by
  have hnw := Maze.get_neighbor_nowrap hwr hn
  have hb := Maze.inBounds_iff.1 hxb
  have hbn := Maze.inBounds_iff.1 hnw.2.2
  have hbn' : 0 ≤ x + d.value.1 ∧ x + d.value.1 < (m.width : Int) ∧
      0 ≤ y + d.value.2 ∧ y + d.value.2 < (m.height : Int) := by
    rw [hnw.1, hnw.2.1] at hbn
    exact hbn
  rw [Maze.apply_symmetric_wall_removal_eq, hsym]
  unfold symClears symOrbit
  dsimp only
  rw [List.flatMap_cons, List.flatMap_nil, List.append_nil]
  unfold clearsOfAt
  dsimp only
  have hg1 : getCellP m.width m.height m.wrap x y = some (x, y) := by
    unfold getCellP
    rw [hwr, if_neg (by simp : ¬(false = true)), if_neg (by omega)]
  rw [hg1]
  dsimp only
  rw [symStepDir_self]
  have hg2 : getCellP m.width m.height m.wrap (x + d.value.1) (y + d.value.2) =
      some (nx, ny) := by
    unfold getCellP
    rw [hwr, if_neg (by simp : ¬(false = true)), if_neg (by omega), hnw.1, hnw.2.1]
  rw [hg2]
  dsimp only
  have hg3 : rwbDirs m.width m.height m.wrap x y nx ny = some (d, d.opposite) := by
    unfold rwbDirs
    rw [hnw.1, hnw.2.1,
      show x + d.value.1 - x = d.value.1 from by ring,
      show y + d.value.2 - y = d.value.2 from by ring,
      Direction.from_vector_value]
  rw [hg3]
  rfl

theorem Maze.edgeOpenCanon_setVisited (m : Maze) (u v : Int) (p : Int × Int)
    (dd : Direction) :
    (m.setVisited u v).edgeOpenCanon p dd = m.edgeOpenCanon p dd := by
  unfold Maze.edgeOpenCanon
  dsimp only
  rw [Maze.wallB_setVisited, Maze.wallB_setVisited]
  rfl

/-- If every in-range wall is present, no canonical edge slot is open. -/
theorem Maze.edgeOpenCanon_allWalls {m : Maze}
    (hall : ∀ x y, m.inBounds x y = true → ∀ d, m.wallB x y d = true)
    (p : Int × Int) (dd : Direction) : m.edgeOpenCanon p dd = false := by
  unfold Maze.edgeOpenCanon
  by_cases hb : m.inBounds p.1 p.2 = true
  · rw [hall p.1 p.2 hb dd]
    simp
  · rw [Bool.not_eq_true] at hb
    rw [hb]
    simp

/-- A maze with every in-range wall present has no graph edges. -/
theorem Maze.adjB_allWalls {m : Maze}
    (hall : ∀ x y, m.inBounds x y = true → ∀ d, m.wallB x y d = true)
    (p q : Int × Int) : m.adjB p q = false := by
  unfold Maze.adjB
  rw [Maze.edgeOpenCanon_allWalls hall, Maze.edgeOpenCanon_allWalls hall,
    Maze.edgeOpenCanon_allWalls hall, Maze.edgeOpenCanon_allWalls hall]
  simp

theorem isAcyclic_of_no_adj {m : Maze}
    (hno : ∀ p q : Int × Int, m.adjB p q = false) : (mazeGraph m).IsAcyclic := by
  intro v c hc
  cases c with
  | nil =>
    have := hc.three_le_length
    simp at this
  | cons hadj p =>
    have : m.adjB _ _ = true := hadj
    rw [hno] at this
    exact absurd this (by simp)

theorem decide3_false {P Q R : Prop} [Decidable P] [Decidable Q] [Decidable R]
    (h : ¬(P ∧ Q ∧ R)) : (decide P && decide Q && decide R) = false := by
  cases hP : decide P <;> cases hQ : decide Q <;> cases hR : decide R <;> simp_all

/-- Any canonical slot that reads one of the two wall bits cleared by a
carve is the carve's own canonical edge. -/
theorem canonEdge_reads {x y nx ny : Int} {d : Direction}
    (hnx : nx = x + d.value.1) (hny : ny = y + d.value.2)
    {p : Int × Int} {dd : Direction}
    (hdd : dd = Direction.right ∨ dd = Direction.down) :
    ((p.1 = x ∧ p.2 = y ∧ dd = d) ∨
     (p.1 = nx ∧ p.2 = ny ∧ dd = d.opposite) ∨
     (p.1 + dd.value.1 = x ∧ p.2 + dd.value.2 = y ∧ dd.opposite = d) ∨
     (p.1 + dd.value.1 = nx ∧ p.2 + dd.value.2 = ny ∧ dd.opposite = d.opposite)) →
    (p, dd) = canonEdge x y d := by
  intro hcase
  rcases hdd with rfl | rfl <;> cases d <;>
    simp_all [canonEdge, Direction.opposite, Direction.value, Prod.ext_iff] <;>
    omega

/-- Carving from `(x, y)` in direction `d` leaves every canonical slot
other than its own canonical edge unchanged. -/
theorem Maze.edgeOpenCanon_carve_other {m : Maze} {x y nx ny : Int} {d : Direction}
    (hnx : nx = x + d.value.1) (hny : ny = y + d.value.2)
    {p : Int × Int} {dd : Direction}
    (hdd : dd = Direction.right ∨ dd = Direction.down)
    (hne : (p, dd) ≠ canonEdge x y d) :
    ((m.removeWallAt x y d).removeWallAt nx ny d.opposite).edgeOpenCanon p dd =
      m.edgeOpenCanon p dd := by
  unfold Maze.edgeOpenCanon
  dsimp only
  rw [Maze.wallB_removeWallAt, Maze.wallB_removeWallAt, Maze.wallB_removeWallAt,
    Maze.wallB_removeWallAt]
  rw [decide3_false (fun hc => hne (canonEdge_reads hnx hny hdd (Or.inl hc))),
    decide3_false (fun hc => hne (canonEdge_reads hnx hny hdd (Or.inr (Or.inl hc)))),
    decide3_false (fun hc => hne (canonEdge_reads hnx hny hdd (Or.inr (Or.inr (Or.inl hc))))),
    decide3_false (fun hc => hne (canonEdge_reads hnx hny hdd (Or.inr (Or.inr (Or.inr hc)))))]
  simp only [Bool.not_false, Bool.and_true]
  rfl

/-- Before the carve the carve's canonical edge is closed (the target
cell is fully walled). -/
theorem Maze.edgeOpenCanon_carve_closed {m : Maze} {x y nx ny : Int} {d : Direction}
    (hnx : nx = x + d.value.1) (hny : ny = y + d.value.2)
    (hfull : ∀ e, m.wallB nx ny e = true) :
    m.edgeOpenCanon (canonEdge x y d).1 (canonEdge x y d).2 = false := by
  subst hnx
  subst hny
  cases d <;> unfold canonEdge Maze.edgeOpenCanon <;> dsimp only
  · have hb : m.wallB x (y - 1) Direction.down = true := by
      have h0 := hfull Direction.down
      rw [show x + Direction.up.value.1 = x from by simp only [Direction.value]; ring,
        show y + Direction.up.value.2 = y - 1 from by simp only [Direction.value]; ring] at h0
      exact h0
    rw [hb]
    simp
  · rw [hfull Direction.down.opposite]
    simp
  · have hb : m.wallB (x - 1) y Direction.right = true := by
      have h0 := hfull Direction.right
      rw [show x + Direction.left.value.1 = x - 1 from by simp only [Direction.value]; ring,
        show y + Direction.left.value.2 = y from by simp only [Direction.value]; ring] at h0
      exact h0
    rw [hb]
    simp
  · rw [hfull Direction.right.opposite]
    simp

/-- After the carve the carve's canonical edge is open. -/
theorem Maze.edgeOpenCanon_carve_open {m : Maze} {x y nx ny : Int} {d : Direction}
    (hnx : nx = x + d.value.1) (hny : ny = y + d.value.2)
    (hxb : m.inBounds x y = true) (hnb : m.inBounds nx ny = true) :
    ((m.removeWallAt x y d).removeWallAt nx ny d.opposite).edgeOpenCanon
      (canonEdge x y d).1 (canonEdge x y d).2 = true := by
  subst hnx
  subst hny
  cases d <;> unfold canonEdge Maze.edgeOpenCanon <;> dsimp only
  · -- up: slot ((x, y-1), down)
    rw [show x + Direction.up.value.1 = x from by simp only [Direction.value]; ring,
      show y + Direction.up.value.2 = y - 1 from by simp only [Direction.value]; ring] at hnb ⊢
    rw [show x + Direction.down.value.1 = x from by simp only [Direction.value]; ring,
      show y - 1 + Direction.down.value.2 = y from by simp only [Direction.value]; ring]
    have h1 : ((m.removeWallAt x y Direction.up).removeWallAt x (y - 1)
        Direction.up.opposite).inBounds x (y - 1) = true := hnb
    have h2 : ((m.removeWallAt x y Direction.up).removeWallAt x (y - 1)
        Direction.up.opposite).inBounds x y = true := hxb
    rw [h1, h2, Maze.wallB_removeWallAt, Maze.wallB_removeWallAt,
      Maze.wallB_removeWallAt, Maze.wallB_removeWallAt]
    simp [Direction.opposite]
  · -- down: slot ((x, y), down)
    have h1 : ((m.removeWallAt x y Direction.down).removeWallAt
        (x + Direction.down.value.1) (y + Direction.down.value.2)
        Direction.down.opposite).inBounds x y = true := hxb
    have h2 : ((m.removeWallAt x y Direction.down).removeWallAt
        (x + Direction.down.value.1) (y + Direction.down.value.2)
        Direction.down.opposite).inBounds (x + Direction.down.value.1)
        (y + Direction.down.value.2) = true := hnb
    rw [h1, h2, Maze.wallB_removeWallAt, Maze.wallB_removeWallAt,
      Maze.wallB_removeWallAt, Maze.wallB_removeWallAt]
    simp [Direction.opposite]
  · -- left: slot ((x-1, y), right)
    rw [show x + Direction.left.value.1 = x - 1 from by simp only [Direction.value]; ring,
      show y + Direction.left.value.2 = y from by simp only [Direction.value]; ring] at hnb ⊢
    rw [show x - 1 + Direction.right.value.1 = x from by simp only [Direction.value]; ring,
      show y + Direction.right.value.2 = y from by simp only [Direction.value]; ring]
    have h1 : ((m.removeWallAt x y Direction.left).removeWallAt (x - 1) y
        Direction.left.opposite).inBounds (x - 1) y = true := hnb
    have h2 : ((m.removeWallAt x y Direction.left).removeWallAt (x - 1) y
        Direction.left.opposite).inBounds x y = true := hxb
    rw [h1, h2, Maze.wallB_removeWallAt, Maze.wallB_removeWallAt,
      Maze.wallB_removeWallAt, Maze.wallB_removeWallAt]
    simp [Direction.opposite]
  · -- right: slot ((x, y), right)
    have h1 : ((m.removeWallAt x y Direction.right).removeWallAt
        (x + Direction.right.value.1) (y + Direction.right.value.2)
        Direction.right.opposite).inBounds x y = true := hxb
    have h2 : ((m.removeWallAt x y Direction.right).removeWallAt
        (x + Direction.right.value.1) (y + Direction.right.value.2)
        Direction.right.opposite).inBounds (x + Direction.right.value.1)
        (y + Direction.right.value.2) = true := hnb
    rw [h1, h2, Maze.wallB_removeWallAt, Maze.wallB_removeWallAt,
      Maze.wallB_removeWallAt, Maze.wallB_removeWallAt]
    simp [Direction.opposite]

/-- Wall removals never close an open canonical edge. -/
theorem Maze.edgeOpenCanon_carve_mono {m : Maze} {x y nx ny : Int} {d : Direction}
    {r : Int × Int} {dd : Direction} (h : m.edgeOpenCanon r dd = true) :
    ((m.removeWallAt x y d).removeWallAt nx ny d.opposite).edgeOpenCanon r dd = true := by
  unfold Maze.edgeOpenCanon at h ⊢
  dsimp only at h ⊢
  have hib : ∀ a b, ((m.removeWallAt x y d).removeWallAt nx ny
      d.opposite).inBounds a b = m.inBounds a b := fun _ _ => rfl
  rw [hib, hib, Maze.wallB_removeWallAt, Maze.wallB_removeWallAt,
    Maze.wallB_removeWallAt, Maze.wallB_removeWallAt]
  simp only [Bool.and_eq_true, Bool.not_eq_true'] at h
  obtain ⟨⟨⟨hA, hB⟩, h1⟩, h2⟩ := h
  rw [hA, hB, h1, h2]
  simp

/-- A fully walled cell is isolated in the open-edge graph. -/
theorem carve_adj_iso {m : Maze} {nx ny : Int}
    (hfull : ∀ e, m.wallB nx ny e = true) :
    ∀ a, ¬ (mazeGraph m).Adj (nx, ny) a := by
  intro a hadj
  have hadj' : m.adjB (nx, ny) a = true := hadj
  unfold Maze.adjB at hadj'
  dsimp only at hadj'
  simp only [Bool.or_eq_true, Bool.and_eq_true, beq_iff_eq] at hadj'
  rcases hadj' with ((⟨⟨h1, h2⟩, h3⟩ | ⟨⟨h1, h2⟩, h3⟩) | ⟨⟨h1, h2⟩, h3⟩) |
    ⟨⟨h1, h2⟩, h3⟩
  · unfold Maze.edgeOpenCanon at h3
    dsimp only at h3
    rw [hfull Direction.right] at h3
    simp at h3
  · unfold Maze.edgeOpenCanon at h3
    dsimp only at h3
    rw [hfull Direction.down] at h3
    simp at h3
  · unfold Maze.edgeOpenCanon at h3
    dsimp only at h3
    rw [show a.1 + Direction.right.value.1 = nx from by
        have hv : Direction.right.value.1 = 1 := rfl
        omega,
      show a.2 + Direction.right.value.2 = ny from by
        have hv : Direction.right.value.2 = 0 := rfl
        omega,
      hfull Direction.right.opposite] at h3
    simp at h3
  · unfold Maze.edgeOpenCanon at h3
    dsimp only at h3
    rw [show a.1 + Direction.down.value.1 = nx from by
        have hv : Direction.down.value.1 = 0 := rfl
        omega,
      show a.2 + Direction.down.value.2 = ny from by
        have hv : Direction.down.value.2 = 1 := rfl
        omega,
      hfull Direction.down.opposite] at h3
    simp at h3

/-- The carve step only adds graph edges. -/
theorem carve_adj_mono {m : Maze} {x y nx ny : Int} {d : Direction} :
    mazeGraph m ≤
      mazeGraph (((m.removeWallAt x y d).removeWallAt nx ny
        d.opposite).setVisited nx ny) := by
  intro p q hadj
  have hadj' : m.adjB p q = true := hadj
  show (((m.removeWallAt x y d).removeWallAt nx ny d.opposite).setVisited nx ny).adjB
    p q = true
  unfold Maze.adjB at hadj' ⊢
  simp only [Bool.or_eq_true, Bool.and_eq_true, beq_iff_eq] at hadj' ⊢
  have hop : ∀ (r : Int × Int) (dd : Direction), m.edgeOpenCanon r dd = true →
      (((m.removeWallAt x y d).removeWallAt nx ny d.opposite).setVisited
        nx ny).edgeOpenCanon r dd = true := by
    intro r dd h
    rw [Maze.edgeOpenCanon_setVisited]
    exact Maze.edgeOpenCanon_carve_mono h
  rcases hadj' with ((⟨⟨h1, h2⟩, h3⟩ | ⟨⟨h1, h2⟩, h3⟩) | ⟨⟨h1, h2⟩, h3⟩) |
    ⟨⟨h1, h2⟩, h3⟩
  · exact Or.inl (Or.inl (Or.inl ⟨⟨h1, h2⟩, hop _ _ h3⟩))
  · exact Or.inl (Or.inl (Or.inr ⟨⟨h1, h2⟩, hop _ _ h3⟩))
  · exact Or.inl (Or.inr ⟨⟨h1, h2⟩, hop _ _ h3⟩)
  · exact Or.inr ⟨⟨h1, h2⟩, hop _ _ h3⟩

/-- The carve step creates the edge between the carved pair. -/
theorem carve_adj_new {m : Maze} {x y nx ny : Int} {d : Direction}
    (hnx : nx = x + d.value.1) (hny : ny = y + d.value.2)
    (hxb : m.inBounds x y = true) (hnb : m.inBounds nx ny = true) :
    (mazeGraph (((m.removeWallAt x y d).removeWallAt nx ny
      d.opposite).setVisited nx ny)).Adj (x, y) (nx, ny) := by
  have hopenT : (((m.removeWallAt x y d).removeWallAt nx ny
      d.opposite).setVisited nx ny).edgeOpenCanon (canonEdge x y d).1
      (canonEdge x y d).2 = true := by
    rw [Maze.edgeOpenCanon_setVisited]
    exact Maze.edgeOpenCanon_carve_open hnx hny hxb hnb
  show (((m.removeWallAt x y d).removeWallAt nx ny d.opposite).setVisited
    nx ny).adjB (x, y) (nx, ny) = true
  unfold Maze.adjB
  dsimp only
  simp only [Bool.or_eq_true, Bool.and_eq_true, beq_iff_eq]
  cases d with
  | up =>
    have hv1 : Direction.up.value.1 = 0 := rfl
    have hv2 : Direction.up.value.2 = -1 := rfl
    refine Or.inr ⟨⟨by omega, by omega⟩, ?_⟩
    rw [show ((nx, ny) : Int × Int) = (x, y - 1) from by
      rw [show nx = x from by omega, show ny = y - 1 from by omega]]
    exact hopenT
  | down =>
    have hv1 : Direction.down.value.1 = 0 := rfl
    have hv2 : Direction.down.value.2 = 1 := rfl
    refine Or.inl (Or.inl (Or.inr ⟨⟨by omega, by omega⟩, ?_⟩))
    exact hopenT
  | left =>
    have hv1 : Direction.left.value.1 = -1 := rfl
    have hv2 : Direction.left.value.2 = 0 := rfl
    refine Or.inl (Or.inr ⟨⟨by omega, by omega⟩, ?_⟩)
    rw [show ((nx, ny) : Int × Int) = (x - 1, y) from by
      rw [show nx = x - 1 from by omega, show ny = y from by omega]]
    exact hopenT
  | right =>
    have hv1 : Direction.right.value.1 = 1 := rfl
    have hv2 : Direction.right.value.2 = 0 := rfl
    refine Or.inl (Or.inl (Or.inl ⟨⟨by omega, by omega⟩, ?_⟩))
    exact hopenT

/-- Every edge of the carved maze is an old edge or the one new edge
between the carved pair. -/
theorem carve_adj_sub {m : Maze} {x y nx ny : Int} {d : Direction}
    (hnx : nx = x + d.value.1) (hny : ny = y + d.value.2) :
    ∀ a b, (mazeGraph (((m.removeWallAt x y d).removeWallAt nx ny
      d.opposite).setVisited nx ny)).Adj a b →
      (mazeGraph m).Adj a b ∨ (a = (nx, ny) ∧ b = (x, y)) ∨
        (a = (x, y) ∧ b = (nx, ny)) := by
  intro a b hadj
  have hadj' : (((m.removeWallAt x y d).removeWallAt nx ny d.opposite).setVisited
      nx ny).adjB a b = true := hadj
  unfold Maze.adjB at hadj'
  simp only [Bool.or_eq_true, Bool.and_eq_true, beq_iff_eq] at hadj'
  rcases hadj' with ((⟨⟨h1, h2⟩, h3⟩ | ⟨⟨h1, h2⟩, h3⟩) | ⟨⟨h1, h2⟩, h3⟩) |
    ⟨⟨h1, h2⟩, h3⟩
  · -- clause 1: slot (a, right), b = a + (1, 0)
    rw [Maze.edgeOpenCanon_setVisited] at h3
    by_cases hrt : ((a : Int × Int), Direction.right) = canonEdge x y d
    · have hf : a = (canonEdge x y d).1 := congrArg Prod.fst hrt
      have hs : Direction.right = (canonEdge x y d).2 := congrArg Prod.snd hrt
      cases d with
      | up => simp [canonEdge] at hs
      | down => simp [canonEdge] at hs
      | left =>
        have hv1 : Direction.left.value.1 = -1 := rfl
        have hv2 : Direction.left.value.2 = 0 := rfl
        have ha1 : a.1 = x - 1 := congrArg Prod.fst hf
        have ha2 : a.2 = y := congrArg Prod.snd hf
        refine Or.inr (Or.inl ⟨Prod.ext_iff.mpr ⟨by omega, by omega⟩,
          Prod.ext_iff.mpr ⟨by omega, by omega⟩⟩)
      | right =>
        have hv1 : Direction.right.value.1 = 1 := rfl
        have hv2 : Direction.right.value.2 = 0 := rfl
        have ha1 : a.1 = x := congrArg Prod.fst hf
        have ha2 : a.2 = y := congrArg Prod.snd hf
        refine Or.inr (Or.inr ⟨Prod.ext_iff.mpr ⟨by omega, by omega⟩,
          Prod.ext_iff.mpr ⟨by omega, by omega⟩⟩)
    · rw [Maze.edgeOpenCanon_carve_other hnx hny (Or.inl rfl) hrt] at h3
      refine Or.inl ?_
      show m.adjB a b = true
      unfold Maze.adjB
      simp only [Bool.or_eq_true, Bool.and_eq_true, beq_iff_eq]
      exact Or.inl (Or.inl (Or.inl ⟨⟨h1, h2⟩, h3⟩))
  · -- clause 2: slot (a, down), b = a + (0, 1)
    rw [Maze.edgeOpenCanon_setVisited] at h3
    by_cases hrt : ((a : Int × Int), Direction.down) = canonEdge x y d
    · have hf : a = (canonEdge x y d).1 := congrArg Prod.fst hrt
      have hs : Direction.down = (canonEdge x y d).2 := congrArg Prod.snd hrt
      cases d with
      | left => simp [canonEdge] at hs
      | right => simp [canonEdge] at hs
      | up =>
        have hv1 : Direction.up.value.1 = 0 := rfl
        have hv2 : Direction.up.value.2 = -1 := rfl
        have ha1 : a.1 = x := congrArg Prod.fst hf
        have ha2 : a.2 = y - 1 := congrArg Prod.snd hf
        refine Or.inr (Or.inl ⟨Prod.ext_iff.mpr ⟨by omega, by omega⟩,
          Prod.ext_iff.mpr ⟨by omega, by omega⟩⟩)
      | down =>
        have hv1 : Direction.down.value.1 = 0 := rfl
        have hv2 : Direction.down.value.2 = 1 := rfl
        have ha1 : a.1 = x := congrArg Prod.fst hf
        have ha2 : a.2 = y := congrArg Prod.snd hf
        refine Or.inr (Or.inr ⟨Prod.ext_iff.mpr ⟨by omega, by omega⟩,
          Prod.ext_iff.mpr ⟨by omega, by omega⟩⟩)
    · rw [Maze.edgeOpenCanon_carve_other hnx hny (Or.inr rfl) hrt] at h3
      refine Or.inl ?_
      show m.adjB a b = true
      unfold Maze.adjB
      simp only [Bool.or_eq_true, Bool.and_eq_true, beq_iff_eq]
      exact Or.inl (Or.inl (Or.inr ⟨⟨h1, h2⟩, h3⟩))
  · -- clause 3: slot (b, right), a = b + (1, 0)
    rw [Maze.edgeOpenCanon_setVisited] at h3
    by_cases hrt : ((b : Int × Int), Direction.right) = canonEdge x y d
    · have hf : b = (canonEdge x y d).1 := congrArg Prod.fst hrt
      have hs : Direction.right = (canonEdge x y d).2 := congrArg Prod.snd hrt
      cases d with
      | up => simp [canonEdge] at hs
      | down => simp [canonEdge] at hs
      | left =>
        have hv1 : Direction.left.value.1 = -1 := rfl
        have hv2 : Direction.left.value.2 = 0 := rfl
        have hb1 : b.1 = x - 1 := congrArg Prod.fst hf
        have hb2 : b.2 = y := congrArg Prod.snd hf
        refine Or.inr (Or.inr ⟨Prod.ext_iff.mpr ⟨by omega, by omega⟩,
          Prod.ext_iff.mpr ⟨by omega, by omega⟩⟩)
      | right =>
        have hv1 : Direction.right.value.1 = 1 := rfl
        have hv2 : Direction.right.value.2 = 0 := rfl
        have hb1 : b.1 = x := congrArg Prod.fst hf
        have hb2 : b.2 = y := congrArg Prod.snd hf
        refine Or.inr (Or.inl ⟨Prod.ext_iff.mpr ⟨by omega, by omega⟩,
          Prod.ext_iff.mpr ⟨by omega, by omega⟩⟩)
    · rw [Maze.edgeOpenCanon_carve_other hnx hny (Or.inl rfl) hrt] at h3
      refine Or.inl ?_
      show m.adjB a b = true
      unfold Maze.adjB
      simp only [Bool.or_eq_true, Bool.and_eq_true, beq_iff_eq]
      exact Or.inl (Or.inr ⟨⟨h1, h2⟩, h3⟩)
  · -- clause 4: slot (b, down), a = b + (0, 1)
    rw [Maze.edgeOpenCanon_setVisited] at h3
    by_cases hrt : ((b : Int × Int), Direction.down) = canonEdge x y d
    · have hf : b = (canonEdge x y d).1 := congrArg Prod.fst hrt
      have hs : Direction.down = (canonEdge x y d).2 := congrArg Prod.snd hrt
      cases d with
      | left => simp [canonEdge] at hs
      | right => simp [canonEdge] at hs
      | up =>
        have hv1 : Direction.up.value.1 = 0 := rfl
        have hv2 : Direction.up.value.2 = -1 := rfl
        have hb1 : b.1 = x := congrArg Prod.fst hf
        have hb2 : b.2 = y - 1 := congrArg Prod.snd hf
        refine Or.inr (Or.inr ⟨Prod.ext_iff.mpr ⟨by omega, by omega⟩,
          Prod.ext_iff.mpr ⟨by omega, by omega⟩⟩)
      | down =>
        have hv1 : Direction.down.value.1 = 0 := rfl
        have hv2 : Direction.down.value.2 = 1 := rfl
        have hb1 : b.1 = x := congrArg Prod.fst hf
        have hb2 : b.2 = y := congrArg Prod.snd hf
        refine Or.inr (Or.inl ⟨Prod.ext_iff.mpr ⟨by omega, by omega⟩,
          Prod.ext_iff.mpr ⟨by omega, by omega⟩⟩)
    · rw [Maze.edgeOpenCanon_carve_other hnx hny (Or.inr rfl) hrt] at h3
      refine Or.inl ?_
      show m.adjB a b = true
      unfold Maze.adjB
      simp only [Bool.or_eq_true, Bool.and_eq_true, beq_iff_eq]
      exact Or.inr ⟨⟨h1, h2⟩, h3⟩

/-- The carve step visits exactly one new cell. -/
theorem Maze.visitedCount_carve {m : Maze} {x y nx ny : Int} {d : Direction}
    (hnb : m.inBounds nx ny = true)
    (hnv : (m.cells nx ny).visited = false) :
    (((m.removeWallAt x y d).removeWallAt nx ny d.opposite).setVisited
      nx ny).visitedCount = m.visitedCount + 1 := by
  unfold Maze.visitedCount
  have hw : (((m.removeWallAt x y d).removeWallAt nx ny d.opposite).setVisited
      nx ny).width = m.width := rfl
  have hh : (((m.removeWallAt x y d).removeWallAt nx ny d.opposite).setVisited
      nx ny).height = m.height := rfl
  rw [hw, hh]
  have hq := Maze.inBounds_iff.1 hnb
  have hvq : ∀ a b, ((((m.removeWallAt x y d).removeWallAt nx ny
      d.opposite).setVisited nx ny).cells a b).visited =
      (decide (a = nx ∧ b = ny) || (m.cells a b).visited) := by
    intro a b
    rw [Maze.visited_setVisited, Maze.visited_removeWallAt, Maze.visited_removeWallAt]
  refine filter_length_flip (posList_nodup _ _)
    (posList_mem.2 ⟨hq.1, hq.2.1, hq.2.2.1, hq.2.2.2⟩ :
      ((nx, ny) : Int × Int) ∈ posList m.width m.height) _ _ ?_ ?_ ?_
  · intro q _ hqt
    show ((((m.removeWallAt x y d).removeWallAt nx ny d.opposite).setVisited
      nx ny).cells q.1 q.2).visited = (m.cells q.1 q.2).visited
    rw [hvq]
    have hne : ¬(q.1 = nx ∧ q.2 = ny) := by
      intro hc
      exact hqt (Prod.ext_iff.mpr ⟨hc.1, hc.2⟩)
    simp [hne]
  · exact hnv
  · show ((((m.removeWallAt x y d).removeWallAt nx ny d.opposite).setVisited
      nx ny).cells ((nx, ny) : Int × Int).1 ((nx, ny) : Int × Int).2).visited = true
    rw [hvq]
    simp

/-- The carve step opens exactly one new edge. -/
theorem Maze.edgeCount_carve {m : Maze} {x y nx ny : Int} {d : Direction}
    (hnx : nx = x + d.value.1) (hny : ny = y + d.value.2)
    (hxb : m.inBounds x y = true) (hnb : m.inBounds nx ny = true)
    (hfull : ∀ e, m.wallB nx ny e = true) :
    (((m.removeWallAt x y d).removeWallAt nx ny d.opposite).setVisited
      nx ny).edgeCount = m.edgeCount + 1 := by
  unfold Maze.edgeCount
  rw [Maze.openEdgeList_eq, Maze.openEdgeList_eq]
  have hw : (((m.removeWallAt x y d).removeWallAt nx ny d.opposite).setVisited
      nx ny).width = m.width := rfl
  have hh : (((m.removeWallAt x y d).removeWallAt nx ny d.opposite).setVisited
      nx ny).height = m.height := rfl
  rw [hw, hh]
  have hq := Maze.inBounds_iff.1 hxb
  have hqn := Maze.inBounds_iff.1 hnb
  have htmem : canonEdge x y d ∈ edgeSlots m.width m.height := by
    cases d with
    | up =>
      have hv1 : Direction.up.value.1 = 0 := rfl
      have hv2 : Direction.up.value.2 = -1 := rfl
      refine edgeSlots_mem.2 ⟨posList_mem.2 ⟨?_, ?_, ?_, ?_⟩, Or.inr rfl⟩
      · show (0 : Int) ≤ x
        omega
      · show x < (m.width : Int)
        omega
      · show (0 : Int) ≤ y - 1
        omega
      · show y - 1 < (m.height : Int)
        omega
    | down =>
      exact edgeSlots_mem.2 ⟨posList_mem.2
        ⟨hq.1, hq.2.1, hq.2.2.1, hq.2.2.2⟩, Or.inr rfl⟩
    | left =>
      have hv1 : Direction.left.value.1 = -1 := rfl
      have hv2 : Direction.left.value.2 = 0 := rfl
      refine edgeSlots_mem.2 ⟨posList_mem.2 ⟨?_, ?_, ?_, ?_⟩, Or.inl rfl⟩
      · show (0 : Int) ≤ x - 1
        omega
      · show x - 1 < (m.width : Int)
        omega
      · show (0 : Int) ≤ y
        omega
      · show y < (m.height : Int)
        omega
    | right =>
      exact edgeSlots_mem.2 ⟨posList_mem.2
        ⟨hq.1, hq.2.1, hq.2.2.1, hq.2.2.2⟩, Or.inl rfl⟩
  refine filter_length_flip (edgeSlots_nodup _ _) htmem _ _ ?_ ?_ ?_
  · intro e he het
    obtain ⟨_, hdd⟩ := edgeSlots_mem.1 he
    show (((m.removeWallAt x y d).removeWallAt nx ny d.opposite).setVisited
      nx ny).edgeOpenCanon e.1 e.2 = m.edgeOpenCanon e.1 e.2
    rw [Maze.edgeOpenCanon_setVisited]
    refine Maze.edgeOpenCanon_carve_other hnx hny hdd ?_
    intro hc
    exact het ((show e = (e.1, e.2) from rfl).trans hc)
  · show m.edgeOpenCanon (canonEdge x y d).1 (canonEdge x y d).2 = false
    exact Maze.edgeOpenCanon_carve_closed hnx hny hfull
  · show (((m.removeWallAt x y d).removeWallAt nx ny d.opposite).setVisited
      nx ny).edgeOpenCanon (canonEdge x y d).1 (canonEdge x y d).2 = true
    rw [Maze.edgeOpenCanon_setVisited]
    exact Maze.edgeOpenCanon_carve_open hnx hny hxb hnb

/-- One push step of the DFS carving loop preserves the carve
invariant. -/
theorem CarveInv.step {m : Maze} {x y nx ny : Int} {d : Direction} {v0 : Int × Int}
    (hsym : m.symmetry = Symmetry.none) (hwr : m.wrap = false)
    (hxb : m.inBounds x y = true) (hxv : (m.cells x y).visited = true)
    (hn : m.get_neighbor x y d = some (nx, ny))
    (hnv : (m.cells nx ny).visited = false)
    (hinv : CarveInv m v0) :
    CarveInv ((m.apply_symmetric_wall_removal x y d).setVisited nx ny) v0 := by
  obtain ⟨hful, hcnt, hreach, hacyc⟩ := hinv
  have hnw := Maze.get_neighbor_nowrap hwr hn
  have hnb : m.inBounds nx ny = true := hnw.2.2
  have hfulln : ∀ e, m.wallB nx ny e = true := hful nx ny hnb hnv
  rw [Maze.carve_none_eq hsym hwr hxb hn]
  have hvq : ∀ a b, ((((m.removeWallAt x y d).removeWallAt nx ny
      d.opposite).setVisited nx ny).cells a b).visited =
      (decide (a = nx ∧ b = ny) || (m.cells a b).visited) := by
    intro a b
    rw [Maze.visited_setVisited, Maze.visited_removeWallAt, Maze.visited_removeWallAt]
  have hIB : ∀ a b, ((((m.removeWallAt x y d).removeWallAt nx ny
      d.opposite).setVisited nx ny)).inBounds a b = m.inBounds a b := fun _ _ => rfl
  refine ⟨?_, ?_, ?_, ?_⟩
  · -- unvisited cells stay fully walled
    intro a b hab hav
    rw [hIB] at hab
    rw [hvq] at hav
    obtain ⟨hav1, hav2⟩ := Bool.or_eq_false_iff.1 hav
    have hne : ¬(a = nx ∧ b = ny) := by simpa using hav1
    intro e
    rw [Maze.wallB_setVisited, Maze.wallB_removeWallAt, Maze.wallB_removeWallAt]
    have hne1 : (decide (a = x) && decide (b = y) && decide (e = d)) = false := by
      apply decide3_false
      intro hc
      have hvis : (m.cells a b).visited = true := by
        rw [hc.1, hc.2.1]
        exact hxv
      rw [hvis] at hav2
      exact absurd hav2 (by simp)
    have hne2 : (decide (a = nx) && decide (b = ny) && decide (e = d.opposite)) =
        false := by
      apply decide3_false
      intro hc
      exact hne ⟨hc.1, hc.2.1⟩
    rw [hful a b hab hav2 e, hne1, hne2]
    rfl
  · -- edge count stays one below visited count
    rw [Maze.edgeCount_carve hnw.1 hnw.2.1 hxb hnb hfulln,
      Maze.visitedCount_carve hnb hnv]
    omega
  · -- all visited cells reachable from the start
    intro p hpb hpv
    rw [hIB] at hpb
    rw [hvq] at hpv
    by_cases hp : p.1 = nx ∧ p.2 = ny
    · have hpe : p = (nx, ny) := Prod.ext_iff.mpr hp
      rw [hpe]
      exact ((hreach (x, y) hxb hxv).mono carve_adj_mono).trans
        (carve_adj_new hnw.1 hnw.2.1 hxb hnb).reachable
    · have hpv2 : (m.cells p.1 p.2).visited = true := by
        rcases Bool.or_eq_true_iff.1 hpv with hc | hc
        · exact absurd (of_decide_eq_true hc) hp
        · exact hc
      exact (hreach p hpb hpv2).mono carve_adj_mono
  · -- the open-edge graph stays acyclic
    have hxyne : ((x, y) : Int × Int) ≠ (nx, ny) := by
      intro hc
      have h1 : x = nx := congrArg Prod.fst hc
      have h2 : y = ny := congrArg Prod.snd hc
      have : (m.cells nx ny).visited = true := by
        rw [← h1, ← h2]
        exact hxv
      rw [this] at hnv
      exact absurd hnv (by simp)
    exact isAcyclic_extend_leaf hacyc hxyne (carve_adj_iso hfulln)
      (carve_adj_sub hnw.1 hnw.2.1)

/-- The DFS carving loop preserves the carve invariant (symmetry=None,
wrap=false, all stack cells in range and visited). -/
theorem Maze.dfsLoop_carve {fuel : Nat} :
    ∀ {m m' : Maze} {stack : List (Int × Int)} {rng rng' : List Nat} {v0 : Int × Int},
      Maze.dfsLoop fuel m stack rng = some (m', rng') →
      m.symmetry = Symmetry.none → m.wrap = false →
      (∀ q ∈ stack, m.inBounds q.1 q.2 = true ∧ (m.cells q.1 q.2).visited = true) →
      CarveInv m v0 → CarveInv m' v0 := by
  induction fuel with
  | zero =>
    intro m m' stack rng rng' v0 h
    exact absurd h (by simp [Maze.dfsLoop])
  | succ n ih =>
    intro m m' stack rng rng' v0 h hsym hwr hstack hinv
    match stack with
    | [] =>
      rw [show Maze.dfsLoop (n + 1) m [] rng = some (m, rng) from rfl] at h
      cases h
      exact hinv
    | (x, y) :: rest =>
      rw [Maze.dfsLoop_succ_cons] at h
      by_cases hemp : (m.unvisitedNeighbors x y).isEmpty = true
      · rw [if_pos hemp] at h
        exact ih h hsym hwr (fun q hq => hstack q (List.mem_cons_of_mem _ hq)) hinv
      · rw [if_neg hemp] at h
        set pc := (drawChoice rng (m.unvisitedNeighbors x y) (((0, 0) : Int × Int), .up))
          with hpc
        have hmempc : pc.1 ∈ m.unvisitedNeighbors x y := by
          rw [hpc]
          exact drawChoice_mem _ _ _ (by simpa [List.isEmpty_iff] using hemp)
        have hpick : m.get_neighbor x y pc.1.2 = some pc.1.1 ∧
            (m.cells pc.1.1.1 pc.1.1.2).visited = false := by
          have := Maze.unvisitedNeighbors_mem.1 (by
            rw [show pc.1 = (pc.1.1, pc.1.2) from rfl] at hmempc
            exact hmempc)
          exact this
        have hx := hstack (x, y) (List.mem_cons_self _ _)
        have hpick1 : m.get_neighbor x y pc.1.2 = some (pc.1.1.1, pc.1.1.2) :=
          hpick.1
        have hnb1 : m.inBounds pc.1.1.1 pc.1.1.2 = true :=
          Maze.get_neighbor_inBounds hx.1 hpick1
        have hstep := CarveInv.step hsym hwr hx.1 hx.2 hpick1 hpick.2 hinv
        have hp2 : ((m.apply_symmetric_wall_removal x y pc.1.2).setVisited
            pc.1.1.1 pc.1.1.2).params = m.params := by
          rw [Maze.params_setVisited, Maze.params_apply_symmetric_wall_removal]
        have hvis2 : ∀ a b, (((m.apply_symmetric_wall_removal x y pc.1.2).setVisited
            pc.1.1.1 pc.1.1.2).cells a b).visited =
            (decide (a = pc.1.1.1 ∧ b = pc.1.1.2) || (m.cells a b).visited) := by
          intro a b
          rw [Maze.visited_setVisited, Maze.visited_apply_symmetric_wall_removal]
        refine ih h ?_ ?_ ?_ hstep
        · rw [Maze.symmetry_of_params hp2, hsym]
        · rw [Maze.wrap_of_params hp2, hwr]
        · intro q hq
          rcases List.mem_cons.1 hq with hq1 | hq2
          · subst hq1
            refine ⟨by rw [Maze.inBounds_congr hp2]; exact hnb1, ?_⟩
            rw [hvis2]
            simp
          · have hold := hstack q (by
              rcases List.mem_cons.1 hq2 with hq3 | hq4
              · rw [hq3]
                exact List.mem_cons_self _ _
              · exact List.mem_cons_of_mem _ hq4)
            refine ⟨by rw [Maze.inBounds_congr hp2]; exact hold.1, ?_⟩
            rw [hvis2, hold.2]
            simp

/-- The carve invariant holds right after the reset pass and the
marking of the start cell. -/
theorem CarveInv.init {m : Maze} {cx cy : Int}
    (hcb : m.resetForGenerate.inBounds cx cy = true) :
    CarveInv (m.resetForGenerate.setVisited cx cy) (cx, cy) := by
  have hpr := Maze.params_resetForGenerate m
  have hcb' : m.inBounds cx cy = true := by
    rw [← Maze.inBounds_congr hpr]
    exact hcb
  have hq := Maze.inBounds_iff.1 hcb'
  have hallw : ∀ a b, (m.resetForGenerate.setVisited cx cy).inBounds a b = true →
      ∀ e, (m.resetForGenerate.setVisited cx cy).wallB a b e = true := by
    intro a b hab e
    have hab' : m.inBounds a b = true := by
      rw [← Maze.inBounds_congr hpr]
      exact hab
    have hq2 := Maze.inBounds_iff.1 hab'
    rw [Maze.wallB_setVisited]
    unfold Maze.wallB
    rw [Maze.cells_resetForGenerate,
      if_pos (posList_mem.2 ⟨hq2.1, hq2.2.1, hq2.2.2.1, hq2.2.2.2⟩)]
    exact hasWallResetCell _ _
  have hvall : ∀ a b, ((m.resetForGenerate.setVisited cx cy).cells a b).visited =
      (decide (a = cx ∧ b = cy) ||
        (m.resetForGenerate.cells a b).visited) := by
    intro a b
    rw [Maze.visited_setVisited]
  have hresetv : ∀ q : Int × Int, q ∈ posList m.width m.height →
      ((m.resetForGenerate.cells q.1 q.2)).visited = false := by
    intro q hq2
    rw [Maze.cells_resetForGenerate, if_pos hq2]
  refine ⟨fun a b hab _ e => hallw a b hab e, ?_, ?_, ?_⟩
  · -- edgeCount 0, visitedCount 1
    have hec : (m.resetForGenerate.setVisited cx cy).edgeCount = 0 := by
      unfold Maze.edgeCount
      rw [Maze.openEdgeList_eq]
      rw [List.filter_eq_nil_iff.2 (fun e _ => by
        rw [Maze.edgeOpenCanon_allWalls hallw]
        simp)]
      rfl
    have hvc : (m.resetForGenerate.setVisited cx cy).visitedCount = 1 := by
      unfold Maze.visitedCount
      have hw : (m.resetForGenerate.setVisited cx cy).width = m.width :=
        Maze.width_of_params (by rw [Maze.params_setVisited, hpr])
      have hh : (m.resetForGenerate.setVisited cx cy).height = m.height :=
        Maze.height_of_params (by rw [Maze.params_setVisited, hpr])
      rw [hw, hh]
      have hflip := filter_length_flip (posList_nodup m.width m.height)
        (posList_mem.2 ⟨hq.1, hq.2.1, hq.2.2.1, hq.2.2.2⟩ :
          ((cx, cy) : Int × Int) ∈ posList m.width m.height)
        (fun _ => false)
        (fun q => ((m.resetForGenerate.setVisited cx cy).cells q.1 q.2).visited)
        (fun q hq2 hqt => by
          show ((m.resetForGenerate.setVisited cx cy).cells q.1 q.2).visited = false
          rw [hvall, hresetv q hq2]
          have hne : ¬(q.1 = cx ∧ q.2 = cy) := by
            intro hc
            exact hqt (Prod.ext_iff.mpr ⟨hc.1, hc.2⟩)
          simp [hne])
        rfl
        (by
          show ((m.resetForGenerate.setVisited cx cy).cells
            ((cx, cy) : Int × Int).1 ((cx, cy) : Int × Int).2).visited = true
          rw [hvall]
          simp)
      rw [hflip, List.filter_false]
      rfl
    rw [hec, hvc]
  · -- only the start is visited, and it reaches itself
    intro p hpb hpv
    have hpb' : m.inBounds p.1 p.2 = true := by
      rw [← Maze.inBounds_congr (by rw [Maze.params_setVisited, hpr] :
        (m.resetForGenerate.setVisited cx cy).params = m.params)]
      exact hpb
    have hq2 := Maze.inBounds_iff.1 hpb'
    rw [hvall, hresetv p (posList_mem.2 ⟨hq2.1, hq2.2.1, hq2.2.2.1, hq2.2.2.2⟩)] at hpv
    simp only [Bool.or_false] at hpv
    have hpe := of_decide_eq_true hpv
    rw [show p = ((cx, cy) : Int × Int) from Prod.ext_iff.mpr ⟨hpe.1, hpe.2⟩]
  · exact isAcyclic_of_no_adj (fun p q => by
      unfold Maze.adjB
      rw [Maze.edgeOpenCanon_allWalls hallw, Maze.edgeOpenCanon_allWalls hallw,
        Maze.edgeOpenCanon_allWalls hallw, Maze.edgeOpenCanon_allWalls hallw]
      simp)

/-- The carve stage output (symmetry=None, wrap=false) is a spanning
tree: one less open edge than cells, all cells reachable from each
other, and no cycles. -/
theorem Maze.generateCarve_spanning {m m1 : Maze} {sx sy : Int} {rng rng1 : List Nat}
    (hsym : m.symmetry = Symmetry.none) (hwr : m.wrap = false)
    (h : m.generateCarve sx sy rng = some (m1, rng1)) :
    m1.edgeCount = m.width * m.height - 1 ∧
    (∀ p q : Int × Int, m1.inBounds p.1 p.2 = true → m1.inBounds q.1 q.2 = true →
      (mazeGraph m1).Reachable p q) ∧
    (mazeGraph m1).IsAcyclic := by
  obtain ⟨hps, -, hallv⟩ := Maze.generateCarve_post h
  unfold Maze.generateCarve at h
  simp only at h
  rcases hgc : m.resetForGenerate.get_cell
      (if m.symmetry ≠ Symmetry.none then min sx ((m.width : Int) / 2) else sx)
      (if m.symmetry ≠ Symmetry.none then min sy ((m.height : Int) / 2) else sy)
      with _ | ⟨cx, cy⟩
  · rw [hgc] at h
    simp at h
  · rw [hgc] at h
    simp only at h
    rcases hdfs : Maze.dfsLoop (2 * m.width * m.height + 2)
        (m.resetForGenerate.setVisited cx cy) [(cx, cy)] rng with _ | ⟨m3, rng3⟩
    · rw [hdfs] at h
      simp at h
    · rw [hdfs] at h
      simp only [Option.some.injEq, Prod.mk.injEq] at h
      obtain ⟨h1, -⟩ := h
      have hpr := Maze.params_resetForGenerate m
      have hp2 : (m.resetForGenerate.setVisited cx cy).params = m.params := by
        rw [Maze.params_setVisited, hpr]
      have hp3 : m3.params = m.params := (Maze.params_dfsLoop hdfs).trans hp2
      have hdeg : ¬(m.width = 0 ∨ m.height = 0) := by
        intro hdeg
        have hgc2 : m.resetForGenerate.get_cell
            (if m.symmetry ≠ Symmetry.none then min sx ((m.width : Int) / 2) else sx)
            (if m.symmetry ≠ Symmetry.none then min sy ((m.height : Int) / 2) else sy)
            = none := by
          unfold Maze.get_cell
          rw [Maze.wrap_of_params hpr, hwr,
            Maze.width_of_params hpr, Maze.height_of_params hpr]
          rw [if_neg (by simp : ¬(false = true)), if_pos (by
            rcases hdeg with h0 | h0 <;> rw [h0] <;> push_cast <;> omega)]
        rw [hgc2] at hgc
        exact absurd hgc (by simp)
      push_neg at hdeg
      have hcb : m.resetForGenerate.inBounds cx cy = true :=
        Maze.get_cell_inBounds
          (by rw [Maze.width_of_params hpr]; omega)
          (by rw [Maze.height_of_params hpr]; omega) hgc
      have hinv3 : CarveInv m3 (cx, cy) := by
        refine Maze.dfsLoop_carve hdfs ?_ ?_ ?_ (CarveInv.init hcb)
        · rw [Maze.symmetry_of_params hp2, hsym]
        · rw [Maze.wrap_of_params hp2, hwr]
        · intro q hq
          rcases List.mem_cons.1 hq with hq1 | hq1
          · subst hq1
            refine ⟨hcb, ?_⟩
            rw [Maze.visited_setVisited]
            simp
          · exact absurd hq1 (List.not_mem_nil _)
      have hsym3 : m3.symmetry = Symmetry.none := by
        rw [Maze.symmetry_of_params hp3, hsym]
      have hm1 : m1 = m3 := by
        rw [← h1]
        unfold Maze.reconcileSymmetry
        rw [if_pos hsym3]
      subst hm1
      obtain ⟨-, hcnt, hreach, hacyc⟩ := hinv3
      have hvcfull : m1.visitedCount = m.width * m.height := by
        unfold Maze.visitedCount
        rw [Maze.width_of_params hp3, Maze.height_of_params hp3]
        rw [List.filter_eq_self.2 (fun q hq => by
          have hb := posList_mem.1 hq
          exact hallv q.1 q.2 (by
            rw [Maze.inBounds_congr hp3]
            exact Maze.inBounds_iff.2 ⟨hb.1, hb.2.1, hb.2.2.1, hb.2.2.2⟩))]
        exact posList_length _ _
      refine ⟨by omega, ?_, hacyc⟩
      intro p q hpb hqb
      exact ((hreach p hpb (hallv p.1 p.2 hpb)).symm).trans
        (hreach q hqb (hallv q.1 q.2 hqb))

/-- C3: spanning-tree output of the DFS carving.  With symmetry=None
and wrap disabled, immediately after the carve stage the number of open
edges is `width*height - 1`, every two in-range cells are connected
through open edges, and the open-edge graph is acyclic. -/
theorem C3_spanning_tree :
    ∀ (m : Maze) (sx sy : Int) (rng : List Nat) (r : Maze × List Nat),
      m.symmetry = Symmetry.none → m.wrap = false →
      m.generateCarve sx sy rng = some r →
      r.1.edgeCount = m.width * m.height - 1 ∧
      (∀ p q : Int × Int, r.1.inBounds p.1 p.2 = true →
        r.1.inBounds q.1 q.2 = true → (mazeGraph r.1).Reachable p q) ∧
      (mazeGraph r.1).IsAcyclic :=
  fun _ _ _ _ r hsym hwr h => Maze.generateCarve_spanning hsym hwr
    (by rw [h] : _ = some (r.1, r.2))

theorem C3_spanning_tree_witness :
    ((mkMazeRaw 2 2 false Symmetry.none).generateCarve 0 0 [1]).map
      (fun r => decide (r.1.edgeCount = 2 * 2 - 1)) = some true := by
  have hsome : ((mkMazeRaw 2 2 false Symmetry.none).generateCarve 0 0 [1]).isSome =
      true := by decide
  rcases hg : (mkMazeRaw 2 2 false Symmetry.none).generateCarve 0 0 [1] with _ | r
  · rw [hg] at hsome
    simp at hsome
  · exact congrArg some (decide_eq_true
      ((C3_spanning_tree (mkMazeRaw 2 2 false Symmetry.none) 0 0 [1] r
        rfl rfl hg).1))

end Lab
